import Mathlib

/-!
Quantized CNN inference on Zynq: software reference path and accelerator kernels.

A verification development over a shallow embedding of

* `software/cpu_baseline/cnn_inference_cpu.cpp` (class `CPUConvolution`),
* `hardware/hls/conv_accelerator/conv_accelerator.cpp` (`conv2d_compute`, `conv_accelerator`),
* `hardware/hls/activation/activation.cpp` (`relu`, `relu6`, `leaky_relu`),
* `software/drivers/cnn_fpga_driver.cpp` (class `CNNFPGADriver`),
* `models/configs/mobilenet_config.h` (the topology tables and the buffer sizes),
* `software/cpu_baseline/cnn_inference_cpu.cpp` and `software/hw_accelerated/cnn_inference_hw.cpp`
  (`MobileNetCPU::inference`, `MobileNetFPGA::inference`),
* `models/quantized/configs/load_weights.cpp` (`load_quantized_weights`).

Conventions of the embedding

* A C pointer to a buffer is a map `Int → Int` from element offsets to element values; a store
  `p[i] = v` is `Function.update p i v`.
* C `int` geometry (sizes, indices) is an unbounded `Int`; `/` on `int` is `Int.tdiv`
  (quotient truncated toward zero).
* The `int32_t` accumulator is an `Int` reduced by `wrap32` after every addition; a ghost flag
  records whether any addition left the 32-bit range.
* `for (int i = 0; i < n; i++) body` is `forLoop n body`.
-/

/-! ## Machine arithmetic -/

/-- Two's-complement reduction of an integer to the signed 32-bit range. -/
def wrap32 (x : Int) : Int := (x + 2147483648) % 4294967296 - 2147483648

/-- Two's-complement reduction of an integer to the signed 16-bit range. -/
def wrap16 (x : Int) : Int := (x + 32768) % 65536 - 32768

/-- The cast `(qint8_t)x`: two's-complement reduction to the signed 8-bit range. -/
def toInt8 (x : Int) : Int := (x + 128) % 256 - 128

/-- Membership of the signed 32-bit range. -/
def inInt32 (x : Int) : Bool := decide (-2147483648 ≤ x) && decide (x ≤ 2147483647)

/-- Membership of the signed 8-bit range. -/
def inInt8 (x : Int) : Bool := decide (-128 ≤ x) && decide (x ≤ 127)

/-- The loop `for (int i = 0; i < n; i++) s = body(i, s);` started in state `s`. -/
def forLoop {σ : Type} (n : Int) (body : Int → σ → σ) (s : σ) : σ :=
  (List.range n.toNat).foldl (fun st i => body (i : Int) st) s

/-- An `int32_t` accumulator: its current value and a ghost flag that stays `true` as long as
no addition performed so far has left the signed 32-bit range. -/
structure Acc32 where
  val : Int
  ok : Bool

/-- The statement `acc += p` on an `int32_t` accumulator. -/
def Acc32.add (a : Acc32) (p : Int) : Acc32 :=
  ⟨wrap32 (a.val + p), a.ok && inInt32 (a.val + p)⟩

/-- The output-size expression `(in + 2 * padding - kernel_size) / stride + 1` of
`CPUConvolution::conv2d` (lines 22-23), `CPUConvolution::depthwise_conv2d` (lines 64-65),
`CNNFPGADriver::conv2d` (lines 178-179) and `conv_accelerator` (lines 154-155); the division is
C integer division. -/
def conv_output_dim (inp padding kernel_size stride : Int) : Int :=
  Int.tdiv (inp + 2 * padding - kernel_size) stride + 1

/-- The requantization expression `(qint8_t)std::max(-128, std::min(127, acc >> 8))` of
`conv2d` (line 48), `depthwise_conv2d` (line 87) and `fully_connected` (line 130). -/
def requantize (acc : Int) : Int := toInt8 (max (-128) (min 127 (acc >>> (8 : ℕ))))

namespace CPUConvolution

/-- The accumulation of `conv2d` for one output element (lines 28-44): `acc` starts at
`bias[oc]` and every in-bounds tap adds `input[input_idx] * weights[weight_idx]`. -/
def conv2d_acc (input weights bias : Int → Int)
    (input_h input_w input_c kernel_size stride padding oh ow oc : Int) : Acc32 :=
  forLoop kernel_size (fun kh acc =>
    forLoop kernel_size (fun kw acc =>
      forLoop input_c (fun ic acc =>
        let ih := oh * stride + kh - padding
        let iw := ow * stride + kw - padding
        if ih ≥ 0 ∧ ih < input_h ∧ iw ≥ 0 ∧ iw < input_w then
          let input_idx := (ih * input_w + iw) * input_c + ic
          let weight_idx := ((oc * input_c + ic) * kernel_size + kh) * kernel_size + kw
          acc.add (input input_idx * weights weight_idx)
        else acc) acc) acc) ⟨bias oc, true⟩

/-- The function `CPUConvolution::conv2d`: the contents of `output` after the call. -/
def conv2d (input weights bias output : Int → Int)
    (input_h input_w input_c output_c kernel_size stride padding : Int) : Int → Int :=
  let output_h := conv_output_dim input_h padding kernel_size stride
  let output_w := conv_output_dim input_w padding kernel_size stride
  forLoop output_h (fun oh out =>
    forLoop output_w (fun ow out =>
      forLoop output_c (fun oc out =>
        let acc := conv2d_acc input weights bias input_h input_w input_c kernel_size stride
          padding oh ow oc
        let out_idx := (oh * output_w + ow) * output_c + oc
        Function.update out out_idx (requantize acc.val)) out) out) output

/-- The accumulation of `depthwise_conv2d` for one output element (lines 70-84). -/
def depthwise_conv2d_acc (input weights bias : Int → Int)
    (input_h input_w channels kernel_size stride padding oh ow c : Int) : Acc32 :=
  forLoop kernel_size (fun kh acc =>
    forLoop kernel_size (fun kw acc =>
      let ih := oh * stride + kh - padding
      let iw := ow * stride + kw - padding
      if ih ≥ 0 ∧ ih < input_h ∧ iw ≥ 0 ∧ iw < input_w then
        let input_idx := (ih * input_w + iw) * channels + c
        let weight_idx := (c * kernel_size + kh) * kernel_size + kw
        acc.add (input input_idx * weights weight_idx)
      else acc) acc) ⟨bias c, true⟩

/-- The function `CPUConvolution::depthwise_conv2d`: the contents of `output` after the call. -/
def depthwise_conv2d (input weights bias output : Int → Int)
    (input_h input_w channels kernel_size stride padding : Int) : Int → Int :=
  let output_h := conv_output_dim input_h padding kernel_size stride
  let output_w := conv_output_dim input_w padding kernel_size stride
  forLoop output_h (fun oh out =>
    forLoop output_w (fun ow out =>
      forLoop channels (fun c out =>
        let acc := depthwise_conv2d_acc input weights bias input_h input_w channels kernel_size
          stride padding oh ow c
        let out_idx := (oh * output_w + ow) * channels + c
        Function.update out out_idx (requantize acc.val)) out) out) output

end CPUConvolution

/-! ## The accelerator kernel (`conv_accelerator.cpp`)

`data_t` and `weight_t` are `ap_fixed<16, 8>` and `acc_t` is `ap_fixed<32, 16>`, with the default
modes of the type (quantization by truncation toward minus infinity, overflow by wrap-around). A
fixed-point number is modelled by its raw two's-complement word: a `data_t` word `r` stands for
`r / 2^8`, an `acc_t` word `r` for `r / 2^16`. Hence

* the product of two `data_t` words is the exact product of the words, at `acc_t` scale;
* `acc += p` is `wrap32 (acc + p)`;
* the conversion of a `data_t` word `r` to `acc_t` is `r * 256`;
* the cast `(data_t)acc` is `wrap16 (acc >>> 8)`.

The fixed-size local arrays `input_window[MAX_KERNEL_SIZE][MAX_KERNEL_SIZE][MAX_CHANNELS]`,
`weight_buffer[MAX_CHANNELS][MAX_CHANNELS][MAX_KERNEL_SIZE][MAX_KERNEL_SIZE]`,
`bias_buffer[MAX_CHANNELS]`, `acc[MAX_CHANNELS]` and `output_pixel[MAX_CHANNELS]` are maps on
index tuples; their initial contents, which the code never reads before storing, are taken to be
0. The loops of the code run to `config.kernel_size`, `config.input_channels` and
`config.output_channels` without a check against the array bounds, so the maps stand for the
arrays only when `kernel_size ≤ MAX_KERNEL_SIZE` and both channel counts are at most
`MAX_CHANNELS`: beyond these bounds the code indexes outside its arrays, which the maps do not
model. The statements on the accelerator carry these bounds as hypotheses. -/

/-- `MAX_KERNEL_SIZE` of `conv_accelerator.cpp` (line 11). -/
def MAX_KERNEL_SIZE : Int := 3
/-- `MAX_CHANNELS` of `conv_accelerator.cpp` (line 12). -/
def MAX_CHANNELS : Int := 1024

/-- The structure `ConvConfig`. -/
structure ConvConfig where
  input_height : Int
  input_width : Int
  input_channels : Int
  output_channels : Int
  kernel_size : Int
  stride : Int
  padding : Int
  use_relu : Bool

/-- The accumulators of `conv2d_compute` after its initialization and convolution loops
(lines 77-95). `input_window` is indexed `(kh, kw, ic)` and `weights` is indexed
`(oc, ic, kh, kw)`. -/
def conv2d_compute_acc (input_window : Int × Int × Int → Int)
    (weights : Int × Int × Int × Int → Int) (bias : Int → Int) (config : ConvConfig) :
    Int → Int :=
  let acc : Int → Int :=
    forLoop config.output_channels (fun oc acc => Function.update acc oc (bias oc * 256))
      (fun _ => 0)
  forLoop config.output_channels (fun oc acc =>
    forLoop config.input_channels (fun ic acc =>
      forLoop config.kernel_size (fun kh acc =>
        forLoop config.kernel_size (fun kw acc =>
          Function.update acc oc
            (wrap32 (acc oc + input_window (kh, kw, ic) * weights (oc, ic, kh, kw))))
          acc) acc) acc) acc

/-- The function `conv2d_compute`: the contents of `output` after the call. -/
def conv2d_compute (input_window : Int × Int × Int → Int)
    (weights : Int × Int × Int × Int → Int) (bias : Int → Int) (output : Int → Int)
    (config : ConvConfig) : Int → Int :=
  let acc := conv2d_compute_acc input_window weights bias config
  forLoop config.output_channels (fun oc out =>
    let result := wrap16 (acc oc >>> (8 : ℕ))
    let result := if config.use_relu = true ∧ result < 0 then 0 else result
    Function.update out oc result) output

/-- The loop `LOAD_WEIGHTS` of `conv_accelerator`: the local `weight_buffer`. -/
def conv_accelerator_weight_buffer (weights : Int → Int) (config : ConvConfig) :
    Int × Int × Int × Int → Int :=
  forLoop config.output_channels (fun oc wb =>
    forLoop config.input_channels (fun ic wb =>
      forLoop config.kernel_size (fun kh wb =>
        forLoop config.kernel_size (fun kw wb =>
          let idx := ((oc * config.input_channels + ic) * config.kernel_size + kh)
            * config.kernel_size + kw
          Function.update wb (oc, ic, kh, kw) (weights idx)) wb) wb) wb) (fun _ => 0)

/-- The loop `LOAD_BIAS` of `conv_accelerator`: the local `bias_buffer`. -/
def conv_accelerator_bias_buffer (bias : Int → Int) (config : ConvConfig) : Int → Int :=
  forLoop config.output_channels (fun oc bb => Function.update bb oc (bias oc)) (fun _ => 0)

/-- The sliding-window extraction of `conv_accelerator` for the output pixel `(oh, ow)`
(lines 171-194): the local `input_window`. -/
def conv_accelerator_window (input : Int → Int) (config : ConvConfig) (oh ow : Int) :
    Int × Int × Int → Int :=
  let ih_base := oh * config.stride - config.padding
  let iw_base := ow * config.stride - config.padding
  forLoop config.kernel_size (fun kh win =>
    forLoop config.kernel_size (fun kw win =>
      let ih := ih_base + kh
      let iw := iw_base + kw
      forLoop config.input_channels (fun ic win =>
        if ih ≥ 0 ∧ ih < config.input_height ∧ iw ≥ 0 ∧ iw < config.input_width then
          let input_idx := (ih * config.input_width + iw) * config.input_channels + ic
          Function.update win (kh, kw, ic) (input input_idx)
        else
          Function.update win (kh, kw, ic) 0) win) win) (fun _ => 0)

/-- The function `conv_accelerator`: the contents of `output` after the call. The state of the
pixel loops is the output buffer together with the counter `output_idx`. -/
def conv_accelerator (input weights bias output : Int → Int) (config : ConvConfig) : Int → Int :=
  let weight_buffer := conv_accelerator_weight_buffer weights config
  let bias_buffer := conv_accelerator_bias_buffer bias config
  let output_height :=
    conv_output_dim config.input_height config.padding config.kernel_size config.stride
  let output_width :=
    conv_output_dim config.input_width config.padding config.kernel_size config.stride
  (forLoop output_height (fun oh st =>
    forLoop output_width (fun ow (st : (Int → Int) × Int) =>
      let input_window := conv_accelerator_window input config oh ow
      let output_pixel :=
        conv2d_compute input_window weight_buffer bias_buffer (fun _ => 0) config
      let out := forLoop config.output_channels (fun oc out =>
        Function.update out (st.2 * config.output_channels + oc) (output_pixel oc)) st.1
      (out, st.2 + 1)) st) (output, 0)).1

/-! ## The driver (`cnn_fpga_driver.cpp`)

The driver state holds the fields of the class; a buffer pointer is `none` when it is null and
otherwise holds the contents of the buffer. Calls are run against a `Device`, the environment
that answers the reads of the status register and fills the output DMA buffer. A ghost trace
records, in program order, the buffer copies, the stores and loads that reach the register window,
the sleeps and the releases of `cleanup`. The completion poll takes a fuel bound, the number of status reads it may
perform. -/

namespace CNNFPGADriver

def FPGA_BASE_ADDR : Nat := 0x43C00000
def CONV_CTRL_REG : Nat := FPGA_BASE_ADDR + 0x00
def CONV_STATUS_REG : Nat := FPGA_BASE_ADDR + 0x04
def CONV_INPUT_ADDR_REG : Nat := FPGA_BASE_ADDR + 0x08
def CONV_OUTPUT_ADDR_REG : Nat := FPGA_BASE_ADDR + 0x0C
def CONV_WEIGHT_ADDR_REG : Nat := FPGA_BASE_ADDR + 0x10
def CONV_CONFIG_REG : Nat := FPGA_BASE_ADDR + 0x14
def CTRL_START_BIT : Nat := 1 <<< 0
def CTRL_RESET_BIT : Nat := 1 <<< 1
def STATUS_DONE_BIT : Nat := 1 <<< 0
def STATUS_IDLE_BIT : Nat := 1 <<< 1
def PAGE_SIZE : Nat := 4096
def MAP_SIZE : Nat := PAGE_SIZE * 256

/-- The conversion of an `int` (or of a pointer value) to `uint32_t`. -/
def toU32 (x : Int) : Nat := (x % 4294967296).toNat

/-- Observable steps of the driver. -/
inductive Event where
  | memcpy_input (n : Int)
  | memcpy_weights (n : Int)
  | memcpy_output (n : Int)
  | reg_write (offset value : Nat)
  | reg_read (offset value : Nat)
  | usleep (us : Nat)
  | munmap (size : Nat)
  | free (size : Nat)
  | close (fd : Int)
  deriving DecidableEq

/-- The fields of `CNNFPGADriver`, with the ghost trace. -/
structure State where
  mem_fd : Int
  fpga_base : Option Nat
  dma_base : Option Nat
  input_buffer_phys : Nat
  output_buffer_phys : Nat
  weight_buffer_phys : Nat
  input_buffer_virt : Option (Int → Int)
  output_buffer_virt : Option (Int → Int)
  weight_buffer_virt : Option (Int → Int)
  buffer_size : Nat
  trace : List Event

/-- The accelerator as the driver sees it: `status k` is the value of the status register at
the `k`-th read of a poll, and `dma_output` maps the contents of the output DMA buffer at the
start of a run to its contents when the run is done. -/
structure Device where
  status : Nat → Nat
  dma_output : (Int → Int) → (Int → Int)

/-- How a driver call ends. -/
inductive Outcome (α : Type) where
  | returned (a : α)
  | null_deref
  | still_polling

/-- The call `memcpy(dst, src, n)` on buffer contents, for a byte count `n ≥ 0`: the first `n`
elements of `dst` become those of `src`. The count is the `int` product of the caller, not its
conversion to `size_t`: for a negative product, which the code turns into a count near `2^64`,
this map copies nothing and does not stand for the call. -/
def memcpy (dst src : Int → Int) (n : Int) : Int → Int :=
  fun i => if 0 ≤ i ∧ i < n then src i else dst i

/-- The function `write_reg`: a store into the register window when it is mapped, nothing
otherwise. -/
def write_reg (d : State) (offset value : Nat) : State :=
  match d.fpga_base with
  | some _ => { d with trace := d.trace ++ [Event.reg_write offset value] }
  | none => d

/-- The function `read_reg`: a load from the register window, answered by the device with
`dev_value`, when it is mapped, and `0` otherwise. -/
def read_reg (d : State) (offset dev_value : Nat) : State × Nat :=
  match d.fpga_base with
  | some _ => ({ d with trace := d.trace ++ [Event.reg_read offset dev_value] }, dev_value)
  | none => (d, 0)

/-- The function `wait_for_completion`, allowed `fuel` reads of the status register: `none`
when none of them shows the done bit. -/
def wait_for_completion : Nat → (Nat → Nat) → State → Option State
  | 0, _, _ => none
  | fuel + 1, status, d =>
    let r := read_reg d CONV_STATUS_REG (status 0)
    if r.2 &&& STATUS_DONE_BIT ≠ 0 then some r.1
    else wait_for_completion fuel (fun k => status (k + 1))
      { r.1 with trace := r.1.trace ++ [Event.usleep 10] }

/-- The packed configuration word `(input_h << 24) | (input_w << 16) | (input_c << 8) |
output_c` as a `uint32_t`. -/
def pack_config (input_h input_w input_c output_c : Int) : Nat :=
  ((toU32 input_h <<< 24) % 4294967296) ||| ((toU32 input_w <<< 16) % 4294967296)
    ||| ((toU32 input_c <<< 8) % 4294967296) ||| toU32 output_c

/-- The first half of `CNNFPGADriver::conv2d` (lines 154-172): the copies of the input and of
the weights into the DMA buffers, the stores of the three buffer addresses and of the packed
configuration, and the store of the start bit; `none` when a DMA buffer pointer is null. The
parameters `bias`, `stride`, `padding` and `use_relu` of `conv2d` are not used there.
Two conventions bound the calls this stands for: the byte counts are non-negative and within the
buffers (see `memcpy`), and a copy through a null pointer ends the call whatever its count,
although a copy of 0 bytes through a null pointer goes through on the usual implementations. -/
def conv2d_dispatch (d : State) (input weights : Int → Int)
    (input_h input_w input_c output_c kernel_size : Int) : Option State :=
  let input_size := input_h * input_w * input_c
  match d.input_buffer_virt with
  | none => none
  | some ibuf =>
    let d := { d with
      input_buffer_virt := some (memcpy ibuf input input_size),
      trace := d.trace ++ [Event.memcpy_input input_size] }
    let weight_size := output_c * input_c * kernel_size * kernel_size
    match d.weight_buffer_virt with
    | none => none
    | some wbuf =>
      let d := { d with
        weight_buffer_virt := some (memcpy wbuf weights weight_size),
        trace := d.trace ++ [Event.memcpy_weights weight_size] }
      let d := write_reg d CONV_INPUT_ADDR_REG (toU32 d.input_buffer_phys)
      let d := write_reg d CONV_OUTPUT_ADDR_REG (toU32 d.output_buffer_phys)
      let d := write_reg d CONV_WEIGHT_ADDR_REG (toU32 d.weight_buffer_phys)
      let config := pack_config input_h input_w input_c output_c
      let d := write_reg d CONV_CONFIG_REG config
      some (write_reg d CONV_CTRL_REG CTRL_START_BIT)

/-- The function `CNNFPGADriver::conv2d`: the driver state, the contents of the caller's
`output` and the returned `bool`. After the dispatch it polls for completion (line 175), the
device having filled the output DMA buffer by then, and copies the output back (lines
178-181). The conventions of `conv2d_dispatch` on byte counts and null pointers apply to the copy
of the output as well. -/
def conv2d (fuel : Nat) (dev : Device) (d : State) (input weights bias output : Int → Int)
    (input_h input_w input_c output_c kernel_size stride padding : Int) (use_relu : Bool) :
    Outcome (State × (Int → Int) × Bool) :=
  match conv2d_dispatch d input weights input_h input_w input_c output_c kernel_size with
  | none => Outcome.null_deref
  | some d =>
    match wait_for_completion fuel dev.status d with
    | none => Outcome.still_polling
    | some d =>
      let output_h := conv_output_dim input_h padding kernel_size stride
      let output_w := conv_output_dim input_w padding kernel_size stride
      let output_size := output_h * output_w * output_c
      match d.output_buffer_virt with
      | none => Outcome.null_deref
      | some obuf =>
        let obuf := dev.dma_output obuf
        let d := { d with
          output_buffer_virt := some obuf,
          trace := d.trace ++ [Event.memcpy_output output_size] }
        Outcome.returned (d, memcpy output obuf output_size, true)

end CNNFPGADriver

/-! ## Activation, pooling and the classifier head

The remaining layer functions of `CPUConvolution` and of `CNNFPGADriver`, and the activation
functions of `activation.cpp`. A store of an `int` expression into an `int8` element goes through
`toInt8`. In `softmax`, `float` is idealised to an ordered field `K` and `std::exp` is the
parameter `exp`. -/

namespace CPUConvolution

/-- The function `CPUConvolution::relu`, in place: the contents of `data` after the call. -/
def relu (data : Int → Int) (size : Int) : Int → Int :=
  forLoop size (fun i data => if data i < 0 then Function.update data i 0 else data) data

/-- The accumulation of `global_avg_pool` for channel `c` (lines 107-110). -/
def global_avg_pool_sum (input : Int → Int) (spatial_size channels c : Int) : Acc32 :=
  forLoop spatial_size (fun s sum => sum.add (input (s * channels + c))) ⟨0, true⟩

/-- The function `CPUConvolution::global_avg_pool`: the contents of `output` after the call. -/
def global_avg_pool (input output : Int → Int) (height width channels : Int) : Int → Int :=
  let spatial_size := height * width
  forLoop channels (fun c out =>
    let sum := global_avg_pool_sum input spatial_size channels c
    Function.update out c (toInt8 (Int.tdiv sum.val spatial_size))) output

/-- The accumulation of `fully_connected` for output unit `o` (lines 124-128). -/
def fully_connected_acc (input weights bias : Int → Int) (input_size o : Int) : Acc32 :=
  forLoop input_size (fun i acc => acc.add (input i * weights (o * input_size + i)))
    ⟨bias o, true⟩

/-- The function `CPUConvolution::fully_connected`: the contents of `output` after the call. -/
def fully_connected (input weights bias output : Int → Int) (input_size output_size : Int) :
    Int → Int :=
  forLoop output_size (fun o out =>
    let acc := fully_connected_acc input weights bias input_size o
    Function.update out o (requantize acc.val)) output

/-- The first loop of `softmax` (lines 136-140): the running maximum `max_val`, started at
`-1e9`. -/
def softmax_max {K : Type} [LinearOrderedField K] (input : Int → Int) (size : Int) : K :=
  forLoop size (fun i max_val =>
    let val : K := (input i : K)
    if val > max_val then val else max_val) (-1000000000 : K)

/-- The second loop of `softmax` (lines 143-147): the buffer of exponentials and their sum. -/
def softmax_exp_sum {K : Type} [LinearOrderedField K] (exp : K → K) (input : Int → Int)
    (output : Int → K) (size : Int) : (Int → K) × K :=
  forLoop size (fun i (st : (Int → K) × K) =>
    let out := Function.update st.1 i (exp ((input i : K) - softmax_max input size))
    (out, st.2 + out i)) (output, 0)

/-- The function `CPUConvolution::softmax`: the contents of `output` after the call. -/
def softmax {K : Type} [LinearOrderedField K] (exp : K → K) (input : Int → Int)
    (output : Int → K) (size : Int) : Int → K :=
  let st := softmax_exp_sum exp input output size
  forLoop size (fun i out => Function.update out i (out i / st.2)) st.1

end CPUConvolution

/-- The function `relu6` of `activation.cpp` on `data_t` words: `zero` is the word 0 and `six`
the word `6 * 256`. -/
def relu6 (x : Int) : Int :=
  let zero : Int := 0
  let six : Int := 6 * 256
  let tmp := if x > zero then x else zero
  if tmp < six then tmp else six

/-- The conversion of the constant `num / den` (`den > 0`) to `data_t` (`ap_fixed<16, 8>`): the
value times `2^8`, truncated toward minus infinity and wrapped to 16 bits. -/
def to_data_t (num den : Int) : Int := wrap16 ((num * 256) / den)

/-- The function `relu` of `activation.cpp` on `data_t` words. -/
def relu (x : Int) : Int :=
  let zero : Int := to_data_t 0 1
  if x > zero then x else zero

/-- The function `leaky_relu` of `activation.cpp` on `data_t` words: `alpha` is the constant
`0.1` converted to `data_t`, the product `x * alpha` is exact at 16 fractional bits and the cast
`(data_t)` drops 8 of them. -/
def leaky_relu (x : Int) : Int :=
  let zero : Int := to_data_t 0 1
  let alpha : Int := to_data_t 1 10
  let result := if x > zero then x else wrap16 ((x * alpha) >>> (8 : ℕ))
  result

namespace CNNFPGADriver

/-- The function `CNNFPGADriver::activation`: the contents of `output` after the call and the
returned `bool`. -/
def activation (input output : Int → Int) (size act_type : Int) : (Int → Int) × Bool :=
  (forLoop size (fun i output =>
    if act_type = 0 then
      Function.update output i (toInt8 (if input i > 0 then input i else 0))
    else if act_type = 1 then
      let val := toInt8 (if input i > 0 then input i else 0)
      Function.update output i (toInt8 (if val < 6 then val else 6))
    else output) output, true)

/-- The window maximum of `max_pooling` for the output element `(oh, ow, c)` (lines
218-230). -/
def max_pooling_window (input : Int → Int) (input_w channels pool_size stride oh ow c : Int) :
    Int :=
  forLoop pool_size (fun ph max_val =>
    forLoop pool_size (fun pw max_val =>
      let ih := oh * stride + ph
      let iw := ow * stride + pw
      let idx := (ih * input_w + iw) * channels + c
      if input idx > max_val then input idx else max_val) max_val) (-128)

/-- The function `CNNFPGADriver::max_pooling`: the contents of `output` after the call and the
returned `bool`. -/
def max_pooling (input output : Int → Int) (input_h input_w channels pool_size stride : Int) :
    (Int → Int) × Bool :=
  let output_h := Int.tdiv (input_h - pool_size) stride + 1
  let output_w := Int.tdiv (input_w - pool_size) stride + 1
  (forLoop output_h (fun oh out =>
    forLoop output_w (fun ow out =>
      forLoop channels (fun c out =>
        let max_val := max_pooling_window input input_w channels pool_size stride oh ow c
        let out_idx := (oh * output_w + ow) * channels + c
        Function.update out out_idx max_val) out) out) output, true)

/-- The accumulation of `global_avg_pooling` for channel `c` (lines 249-253). -/
def global_avg_pooling_sum (input : Int → Int) (spatial_size channels c : Int) : Acc32 :=
  forLoop spatial_size (fun s sum => sum.add (input (s * channels + c))) ⟨0, true⟩

/-- The function `CNNFPGADriver::global_avg_pooling`: the contents of `output` after the call
and the returned `bool`. -/
def global_avg_pooling (input output : Int → Int) (height width channels : Int) :
    (Int → Int) × Bool :=
  let spatial_size := height * width
  (forLoop channels (fun c out =>
    let sum := global_avg_pooling_sum input spatial_size channels c
    Function.update out c (toInt8 (Int.tdiv sum.val spatial_size))) output, true)

end CNNFPGADriver

/-! ## Initialisation of the driver (`cnn_fpga_driver.cpp`, lines 11-57, 86-114)

`init` is run against the answers of the operating system to `open`, `mmap` and the three calls
of `malloc`. Its diagnostic output is not modelled. -/

/-- `MAX_FEATURE_MAP_HEIGHT` of `mobilenet_config.h`. -/
def MAX_FEATURE_MAP_HEIGHT : Int := 112
/-- `MAX_FEATURE_MAP_WIDTH` of `mobilenet_config.h`. -/
def MAX_FEATURE_MAP_WIDTH : Int := 112
/-- `MAX_FEATURE_MAP_CHANNELS` of `mobilenet_config.h`. -/
def MAX_FEATURE_MAP_CHANNELS : Int := 1024
/-- `CONV_INPUT_BUFFER_SIZE` of `mobilenet_config.h`. -/
def CONV_INPUT_BUFFER_SIZE : Int :=
  MAX_FEATURE_MAP_HEIGHT * MAX_FEATURE_MAP_WIDTH * MAX_FEATURE_MAP_CHANNELS
/-- `WEIGHT_BUFFER_SIZE` of `mobilenet_config.h`. -/
def WEIGHT_BUFFER_SIZE : Int := 3 * 3 * MAX_FEATURE_MAP_CHANNELS * MAX_FEATURE_MAP_CHANNELS

namespace CNNFPGADriver

/-- The answers of the operating system to the calls made by `init`: the descriptor returned by
`open`, the address returned by `mmap` (`none` for `MAP_FAILED`) and the addresses returned by the
calls of `malloc` for the input, output and weight buffers (`none` for a null pointer). -/
structure InitEnv where
  open_result : Int
  mmap_result : Option Nat
  malloc_input : Option Nat
  malloc_output : Option Nat
  malloc_weight : Option Nat

/-- The state left by the constructor `CNNFPGADriver::CNNFPGADriver()` (lines 11-18): no
descriptor, every pointer null, `buffer_size` set. -/
def constructed : State :=
  ⟨-1, none, none, 0, 0, 0, none, none, none, CONV_INPUT_BUFFER_SIZE.toNat * 1, []⟩

/-- The function `map_physical_memory`: the mapped address, null when `mmap` failed. -/
def map_physical_memory (mmap_result : Option Nat) (_addr _size : Nat) : Option Nat :=
  match mmap_result with
  | none => none
  | some mapped => some mapped

/-- The function `allocate_contiguous_memory`: the returned virtual pointer, as the contents of
the zero-filled buffer or `none` for null, and the value of `*phys_addr` after the call. -/
def allocate_contiguous_memory (malloc_result : Option Nat) (_size : Nat) (phys_addr : Nat) :
    Option (Int → Int) × Nat :=
  match malloc_result with
  | some virt => (some (fun _ => 0), virt)
  | none => (none, phys_addr)

/-- The function `CNNFPGADriver::init`: the driver state after the call and the returned
`bool`. -/
def init (env : InitEnv) (d : State) : State × Bool :=
  let d := { d with mem_fd := env.open_result }
  if d.mem_fd < 0 then (d, false)
  else
    let d := { d with fpga_base := map_physical_memory env.mmap_result FPGA_BASE_ADDR MAP_SIZE }
    if d.fpga_base.isNone then (d, false)
    else
      let a := allocate_contiguous_memory env.malloc_input d.buffer_size d.input_buffer_phys
      let d := { d with input_buffer_virt := a.1, input_buffer_phys := a.2 }
      let a := allocate_contiguous_memory env.malloc_output d.buffer_size d.output_buffer_phys
      let d := { d with output_buffer_virt := a.1, output_buffer_phys := a.2 }
      let a := allocate_contiguous_memory env.malloc_weight (WEIGHT_BUFFER_SIZE.toNat * 1)
        d.weight_buffer_phys
      let d := { d with weight_buffer_virt := a.1, weight_buffer_phys := a.2 }
      if d.input_buffer_virt.isNone || d.output_buffer_virt.isNone
          || d.weight_buffer_virt.isNone then (d, false)
      else
        let d := write_reg d CONV_CTRL_REG CTRL_RESET_BIT
        let d := { d with trace := d.trace ++ [Event.usleep 1000] }
        let d := write_reg d CONV_CTRL_REG 0
        (d, true)

/-- The function `unmap_memory`: a call of `munmap` when the address is not null. -/
def unmap_memory (d : State) (addr : Option Nat) (size : Nat) : State :=
  match addr with
  | some _ => { d with trace := d.trace ++ [Event.munmap size] }
  | none => d

/-- The function `free_contiguous_memory`: a call of `free` when the pointer is not null. -/
def free_contiguous_memory (d : State) (virt_addr : Option (Int → Int)) (size : Nat) : State :=
  match virt_addr with
  | some _ => { d with trace := d.trace ++ [Event.free size] }
  | none => d

/-- The function `CNNFPGADriver::cleanup` (lines 59-84), which is also the body of the
destructor: the driver state after the call. -/
def cleanup (d : State) : State :=
  let d :=
    match d.fpga_base with
    | some base => { unmap_memory d (some base) MAP_SIZE with fpga_base := none }
    | none => d
  let d :=
    match d.input_buffer_virt with
    | some buf => { free_contiguous_memory d (some buf) d.buffer_size with
        input_buffer_virt := none }
    | none => d
  let d :=
    match d.output_buffer_virt with
    | some buf => { free_contiguous_memory d (some buf) d.buffer_size with
        output_buffer_virt := none }
    | none => d
  let d :=
    match d.weight_buffer_virt with
    | some buf => { free_contiguous_memory d (some buf) (WEIGHT_BUFFER_SIZE.toNat * 1) with
        weight_buffer_virt := none }
    | none => d
  if d.mem_fd ≥ 0 then { d with trace := d.trace ++ [Event.close d.mem_fd], mem_fd := -1 }
  else d

end CNNFPGADriver

/-! ## The topology tables and the inference pipelines

The constants of `mobilenet_config.h` and the functions `MobileNetCPU::inference`
(`cnn_inference_cpu.cpp`) and `MobileNetFPGA::inference` (`cnn_inference_hw.cpp`). A pipeline is
run on names of buffers: its state is the two cursor pointers, the tracked shape and the list of
the steps performed so far, each with the buffers and the sizes it was given. -/

def INPUT_HEIGHT : Int := 224
def INPUT_WIDTH : Int := 224
def INPUT_CHANNELS : Int := 3
def NUM_CLASSES : Int := 1000
def CONV1_FILTERS : Int := 32
def CONV1_KERNEL_SIZE : Int := 3
def CONV1_STRIDE : Int := 2
def CONV1_PADDING : Int := 1
def GAP_OUTPUT_SIZE : Int := 1024
def FC_INPUT_SIZE : Int := 1024
def FC_OUTPUT_SIZE : Int := NUM_CLASSES

/-- The table `DEPTHWISE_BLOCKS[13][3]`, rows `{input_channels, output_channels, stride}`;
`DEPTHWISE_BLOCKS block j` is the element `DEPTHWISE_BLOCKS[block][j]`. -/
def DEPTHWISE_BLOCKS (block j : Int) : Int :=
  (([[32, 64, 1], [64, 128, 2], [128, 128, 1], [128, 256, 2], [256, 256, 1], [256, 512, 2],
     [512, 512, 1], [512, 512, 1], [512, 512, 1], [512, 512, 1], [512, 512, 1], [512, 1024, 2],
     [1024, 1024, 1]] : List (List Int)).getD block.toNat []).getD j.toNat 0

/-- The buffers named in `inference`: the caller's image, the two feature-map buffers of the
class, the local vectors `gap_output` and `fc_output`, and the caller's `output_probs`. -/
inductive Buffer where
  | input_image
  | buffer1
  | buffer2
  | gap_output
  | fc_output
  | output_probs
  deriving DecidableEq

/-- A step of `inference`: a call of a layer function (or, in `MobileNetFPGA::inference`, the
inlined classifier and softmax loops) with the buffers and sizes passed; `weights` is the index
into `conv_weights` and `conv_biases`. -/
inductive Step where
  | conv2d (input : Buffer) (weights : Int) (output : Buffer)
      (input_h input_w input_c output_c kernel_size stride padding : Int)
  | depthwise_conv2d (input : Buffer) (weights : Int) (output : Buffer)
      (input_h input_w channels kernel_size stride padding : Int)
  | relu (data : Buffer) (size : Int)
  | global_avg_pool (input output : Buffer) (height width channels : Int)
  | fully_connected (input output : Buffer) (input_size output_size : Int)
  | softmax (input output : Buffer) (size : Int)
  deriving DecidableEq

/-- The local state of `inference`. -/
structure Pipeline where
  current_input : Buffer
  current_output : Buffer
  h : Int
  w : Int
  c : Int
  steps : List Step

/-- The statement `std::swap(current_input, current_output)`. -/
def Pipeline.swap (s : Pipeline) : Pipeline :=
  { s with current_input := s.current_output, current_output := s.current_input }

/-- A step is performed. -/
def Pipeline.step (s : Pipeline) (x : Step) : Pipeline :=
  { s with steps := s.steps ++ [x] }

namespace MobileNetCPU

/-- The function `MobileNetCPU::inference` (lines 181-248). -/
def inference : Pipeline :=
  let s : Pipeline := ⟨Buffer.input_image, Buffer.buffer1, INPUT_HEIGHT, INPUT_WIDTH,
    INPUT_CHANNELS, []⟩
  let s := s.step (Step.conv2d s.current_input 0 s.current_output s.h s.w s.c CONV1_FILTERS
    CONV1_KERNEL_SIZE CONV1_STRIDE CONV1_PADDING)
  let s := s.step (Step.relu s.current_output (112 * 112 * 32))
  let s := { s with h := 112, w := 112, c := 32 }
  let s := forLoop 13 (fun block s =>
    let s := s.swap
    let in_c := DEPTHWISE_BLOCKS block 0
    let out_c := DEPTHWISE_BLOCKS block 1
    let stride := DEPTHWISE_BLOCKS block 2
    let s := s.step (Step.depthwise_conv2d s.current_input (block * 2 + 1) s.current_output
      s.h s.w in_c 3 stride 1)
    let s := s.step (Step.relu s.current_output
      (Int.tdiv s.h stride * Int.tdiv s.w stride * in_c))
    let s := if stride = 2 then { s with h := Int.tdiv s.h 2, w := Int.tdiv s.w 2 } else s
    let s := s.swap
    let s := s.step (Step.conv2d s.current_input (block * 2 + 2) s.current_output s.h s.w in_c
      out_c 1 1 0)
    let s := s.step (Step.relu s.current_output (s.h * s.w * out_c))
    { s with c := out_c }) s
  let s := s.step (Step.global_avg_pool s.current_output Buffer.gap_output s.h s.w s.c)
  let s := s.step (Step.fully_connected Buffer.gap_output Buffer.fc_output FC_INPUT_SIZE
    FC_OUTPUT_SIZE)
  s.step (Step.softmax Buffer.fc_output Buffer.output_probs NUM_CLASSES)

end MobileNetCPU

namespace MobileNetFPGA

/-- The function `MobileNetFPGA::inference` (lines 44-126): every convolution, the depthwise
ones included, is a call of `CNNFPGADriver::conv2d`, no activation function is called, the
pooling is `CNNFPGADriver::global_avg_pooling` and the classifier and the softmax are loops of
the function itself. -/
def inference : Pipeline :=
  let s : Pipeline := ⟨Buffer.input_image, Buffer.buffer1, INPUT_HEIGHT, INPUT_WIDTH,
    INPUT_CHANNELS, []⟩
  let s := s.step (Step.conv2d s.current_input 0 s.current_output s.h s.w s.c CONV1_FILTERS
    CONV1_KERNEL_SIZE CONV1_STRIDE CONV1_PADDING)
  let s := { s with h := 112, w := 112, c := 32 }
  let s := forLoop 13 (fun block s =>
    let s := s.swap
    let in_c := DEPTHWISE_BLOCKS block 0
    let out_c := DEPTHWISE_BLOCKS block 1
    let stride := DEPTHWISE_BLOCKS block 2
    let s := s.step (Step.conv2d s.current_input (block * 2 + 1) s.current_output s.h s.w in_c
      in_c 3 stride 1)
    let s := if stride = 2 then { s with h := Int.tdiv s.h 2, w := Int.tdiv s.w 2 } else s
    let s := s.swap
    let s := s.step (Step.conv2d s.current_input (block * 2 + 2) s.current_output s.h s.w in_c
      out_c 1 1 0)
    { s with c := out_c }) s
  let s := s.step (Step.global_avg_pool s.current_output Buffer.gap_output s.h s.w s.c)
  let s := s.step (Step.fully_connected Buffer.gap_output Buffer.fc_output FC_INPUT_SIZE
    NUM_CLASSES)
  s.step (Step.softmax Buffer.fc_output Buffer.output_probs NUM_CLASSES)

end MobileNetFPGA

/-! ## The weight loader (`load_weights.cpp`)

`load_quantized_weights` is straight-line code: for each of the 28 layers it reads a kernel file
and a bias file with a fixed byte count. The model is the list of these byte counts in program
order. -/

/-- The two `read` calls made for one layer: the byte count of the kernel read and the byte
count of the bias read. -/
structure BlobRead where
  kernel_bytes : Int
  bias_bytes : Int
  deriving DecidableEq

/-- The value of `sizeof(int32_t)`. -/
def sizeof_int32_t : Int := 4

/-- The reads of `load_quantized_weights` (lines 9-344), layer 0 to layer 27: `conv1`, then
`conv_dw_b` and `conv_pw_b` for `b = 1 .. 13`, then `conv_preds`. -/
def load_quantized_weights : List BlobRead :=
  [⟨864, 32 * sizeof_int32_t⟩,
   ⟨288, 1 * sizeof_int32_t⟩, ⟨2048, 64 * sizeof_int32_t⟩,
   ⟨576, 1 * sizeof_int32_t⟩, ⟨8192, 128 * sizeof_int32_t⟩,
   ⟨1152, 1 * sizeof_int32_t⟩, ⟨16384, 128 * sizeof_int32_t⟩,
   ⟨1152, 1 * sizeof_int32_t⟩, ⟨32768, 256 * sizeof_int32_t⟩,
   ⟨2304, 1 * sizeof_int32_t⟩, ⟨65536, 256 * sizeof_int32_t⟩,
   ⟨2304, 1 * sizeof_int32_t⟩, ⟨131072, 512 * sizeof_int32_t⟩,
   ⟨4608, 1 * sizeof_int32_t⟩, ⟨262144, 512 * sizeof_int32_t⟩,
   ⟨4608, 1 * sizeof_int32_t⟩, ⟨262144, 512 * sizeof_int32_t⟩,
   ⟨4608, 1 * sizeof_int32_t⟩, ⟨262144, 512 * sizeof_int32_t⟩,
   ⟨4608, 1 * sizeof_int32_t⟩, ⟨262144, 512 * sizeof_int32_t⟩,
   ⟨4608, 1 * sizeof_int32_t⟩, ⟨262144, 512 * sizeof_int32_t⟩,
   ⟨4608, 1 * sizeof_int32_t⟩, ⟨524288, 1024 * sizeof_int32_t⟩,
   ⟨9216, 1 * sizeof_int32_t⟩, ⟨1048576, 1024 * sizeof_int32_t⟩,
   ⟨1024000, 1000 * sizeof_int32_t⟩]

/-! ## The array accesses of the CPU convolutions

`conv2d` and `depthwise_conv2d` once more, with the same loops and the same index expressions,
the state being the list of the array accesses performed so far instead of the contents of the
output. -/

namespace CPUConvolution

/-- An access to an element of one of the arrays passed to a convolution. -/
inductive Access where
  | read_bias (idx : Int)
  | read_input (idx : Int)
  | read_weight (idx : Int)
  | write_output (idx : Int)
  deriving DecidableEq

/-- The accesses of the accumulation of `conv2d` for one output element (lines 28-44). -/
def conv2d_acc_accesses (input_h input_w input_c kernel_size stride padding oh ow oc : Int)
    (log : List Access) : List Access :=
  forLoop kernel_size (fun kh log =>
    forLoop kernel_size (fun kw log =>
      forLoop input_c (fun ic log =>
        let ih := oh * stride + kh - padding
        let iw := ow * stride + kw - padding
        if ih ≥ 0 ∧ ih < input_h ∧ iw ≥ 0 ∧ iw < input_w then
          let input_idx := (ih * input_w + iw) * input_c + ic
          let weight_idx := ((oc * input_c + ic) * kernel_size + kh) * kernel_size + kw
          log ++ [Access.read_input input_idx, Access.read_weight weight_idx]
        else log) log) log) (log ++ [Access.read_bias oc])

/-- The accesses of `CPUConvolution::conv2d`, in program order. -/
def conv2d_accesses (input_h input_w input_c output_c kernel_size stride padding : Int) :
    List Access :=
  let output_h := conv_output_dim input_h padding kernel_size stride
  let output_w := conv_output_dim input_w padding kernel_size stride
  forLoop output_h (fun oh log =>
    forLoop output_w (fun ow log =>
      forLoop output_c (fun oc log =>
        let log := conv2d_acc_accesses input_h input_w input_c kernel_size stride padding
          oh ow oc log
        let out_idx := (oh * output_w + ow) * output_c + oc
        log ++ [Access.write_output out_idx]) log) log) []

/-- The accesses of the accumulation of `depthwise_conv2d` for one output element (lines
70-84). -/
def depthwise_conv2d_acc_accesses (input_h input_w channels kernel_size stride padding
    oh ow c : Int) (log : List Access) : List Access :=
  forLoop kernel_size (fun kh log =>
    forLoop kernel_size (fun kw log =>
      let ih := oh * stride + kh - padding
      let iw := ow * stride + kw - padding
      if ih ≥ 0 ∧ ih < input_h ∧ iw ≥ 0 ∧ iw < input_w then
        let input_idx := (ih * input_w + iw) * channels + c
        let weight_idx := (c * kernel_size + kh) * kernel_size + kw
        log ++ [Access.read_input input_idx, Access.read_weight weight_idx]
      else log) log) (log ++ [Access.read_bias c])

/-- The accesses of `CPUConvolution::depthwise_conv2d`, in program order. -/
def depthwise_conv2d_accesses (input_h input_w channels kernel_size stride padding : Int) :
    List Access :=
  let output_h := conv_output_dim input_h padding kernel_size stride
  let output_w := conv_output_dim input_w padding kernel_size stride
  forLoop output_h (fun oh log =>
    forLoop output_w (fun ow log =>
      forLoop channels (fun c log =>
        let log := depthwise_conv2d_acc_accesses input_h input_w channels kernel_size stride
          padding oh ow c log
        let out_idx := (oh * output_w + ow) * channels + c
        log ++ [Access.write_output out_idx]) log) log) []

/-- The indices of the output elements stored, in program order. -/
def written (log : List Access) : List Int :=
  log.filterMap (fun a => match a with
    | Access.write_output idx => some idx
    | _ => none)

end CPUConvolution

namespace CNNFPGADriver

/-- The accesses of the window scan of `max_pooling` for one output element (lines 220-230);
the element `input[idx]` that an iteration compares, and copies when it is larger, is logged
once. -/
def max_pooling_window_accesses (input_w channels pool_size stride oh ow c : Int)
    (log : List CPUConvolution.Access) : List CPUConvolution.Access :=
  forLoop pool_size (fun ph log =>
    forLoop pool_size (fun pw log =>
      let ih := oh * stride + ph
      let iw := ow * stride + pw
      let idx := (ih * input_w + iw) * channels + c
      log ++ [CPUConvolution.Access.read_input idx]) log) log

/-- The accesses of `CNNFPGADriver::max_pooling`, in program order. -/
def max_pooling_accesses (input_h input_w channels pool_size stride : Int) :
    List CPUConvolution.Access :=
  let output_h := Int.tdiv (input_h - pool_size) stride + 1
  let output_w := Int.tdiv (input_w - pool_size) stride + 1
  forLoop output_h (fun oh log =>
    forLoop output_w (fun ow log =>
      forLoop channels (fun c log =>
        let log := max_pooling_window_accesses input_w channels pool_size stride oh ow c log
        let out_idx := (oh * output_w + ow) * channels + c
        log ++ [CPUConvolution.Access.write_output out_idx]) log) log) []

end CNNFPGADriver

namespace MobileNetFPGA

/-- The first half of the call `fpga.conv2d(..)` that a convolution step of
`MobileNetFPGA::inference` makes on the driver state `d`, run on buffers of zeros; `none` for a
step that is not a call of `conv2d`. -/
def dispatch (d : CNNFPGADriver.State) : Step → Option CNNFPGADriver.State
  | Step.conv2d _ _ _ input_h input_w input_c output_c kernel_size _ _ =>
    CNNFPGADriver.conv2d_dispatch d (fun _ => 0) (fun _ => 0) input_h input_w input_c output_c
      kernel_size
  | _ => none

end MobileNetFPGA

/-! ## Specification-side notions -/

/-- Saturation to the signed 8-bit range `[-128, 127]`. -/
def sat8 (x : Int) : Int := max (-128) (min 127 x)

/-- The sample `x(ih, iw, ic)` of a zero-extended `input_h × input_w × input_c` tensor stored in
row-major HWC order: the stored element inside the tensor and `0` outside. -/
def padded_input (input : Int → Int) (input_h input_w input_c ih iw ic : Int) : Int :=
  if 0 ≤ ih ∧ ih < input_h ∧ 0 ≤ iw ∧ iw < input_w then
    input ((ih * input_w + iw) * input_c + ic)
  else 0

/-- The single-channel tensor made of channel `c` of an HWC tensor with `channels` channels. -/
def channel_slice (input : Int → Int) (channels c : Int) : Int → Int :=
  fun i => input (i * channels + c)

/-- The `kernel_size × kernel_size` weights of channel `c` of a depthwise kernel indexed
`[c, kh, kw]`. -/
def depthwise_weight_slice (weights : Int → Int) (kernel_size c : Int) : Int → Int :=
  fun j => weights (c * kernel_size * kernel_size + j)

/-- The `(input_h + 2p) × (input_w + 2p) × input_c` tensor obtained by surrounding an
`input_h × input_w × input_c` tensor with `p` rows and `p` columns of zero samples on every
side. -/
def zero_pad (input : Int → Int) (input_h input_w input_c p : Int) : Int → Int :=
  fun j =>
    padded_input input input_h input_w input_c
      (j / input_c / (input_w + 2 * p) - p) (j / input_c % (input_w + 2 * p) - p) (j % input_c)

/-- The buffer a step of `inference` stores into. -/
def Step.output : Step → Buffer
  | Step.conv2d _ _ output _ _ _ _ _ _ _ => output
  | Step.depthwise_conv2d _ _ output _ _ _ _ _ _ => output
  | Step.relu data _ => data
  | Step.global_avg_pool _ output _ _ _ => output
  | Step.fully_connected _ output _ _ => output
  | Step.softmax _ output _ => output

/-- The number of elements a step of `inference` stores (for `relu`, the number of elements it
may store): the output element count `output_h * output_w * output_c` of a convolution, with the
output sizes the convolution computes. -/
def Step.count : Step → Int
  | Step.conv2d _ _ _ input_h input_w _ output_c kernel_size stride padding =>
    conv_output_dim input_h padding kernel_size stride
      * conv_output_dim input_w padding kernel_size stride * output_c
  | Step.depthwise_conv2d _ _ _ input_h input_w channels kernel_size stride padding =>
    conv_output_dim input_h padding kernel_size stride
      * conv_output_dim input_w padding kernel_size stride * channels
  | Step.relu _ size => size
  | Step.global_avg_pool _ _ _ _ channels => channels
  | Step.fully_connected _ _ _ output_size => output_size
  | Step.softmax _ _ size => size

/-- The convolution steps among the steps of a pipeline. -/
def Step.is_conv : Step → Bool
  | Step.conv2d _ _ _ _ _ _ _ _ _ _ => true
  | Step.depthwise_conv2d _ _ _ _ _ _ _ _ _ => true
  | _ => false

/-- The input shape `(height, width, channels)` passed to a step, `(0, 0, 0)` for a step that
takes no shape. -/
def Step.input_shape : Step → Int × Int × Int
  | Step.conv2d _ _ _ input_h input_w input_c _ _ _ _ => (input_h, input_w, input_c)
  | Step.depthwise_conv2d _ _ _ input_h input_w channels _ _ _ => (input_h, input_w, channels)
  | Step.global_avg_pool _ _ height width channels => (height, width, channels)
  | _ => (0, 0, 0)

/-- The output shape of a convolution step by the output-size formula of the convolution and
its output channel count, `(0, 0, 0)` for the other steps. -/
def Step.output_shape : Step → Int × Int × Int
  | Step.conv2d _ _ _ input_h input_w _ output_c kernel_size stride padding =>
    (conv_output_dim input_h padding kernel_size stride,
     conv_output_dim input_w padding kernel_size stride, output_c)
  | Step.depthwise_conv2d _ _ _ input_h input_w channels kernel_size stride padding =>
    (conv_output_dim input_h padding kernel_size stride,
     conv_output_dim input_w padding kernel_size stride, channels)
  | _ => (0, 0, 0)

/-- The element capacity of the buffers of `inference`: `buffer1` and `buffer2` as resized by the
constructors of `MobileNetCPU` and `MobileNetFPGA`, the image and `output_probs` as allocated by
`main`, the local vectors as declared. -/
def Buffer.capacity : Buffer → Int
  | Buffer.input_image => INPUT_HEIGHT * INPUT_WIDTH * INPUT_CHANNELS
  | Buffer.buffer1 =>
    MAX_FEATURE_MAP_HEIGHT * MAX_FEATURE_MAP_WIDTH * MAX_FEATURE_MAP_CHANNELS
  | Buffer.buffer2 =>
    MAX_FEATURE_MAP_HEIGHT * MAX_FEATURE_MAP_WIDTH * MAX_FEATURE_MAP_CHANNELS
  | Buffer.gap_output => 1024
  | Buffer.fc_output => NUM_CLASSES
  | Buffer.output_probs => NUM_CLASSES

/-- The blob sizes the topology calls for, layer 0 to layer 27: a kernel of
`out_channels * in_channels * k * k` bytes (`channels * k * k` for a depthwise layer) and one
`int32` of bias per output channel. -/
def expected_blobs : List BlobRead :=
  [⟨CONV1_FILTERS * INPUT_CHANNELS * CONV1_KERNEL_SIZE * CONV1_KERNEL_SIZE,
    CONV1_FILTERS * sizeof_int32_t⟩]
  ++ (List.range 13).flatMap (fun b =>
    [⟨DEPTHWISE_BLOCKS b 0 * 3 * 3, DEPTHWISE_BLOCKS b 0 * sizeof_int32_t⟩,
     ⟨DEPTHWISE_BLOCKS b 1 * DEPTHWISE_BLOCKS b 0 * 1 * 1,
      DEPTHWISE_BLOCKS b 1 * sizeof_int32_t⟩])
  ++ [⟨FC_OUTPUT_SIZE * FC_INPUT_SIZE, FC_OUTPUT_SIZE * sizeof_int32_t⟩]

/-- The list `b, b + 1, .., b + m - 1`. -/
def countFrom (b : Int) (m : Nat) : List Int := (List.range m).map (fun (j : Nat) => b + (j : Int))

/-- An access stays inside its array, for an input of `n_input` elements, weights of `n_weight`
elements and a bias of `n_bias` elements; nothing is asked of a store. -/
def CPUConvolution.Access.within (n_input n_weight n_bias : Int) : CPUConvolution.Access → Prop
  | CPUConvolution.Access.read_input idx => 0 ≤ idx ∧ idx < n_input
  | CPUConvolution.Access.read_weight idx => 0 ≤ idx ∧ idx < n_weight
  | CPUConvolution.Access.read_bias idx => 0 ≤ idx ∧ idx < n_bias
  | CPUConvolution.Access.write_output _ => True

/-- The `(offset, value)` pairs of the register stores of a trace, in order. -/
def CNNFPGADriver.reg_writes (t : List CNNFPGADriver.Event) : List (Nat × Nat) :=
  t.filterMap (fun e => match e with
    | CNNFPGADriver.Event.reg_write offset value => some (offset, value)
    | _ => none)

/-- The byte counts of the weight copies of a trace, in order. -/
def CNNFPGADriver.weight_copies (t : List CNNFPGADriver.Event) : List Int :=
  t.filterMap (fun e => match e with
    | CNNFPGADriver.Event.memcpy_weights n => some n
    | _ => none)

/-- The values stored into the configuration register by a trace, in order. -/
def CNNFPGADriver.config_writes (t : List CNNFPGADriver.Event) : List Nat :=
  t.filterMap (fun e => match e with
    | CNNFPGADriver.Event.reg_write offset value =>
      if offset = CNNFPGADriver.CONV_CONFIG_REG then some value else none
    | _ => none)

/-- The four 8-bit fields of a configuration word, at bit offsets 24, 16, 8 and 0. -/
def CNNFPGADriver.decode_config (v : Nat) : Int × Int × Int × Int :=
  ((((v >>> 24) &&& 255 : ℕ) : Int), (((v >>> 16) &&& 255 : ℕ) : Int),
   (((v >>> 8) &&& 255 : ℕ) : Int), ((v &&& 255 : ℕ) : Int))

/-- A driver after a successful `init` on a freshly constructed driver. -/
def CNNFPGADriver.initialised : CNNFPGADriver.State :=
  (CNNFPGADriver.init ⟨3, some 3014656, some 4096, some 8192, some 12288⟩
    CNNFPGADriver.constructed).1

/-- The geometry `(input_h, input_w, input_c, output_c)` passed by a convolution step. -/
def Step.geometry : Step → Int × Int × Int × Int
  | Step.conv2d _ _ _ input_h input_w input_c output_c _ _ _ =>
    (input_h, input_w, input_c, output_c)
  | Step.depthwise_conv2d _ _ _ input_h input_w channels _ _ _ =>
    (input_h, input_w, channels, channels)
  | _ => (0, 0, 0, 0)

/-- The trace of a poll that sees the done bit at its read number `n` (counting from 0): the
reads of the status values `status 0, .., status n`, with a sleep of 10 after each read but the
last. -/
def CNNFPGADriver.poll_trace (status : Nat → Nat) : Nat → List CNNFPGADriver.Event
  | 0 => [CNNFPGADriver.Event.reg_read CNNFPGADriver.CONV_STATUS_REG (status 0)]
  | n + 1 =>
    CNNFPGADriver.Event.reg_read CNNFPGADriver.CONV_STATUS_REG (status 0) ::
      CNNFPGADriver.Event.usleep 10 :: CNNFPGADriver.poll_trace (fun k => status (k + 1)) n

/-- The reads of the register window among the events. -/
def CNNFPGADriver.Event.is_reg_read : CNNFPGADriver.Event → Bool
  | CNNFPGADriver.Event.reg_read _ _ => true
  | _ => false

/-- The sleeps among the events. -/
def CNNFPGADriver.Event.is_usleep : CNNFPGADriver.Event → Bool
  | CNNFPGADriver.Event.usleep _ => true
  | _ => false

/-! ## Loops -/

theorem forLoop_nonpos {σ : Type} (n : Int) (body : Int → σ → σ) (s : σ) (h : n ≤ 0) :
    forLoop n body s = s := by
  have h0 : n.toNat = 0 := by omega
  simp [forLoop, h0]

theorem forLoop_succ {σ : Type} (m : ℕ) (body : Int → σ → σ) (s : σ) :
    forLoop ((m : Int) + 1) body s = body m (forLoop m body s) := by
  have h1 : ((m : Int) + 1).toNat = m + 1 := by omega
  have h2 : ((m : Int)).toNat = m := by simp
  simp [forLoop, h1, h2, List.range_succ, List.foldl_append]

/-- Loop invariants: a property that holds before the loop and is carried from iteration `i` to
iteration `i + 1` by the body holds after `n.toNat` iterations. -/
theorem forLoop_rec {σ : Type} (P : ℕ → σ → Prop) (n : Int) (body : Int → σ → σ) (s : σ)
    (h0 : P 0 s)
    (hstep : ∀ (i : ℕ) (st : σ), (i : Int) < n → P i st → P (i + 1) (body i st)) :
    P n.toNat (forLoop n body s) := by
  rcases le_or_lt n 0 with hn | hn
  · have h1 : n.toNat = 0 := by omega
    rw [forLoop_nonpos n body s hn, h1]
    exact h0
  · obtain ⟨m, rfl⟩ := Int.eq_ofNat_of_zero_le hn.le
    clear hn
    induction m with
    | zero => simpa [forLoop] using h0
    | succ k ih =>
      have hk := ih (fun i st h => hstep i st (by push_cast at h ⊢; omega))
      have e : (((k + 1 : ℕ) : Int)).toNat = (k : Int).toNat + 1 := by omega
      rw [e]
      push_cast
      rw [forLoop_succ]
      exact hstep _ _ (by push_cast; omega) (by simpa using hk)

/-- Two loops whose bodies agree on every state satisfying an invariant, started in the same
state satisfying it, end in the same state, which satisfies the invariant. -/
theorem forLoop_congr_inv {σ : Type} (Inv : σ → Prop) (n : Int) (body1 body2 : Int → σ → σ)
    (s : σ) (h0 : Inv s)
    (hstep : ∀ (i : Int) (st : σ), 0 ≤ i → i < n → Inv st →
      body1 i st = body2 i st ∧ Inv (body1 i st)) :
    forLoop n body1 s = forLoop n body2 s ∧ Inv (forLoop n body1 s) := by
  have h := forLoop_rec (fun i st => st = forLoop (i : Int) body2 s ∧ Inv st) n body1 s
    ⟨by simp [forLoop], h0⟩
    (fun i st hi hst => by
      obtain ⟨e, hinv⟩ := hst
      have := hstep i st (by omega) hi hinv
      refine ⟨?_, this.2⟩
      push_cast
      rw [forLoop_succ, ← e]
      exact this.1)
  have e : forLoop ((n.toNat : ℕ) : Int) body2 s = forLoop n body2 s := by
    have e1 : (((n.toNat : ℕ) : Int)).toNat = n.toNat := by omega
    unfold forLoop
    rw [e1]
  simp only [e] at h
  exact h

/-- A loop whose body maps the start state to itself leaves it unchanged. -/
theorem forLoop_id {σ : Type} (n : Int) (body : Int → σ → σ) (s : σ)
    (h : ∀ (i : Int), 0 ≤ i → i < n → body i s = s) : forLoop n body s = s := by
  have := forLoop_rec (fun _ st => st = s) n body s rfl
    (fun i st hi hst => by rw [hst]; exact h i (by omega) hi)
  exact this

theorem forLoop_one {σ : Type} (body : Int → σ → σ) (s : σ) : forLoop 1 body s = body 0 s := by
  have h := forLoop_succ 0 body s
  have h0 : forLoop (((0 : ℕ) : Int)) body s = s := forLoop_nonpos _ body s (by simp)
  rw [h0] at h
  simpa using h

/-! ## Machine arithmetic, lemmas -/

theorem wrap32_of_inInt32 (x : Int) (h : inInt32 x = true) : wrap32 x = x := by
  simp only [inInt32, Bool.and_eq_true, decide_eq_true_eq] at h
  unfold wrap32
  omega

theorem inInt32_wrap32 (x : Int) : inInt32 (wrap32 x) = true := by
  simp only [inInt32, Bool.and_eq_true, decide_eq_true_eq]
  unfold wrap32
  omega

theorem toInt8_of_range (x : Int) (h1 : -128 ≤ x) (h2 : x ≤ 127) : toInt8 x = x := by
  unfold toInt8
  omega

theorem sat8_range (x : Int) : -128 ≤ sat8 x ∧ sat8 x ≤ 127 := by
  unfold sat8
  omega

theorem requantize_eq_sat8 (acc : Int) : requantize acc = sat8 (acc >>> (8 : ℕ)) := by
  have h := sat8_range (acc >>> (8 : ℕ))
  unfold requantize
  exact toInt8_of_range _ h.1 h.2

theorem shiftRight8_eq_div (acc : Int) : acc >>> (8 : ℕ) = acc / 256 := by
  rw [Int.shiftRight_eq_div_pow]
  norm_num

/-- Row-major offsets `a * C + b` with `0 ≤ b < C` determine `a` and `b`. -/
theorem idx_inj (C a b a' b' : Int) (hb : 0 ≤ b) (hb' : b < C) (hc : 0 ≤ b') (hc' : b' < C)
    (h : a * C + b = a' * C + b') : a = a' ∧ b = b' := by
  have ha : a = a' := by
    rcases lt_trichotomy a a' with hlt | heq | hgt
    · exfalso
      have : (a' - a) * C ≥ 1 * C := mul_le_mul_of_nonneg_right (by omega) (by omega)
      nlinarith
    · exact heq
    · exfalso
      have : (a - a') * C ≥ 1 * C := mul_le_mul_of_nonneg_right (by omega) (by omega)
      nlinarith
  subst ha
  exact ⟨rfl, by linarith⟩

/-! ## Loops that store into a buffer -/

/-- A loop over iterations that store into pairwise disjoint sets of offsets: `V i j x` says
that iteration `i` leaves the value `x` at offset `j`. -/
theorem forLoop_writes (n : Int) (body : Int → (Int → Int) → (Int → Int))
    (V : Int → Int → Int → Prop)
    (hw : ∀ i st j x, 0 ≤ i → i < n → V i j x → body i st j = x)
    (hf : ∀ i st j, 0 ≤ i → i < n → (∀ x, ¬ V i j x) → body i st j = st j)
    (hd : ∀ i i' j x x', 0 ≤ i → i < n → 0 ≤ i' → i' < n → V i j x → V i' j x' → i = i')
    (out : Int → Int) :
    (∀ i j x, 0 ≤ i → i < n → V i j x → forLoop n body out j = x) ∧
    (∀ j, (∀ i x, 0 ≤ i → i < n → ¬ V i j x) → forLoop n body out j = out j) := by
  have h := forLoop_rec
    (fun m st => (∀ i j x, 0 ≤ i → i < (m : Int) → V i j x → st j = x) ∧
      (∀ j, (∀ i x, 0 ≤ i → i < (m : Int) → ¬ V i j x) → st j = out j)) n body out
    ⟨fun i j x h1 h2 => by exfalso; simp at h2; omega, fun j _ => rfl⟩
    (fun m st hm hst => by
      obtain ⟨h1, h2⟩ := hst
      constructor
      · intro i j x hi hi' hV
        by_cases him : i = m
        · subst him
          exact hw _ st j x hi hm hV
        · have hlt : i < (m : Int) := by push_cast at hi'; omega
          rw [hf m st j (by omega) hm]
          · exact h1 i j x hi hlt hV
          · intro x' hV'
            exact him (hd i m j x x' hi (by omega) (by omega) hm hV hV')
      · intro j hj
        rw [hf m st j (by omega) hm (fun x => hj m x (by omega) (by push_cast; omega))]
        exact h2 j (fun i x hi hi' => hj i x hi (by push_cast; omega)))
  obtain ⟨h1, h2⟩ := h
  constructor
  · intro i j x hi hi' hV
    exact h1 i j x hi (by omega) hV
  · intro j hj
    exact h2 j (fun i x hi hi' => hj i x hi (by omega))

/-- The store loop over the channels of one output pixel. -/
theorem write1 (C b : Int) (v : Int → Int) (out : Int → Int) :
    (∀ oc, 0 ≤ oc → oc < C →
      forLoop C (fun oc o => Function.update o (b + oc) (v oc)) out (b + oc) = v oc) ∧
    (∀ j, (∀ oc, 0 ≤ oc → oc < C → j ≠ b + oc) →
      forLoop C (fun oc o => Function.update o (b + oc) (v oc)) out j = out j) := by
  have h := forLoop_writes C (fun oc o => Function.update o (b + oc) (v oc))
    (fun oc j x => j = b + oc ∧ x = v oc)
    (fun i st j x _ _ hV => by rw [hV.1, hV.2]; simp)
    (fun i st j _ _ hV => by
      have : j ≠ b + i := fun e => hV (v i) ⟨e, rfl⟩
      simp [Function.update, this])
    (fun i i' j x x' _ _ _ _ h1 h2 => by have := h1.1; have := h2.1; omega) out
  exact ⟨fun oc h1 h2 => h.1 oc _ _ h1 h2 ⟨rfl, rfl⟩,
    fun j hj => h.2 j (fun i x h1 h2 hV => hj i h1 h2 hV.1)⟩

/-- The store loops over one output row. -/
theorem write2 (W C b : Int) (v : Int → Int → Int) (out : Int → Int) :
    (∀ ow oc, 0 ≤ ow → ow < W → 0 ≤ oc → oc < C →
      forLoop W (fun ow o => forLoop C (fun oc o =>
        Function.update o ((b + ow) * C + oc) (v ow oc)) o) out ((b + ow) * C + oc) = v ow oc) ∧
    (∀ j, (∀ ow oc, 0 ≤ ow → ow < W → 0 ≤ oc → oc < C → j ≠ (b + ow) * C + oc) →
      forLoop W (fun ow o => forLoop C (fun oc o =>
        Function.update o ((b + ow) * C + oc) (v ow oc)) o) out j = out j) := by
  have h := forLoop_writes W (fun ow o => forLoop C (fun oc o =>
        Function.update o ((b + ow) * C + oc) (v ow oc)) o)
    (fun ow j x => ∃ oc, 0 ≤ oc ∧ oc < C ∧ j = (b + ow) * C + oc ∧ x = v ow oc)
    (fun i st j x _ _ hV => by
      obtain ⟨oc, h1, h2, h3, h4⟩ := hV
      rw [h3, h4]
      exact (write1 C ((b + i) * C) (v i) st).1 oc h1 h2)
    (fun i st j _ _ hV => by
      exact (write1 C ((b + i) * C) (v i) st).2 j
        (fun oc h1 h2 e => hV (v i oc) ⟨oc, h1, h2, e, rfl⟩))
    (fun i i' j x x' _ _ _ _ h1 h2 => by
      obtain ⟨oc, a1, a2, a3, _⟩ := h1
      obtain ⟨oc', b1, b2, b3, _⟩ := h2
      have := (idx_inj C (b + i) oc (b + i') oc' a1 a2 b1 b2 (by rw [← a3, ← b3])).1
      omega) out
  exact ⟨fun ow oc h1 h2 h3 h4 => h.1 ow _ _ h1 h2 ⟨oc, h3, h4, rfl, rfl⟩,
    fun j hj => h.2 j (fun i x h1 h2 hV => by
      obtain ⟨oc, a1, a2, a3, _⟩ := hV
      exact hj i oc h1 h2 a1 a2 a3)⟩

/-- The three nested store loops of a convolution: every offset `(oh * W + ow) * C + oc` of the
output receives the value computed for `(oh, ow, oc)` and every other offset is left alone. -/
theorem write3 (H W C : Int) (v : Int → Int → Int → Int) (out : Int → Int) :
    (∀ oh ow oc, 0 ≤ oh → oh < H → 0 ≤ ow → ow < W → 0 ≤ oc → oc < C →
      forLoop H (fun oh o => forLoop W (fun ow o => forLoop C (fun oc o =>
        Function.update o ((oh * W + ow) * C + oc) (v oh ow oc)) o) o) out
        ((oh * W + ow) * C + oc) = v oh ow oc) ∧
    (∀ j, (∀ oh ow oc, 0 ≤ oh → oh < H → 0 ≤ ow → ow < W → 0 ≤ oc → oc < C →
        j ≠ (oh * W + ow) * C + oc) →
      forLoop H (fun oh o => forLoop W (fun ow o => forLoop C (fun oc o =>
        Function.update o ((oh * W + ow) * C + oc) (v oh ow oc)) o) o) out j = out j) := by
  have h := forLoop_writes H (fun oh o => forLoop W (fun ow o => forLoop C (fun oc o =>
        Function.update o ((oh * W + ow) * C + oc) (v oh ow oc)) o) o)
    (fun oh j x => ∃ ow oc, 0 ≤ ow ∧ ow < W ∧ 0 ≤ oc ∧ oc < C ∧
      j = (oh * W + ow) * C + oc ∧ x = v oh ow oc)
    (fun i st j x _ _ hV => by
      obtain ⟨ow, oc, h1, h2, h3, h4, h5, h6⟩ := hV
      rw [h5, h6]
      exact (write2 W C (i * W) (v i) st).1 ow oc h1 h2 h3 h4)
    (fun i st j _ _ hV => by
      exact (write2 W C (i * W) (v i) st).2 j
        (fun ow oc h1 h2 h3 h4 e => hV (v i ow oc) ⟨ow, oc, h1, h2, h3, h4, e, rfl⟩))
    (fun i i' j x x' _ _ _ _ h1 h2 => by
      obtain ⟨ow, oc, a1, a2, a3, a4, a5, _⟩ := h1
      obtain ⟨ow', oc', b1, b2, b3, b4, b5, _⟩ := h2
      have e1 := (idx_inj C (i * W + ow) oc (i' * W + ow') oc' a3 a4 b3 b4
        (by rw [← a5, ← b5])).1
      exact (idx_inj W i ow i' ow' a1 a2 b1 b2 e1).1) out
  exact ⟨fun oh ow oc h1 h2 h3 h4 h5 h6 => h.1 oh _ _ h1 h2 ⟨ow, oc, h3, h4, h5, h6, rfl, rfl⟩,
    fun j hj => h.2 j (fun i x h1 h2 hV => by
      obtain ⟨ow, oc, a1, a2, a3, a4, a5, _⟩ := hV
      exact hj i ow oc h1 h2 a1 a2 a3 a4 a5)⟩

/-! ## Accumulation without overflow -/

theorem Acc32.add_ok (a : Acc32) (p : Int) (h : (a.add p).ok = true) :
    a.ok = true ∧ (a.add p).val = a.val + p := by
  simp only [Acc32.add, Bool.and_eq_true] at h
  exact ⟨h.1, wrap32_of_inInt32 _ h.2⟩

/-- An accumulation loop each of whose iterations adds `t i` unless it overflows adds, when
the ghost flag is still set at the end, the sum of the `t i`. -/
theorem Acc32.forLoop_sum (n : Int) (body : Int → Acc32 → Acc32) (t : Int → Int)
    (hbody : ∀ i a, 0 ≤ i → i < n → (body i a).ok = true →
      a.ok = true ∧ (body i a).val = a.val + t i)
    (a : Acc32) (hok : (forLoop n body a).ok = true) :
    a.ok = true ∧ (forLoop n body a).val = a.val + ∑ i ∈ Finset.range n.toNat, t (i : Int) := by
  have h := forLoop_rec
    (fun m st => st.ok = true → a.ok = true ∧ st.val = a.val + ∑ i ∈ Finset.range m, t (i : Int))
    n body a (fun h => ⟨h, by simp⟩)
    (fun m st hm hst hok' => by
      obtain ⟨h1, h2⟩ := hbody m st (by omega) hm hok'
      obtain ⟨h3, h4⟩ := hst h1
      refine ⟨h3, ?_⟩
      rw [h2, h4, Finset.sum_range_succ]
      ring)
  exact h hok

namespace CPUConvolution

/-- One tap of `conv2d` adds the product of the zero-extended input sample and the weight. -/
theorem conv2d_tap (input weights : Int → Int)
    (input_h input_w input_c kernel_size stride padding oh ow oc kh kw ic : Int) (a : Acc32)
    (hok : (if oh * stride + kh - padding ≥ 0 ∧ oh * stride + kh - padding < input_h ∧
        ow * stride + kw - padding ≥ 0 ∧ ow * stride + kw - padding < input_w then
        a.add (input (((oh * stride + kh - padding) * input_w + (ow * stride + kw - padding))
          * input_c + ic) * weights (((oc * input_c + ic) * kernel_size + kh) * kernel_size + kw))
      else a).ok = true) :
    a.ok = true ∧
    (if oh * stride + kh - padding ≥ 0 ∧ oh * stride + kh - padding < input_h ∧
        ow * stride + kw - padding ≥ 0 ∧ ow * stride + kw - padding < input_w then
        a.add (input (((oh * stride + kh - padding) * input_w + (ow * stride + kw - padding))
          * input_c + ic) * weights (((oc * input_c + ic) * kernel_size + kh) * kernel_size + kw))
      else a).val = a.val +
      padded_input input input_h input_w input_c (oh * stride + kh - padding)
        (ow * stride + kw - padding) ic
        * weights (((oc * input_c + ic) * kernel_size + kh) * kernel_size + kw) := by
  unfold padded_input
  by_cases hin : oh * stride + kh - padding ≥ 0 ∧ oh * stride + kh - padding < input_h ∧
      ow * stride + kw - padding ≥ 0 ∧ ow * stride + kw - padding < input_w
  · rw [if_pos hin] at hok ⊢
    have hin' : 0 ≤ oh * stride + kh - padding ∧ oh * stride + kh - padding < input_h ∧
      0 ≤ ow * stride + kw - padding ∧ ow * stride + kw - padding < input_w := hin
    rw [if_pos hin']
    exact Acc32.add_ok _ _ hok
  · rw [if_neg hin] at hok ⊢
    have hin' : ¬ (0 ≤ oh * stride + kh - padding ∧ oh * stride + kh - padding < input_h ∧
      0 ≤ ow * stride + kw - padding ∧ ow * stride + kw - padding < input_w) := hin
    rw [if_neg hin']
    exact ⟨hok, by ring⟩

/-- When no addition overflows, the accumulator of `conv2d` ends at the bias plus the sum of
all products over the kernel window and the input channels. -/
theorem conv2d_acc_val (input weights bias : Int → Int)
    (input_h input_w input_c kernel_size stride padding oh ow oc : Int)
    (hok : (conv2d_acc input weights bias input_h input_w input_c kernel_size stride padding
      oh ow oc).ok = true) :
    (conv2d_acc input weights bias input_h input_w input_c kernel_size stride padding
      oh ow oc).val = bias oc +
      ∑ kh ∈ Finset.range kernel_size.toNat, ∑ kw ∈ Finset.range kernel_size.toNat,
        ∑ ic ∈ Finset.range input_c.toNat,
          padded_input input input_h input_w input_c (oh * stride + (kh : Int) - padding)
            (ow * stride + (kw : Int) - padding) (ic : Int)
          * weights (((oc * input_c + (ic : Int)) * kernel_size + (kh : Int)) * kernel_size
            + (kw : Int)) := by
  have h := Acc32.forLoop_sum kernel_size _
    (fun kh => ∑ kw ∈ Finset.range kernel_size.toNat, ∑ ic ∈ Finset.range input_c.toNat,
          padded_input input input_h input_w input_c (oh * stride + kh - padding)
            (ow * stride + (kw : Int) - padding) (ic : Int)
          * weights (((oc * input_c + (ic : Int)) * kernel_size + kh) * kernel_size
            + (kw : Int)))
    (fun kh a _ _ hka => Acc32.forLoop_sum kernel_size _
      (fun kw => ∑ ic ∈ Finset.range input_c.toNat,
          padded_input input input_h input_w input_c (oh * stride + kh - padding)
            (ow * stride + kw - padding) (ic : Int)
          * weights (((oc * input_c + (ic : Int)) * kernel_size + kh) * kernel_size + kw))
      (fun kw a _ _ hkw => Acc32.forLoop_sum input_c _
        (fun ic => padded_input input input_h input_w input_c (oh * stride + kh - padding)
            (ow * stride + kw - padding) ic
          * weights (((oc * input_c + ic) * kernel_size + kh) * kernel_size + kw))
        (fun ic a _ _ hic => conv2d_tap input weights input_h input_w input_c kernel_size
          stride padding oh ow oc kh kw ic a hic) a hkw) a hka)
    ⟨bias oc, true⟩ hok
  exact h.2

/-- The element `conv2d` leaves at the offset of `(oh, ow, oc)`. -/
theorem conv2d_at (input weights bias output : Int → Int)
    (input_h input_w input_c output_c kernel_size stride padding oh ow oc : Int)
    (hoh : 0 ≤ oh) (hoh' : oh < conv_output_dim input_h padding kernel_size stride)
    (how : 0 ≤ ow) (how' : ow < conv_output_dim input_w padding kernel_size stride)
    (hoc : 0 ≤ oc) (hoc' : oc < output_c) :
    conv2d input weights bias output input_h input_w input_c output_c kernel_size stride padding
      ((oh * conv_output_dim input_w padding kernel_size stride + ow) * output_c + oc)
    = requantize (conv2d_acc input weights bias input_h input_w input_c kernel_size stride
        padding oh ow oc).val :=
  (write3 _ _ _ (fun oh ow oc => requantize (conv2d_acc input weights bias input_h input_w
    input_c kernel_size stride padding oh ow oc).val) output).1 oh ow oc hoh hoh' how how' hoc hoc'

/-- The element `depthwise_conv2d` leaves at the offset of `(oh, ow, c)`. -/
theorem depthwise_conv2d_at (input weights bias output : Int → Int)
    (input_h input_w channels kernel_size stride padding oh ow c : Int)
    (hoh : 0 ≤ oh) (hoh' : oh < conv_output_dim input_h padding kernel_size stride)
    (how : 0 ≤ ow) (how' : ow < conv_output_dim input_w padding kernel_size stride)
    (hc : 0 ≤ c) (hc' : c < channels) :
    depthwise_conv2d input weights bias output input_h input_w channels kernel_size stride padding
      ((oh * conv_output_dim input_w padding kernel_size stride + ow) * channels + c)
    = requantize (depthwise_conv2d_acc input weights bias input_h input_w channels kernel_size
        stride padding oh ow c).val :=
  (write3 _ _ _ (fun oh ow c => requantize (depthwise_conv2d_acc input weights bias input_h
    input_w channels kernel_size stride padding oh ow c).val) output).1 oh ow c hoh hoh' how how'
    hc hc'

end CPUConvolution

/-! ## Integer division -/

/-- C division by a positive divisor against floor division: they agree on a non-negative or
exactly divisible dividend and differ by one otherwise. -/
theorem tdiv_eq_ediv_or (n s : Int) (hs : 1 ≤ s) :
    ((0 ≤ n ∨ s ∣ n) → Int.tdiv n s = n / s) ∧
    (¬ (0 ≤ n ∨ s ∣ n) → Int.tdiv n s = n / s + 1) := by
  rcases le_or_lt 0 n with hn | hn
  · have h := Int.tdiv_eq_ediv hn (by omega : (0 : Int) ≤ s)
    exact ⟨fun _ => h, fun hc => absurd (Or.inl hn) hc⟩
  · have e : Int.tdiv n s = -((-n) / s) := by
      have h1 : Int.tdiv (-(-n)) s = -(Int.tdiv (-n) s) := Int.neg_tdiv (-n) s
      rw [neg_neg] at h1
      rw [h1, Int.tdiv_eq_ediv (by omega) (by omega)]
    have hdm := Int.emod_add_ediv (-n) s
    have hr0 := Int.emod_nonneg (-n) (by omega : s ≠ 0)
    have hr1 := Int.emod_lt_of_pos (-n) (by omega : 0 < s)
    by_cases hr : (-n) % s = 0
    · have hq : n / s = -((-n) / s) ∧ n % s = 0 := by
        rw [Int.ediv_emod_unique (by omega)]
        refine ⟨?_, le_refl _, by omega⟩
        rw [hr] at hdm
        linarith
      have hdvd : s ∣ n := Int.dvd_of_emod_eq_zero hq.2
      exact ⟨fun _ => by rw [e, hq.1], fun hc => absurd (Or.inr hdvd) hc⟩
    · have hq : n / s = -((-n) / s) - 1 ∧ n % s = s - (-n) % s := by
        rw [Int.ediv_emod_unique (by omega)]
        refine ⟨?_, by omega, by omega⟩
        linarith
      have hnd : ¬ s ∣ n := by
        intro hd
        have := Int.emod_eq_zero_of_dvd hd
        omega
      refine ⟨fun hc => ?_, fun _ => by rw [e, hq.1]; ring⟩
      rcases hc with hc | hc
      · omega
      · exact absurd hc hnd

/-- The floor of a rational quotient of integers with a positive denominator is the integer
floor division. -/
theorem floor_div_eq (n s : Int) (hs : 1 ≤ s) : ⌊(n : ℚ) / (s : ℚ)⌋ = n / s := by
  obtain ⟨d, rfl⟩ := Int.eq_ofNat_of_zero_le (by omega : 0 ≤ s)
  exact Rat.floor_intCast_div_natCast n d

/-! ## The claims on the CPU convolution -/

/-- C1: when no addition of the accumulation overflows, the element `conv2d` stores for
`(oh, ow, oc)` is `sat8((bias[oc] + Σ x(oh*stride+kh-padding, ow*stride+kw-padding, ic) *
weights[((oc*input_c+ic)*k+kh)*k+kw]) >> 8)`, the sum ranging over the kernel window and the
input channels and `x` being the zero-extended input. The geometry conditions of the claim
(`stride ≥ 1`, `in + 2*padding ≥ kernel_size`) are not needed beyond `(oh, ow, oc)` being an
output position. -/
theorem C1_conv2d_output_element (input weights bias output : Int → Int)
    (input_h input_w input_c output_c kernel_size stride padding oh ow oc : Int)
    (hoh : 0 ≤ oh) (hoh' : oh < conv_output_dim input_h padding kernel_size stride)
    (how : 0 ≤ ow) (how' : ow < conv_output_dim input_w padding kernel_size stride)
    (hoc : 0 ≤ oc) (hoc' : oc < output_c)
    (hno : (CPUConvolution.conv2d_acc input weights bias input_h input_w input_c kernel_size
      stride padding oh ow oc).ok = true) :
    CPUConvolution.conv2d input weights bias output input_h input_w input_c output_c kernel_size
      stride padding
      ((oh * conv_output_dim input_w padding kernel_size stride + ow) * output_c + oc)
    = sat8 ((bias oc +
        ∑ kh ∈ Finset.range kernel_size.toNat, ∑ kw ∈ Finset.range kernel_size.toNat,
          ∑ ic ∈ Finset.range input_c.toNat,
            padded_input input input_h input_w input_c (oh * stride + (kh : Int) - padding)
              (ow * stride + (kw : Int) - padding) (ic : Int)
            * weights (((oc * input_c + (ic : Int)) * kernel_size + (kh : Int)) * kernel_size
              + (kw : Int))) >>> (8 : ℕ)) := by
  rw [CPUConvolution.conv2d_at _ _ _ _ _ _ _ _ _ _ _ _ _ _ hoh hoh' how how' hoc hoc',
    requantize_eq_sat8, CPUConvolution.conv2d_acc_val _ _ _ _ _ _ _ _ _ _ _ _ hno]

/-- C1, instance: a 2×2×2 input, a 1×1 kernel, two output channels, position `(1, 0, 1)`. -/
theorem C1_conv2d_output_element_witness :
    (CPUConvolution.conv2d_acc (fun i => 10 * i + 3) (fun i => 7 - i) (fun i => 1000 * i)
      2 2 2 1 1 0 1 0 1).ok = true ∧
    CPUConvolution.conv2d (fun i => 10 * i + 3) (fun i => 7 - i) (fun i => 1000 * i) (fun _ => 0)
      2 2 2 2 1 1 0 ((1 * conv_output_dim 2 0 1 1 + 0) * 2 + 1)
    = sat8 (((fun i => 1000 * i) (1 : Int) +
        ∑ kh ∈ Finset.range (1 : Int).toNat, ∑ kw ∈ Finset.range (1 : Int).toNat,
          ∑ ic ∈ Finset.range (2 : Int).toNat,
            padded_input (fun i => 10 * i + 3) 2 2 2 (1 * 1 + (kh : Int) - 0)
              (0 * 1 + (kw : Int) - 0) (ic : Int)
            * (fun i => 7 - i) (((1 * 2 + (ic : Int)) * 1 + (kh : Int)) * 1
              + (kw : Int))) >>> (8 : ℕ)) :=
  ⟨by decide, C1_conv2d_output_element _ _ _ _ 2 2 2 2 1 1 0 1 0 1 (by decide) (by decide)
    (by decide) (by decide) (by decide) (by decide) (by decide)⟩

/-- C2, counterexample: for `in = 1`, `kernel_size = 4`, `stride = 2`, `padding = 0` the code
computes `(1 - 4) / 2 + 1 = 0` while `floor(-3 / 2) + 1 = -1`. -/
theorem C2_output_dim_counterexample :
    conv_output_dim 1 0 4 2 ≠ ⌊(((1 + 2 * 0 - 4 : Int)) : ℚ) / ((2 : Int) : ℚ)⌋ + 1 := by
  rw [floor_div_eq _ _ (by decide)]
  decide

/-- C2 (amended): for `stride ≥ 1` the output size computed by `conv2d`, `depthwise_conv2d`,
the driver's `conv2d` and `conv_accelerator` equals `floor((in + 2*padding - kernel_size) /
stride) + 1` whenever `in + 2*padding ≥ kernel_size` or `stride` divides
`in + 2*padding - kernel_size`; otherwise the truncating division makes it one larger,
`floor(...) + 2`. -/
theorem C2_output_dim (inp kernel_size stride padding : Int) (hs : 1 ≤ stride) :
    ((kernel_size ≤ inp + 2 * padding ∨ stride ∣ (inp + 2 * padding - kernel_size)) →
      conv_output_dim inp padding kernel_size stride
        = ⌊((inp + 2 * padding - kernel_size : Int) : ℚ) / (stride : ℚ)⌋ + 1) ∧
    (¬ (kernel_size ≤ inp + 2 * padding ∨ stride ∣ (inp + 2 * padding - kernel_size)) →
      conv_output_dim inp padding kernel_size stride
        = ⌊((inp + 2 * padding - kernel_size : Int) : ℚ) / (stride : ℚ)⌋ + 2) := by
  have h := tdiv_eq_ediv_or (inp + 2 * padding - kernel_size) stride hs
  rw [floor_div_eq _ _ hs]
  unfold conv_output_dim
  have hiff : (0 ≤ inp + 2 * padding - kernel_size ∨ stride ∣ (inp + 2 * padding - kernel_size))
      ↔ (kernel_size ≤ inp + 2 * padding ∨ stride ∣ (inp + 2 * padding - kernel_size)) :=
    or_congr_left ⟨fun h0 => by omega, fun h0 => by omega⟩
  constructor
  · intro hc
    rw [h.1 (hiff.mpr hc)]
  · intro hc
    rw [h.2 (fun hc' => hc (hiff.mp hc'))]
    ring

/-- C2, instance: the first layer, 224 input rows, 3×3 kernel, stride 2, padding 1, has
`floor(223 / 2) + 1` output rows. -/
theorem C2_output_dim_witness :
    (1 : Int) ≤ 2 ∧ conv_output_dim 224 1 3 2
      = ⌊((224 + 2 * 1 - 3 : Int) : ℚ) / ((2 : Int) : ℚ)⌋ + 1 :=
  ⟨by decide, (C2_output_dim 224 3 2 1 (by decide)).1 (Or.inl (by decide))⟩

/-- C3: the requantization `(qint8_t)max(-128, min(127, acc >> 8))` maps every accumulator to
`clamp(floor(acc / 256), -128, 127)`; the shift is the floor of the division by 256 and keeps
the sign; the clamped value lies in `[-128, 127]`, so the cast to `qint8_t` leaves it unchanged;
`acc ≥ 32512` gives `127` and `acc < -32768` gives `-128`. -/
theorem C3_requantize (acc : Int) :
    requantize acc = max (-128) (min 127 ⌊(acc : ℚ) / 256⌋) ∧
    acc >>> (8 : ℕ) = ⌊(acc : ℚ) / 256⌋ ∧
    (acc < 0 → acc >>> (8 : ℕ) < 0) ∧ (0 ≤ acc → 0 ≤ acc >>> (8 : ℕ)) ∧
    (-128 ≤ max (-128) (min 127 (acc >>> (8 : ℕ))) ∧
      max (-128) (min 127 (acc >>> (8 : ℕ))) ≤ 127) ∧
    toInt8 (max (-128) (min 127 (acc >>> (8 : ℕ)))) = max (-128) (min 127 (acc >>> (8 : ℕ))) ∧
    (32512 ≤ acc → requantize acc = 127) ∧
    (acc < -32768 → requantize acc = -128) := by
  have hf : ⌊(acc : ℚ) / 256⌋ = acc / 256 := by
    have := floor_div_eq acc 256 (by decide)
    simpa using this
  have hs := shiftRight8_eq_div acc
  have hq := requantize_eq_sat8 acc
  rw [hq, hf, hs]
  unfold sat8
  refine ⟨rfl, rfl, ?_, ?_, ?_, ?_, ?_, ?_⟩
  · intro h; omega
  · intro h; omega
  · omega
  · exact toInt8_of_range _ (by omega) (by omega)
  · intro h; omega
  · intro h; omega

/-- C3, instances: an accumulator above the range saturates to 127, one below it to -128. -/
theorem C3_requantize_witness : requantize 40000 = 127 ∧ requantize (-40000) = -128 :=
  ⟨(C3_requantize 40000).2.2.2.2.2.2.1 (by decide),
    (C3_requantize (-40000)).2.2.2.2.2.2.2 (by decide)⟩

/-- The accumulation of `depthwise_conv2d` for channel `c` is that of `conv2d` on the
single-channel slice. -/
theorem depthwise_acc_eq_conv2d_acc (input weights bias : Int → Int)
    (input_h input_w channels kernel_size stride padding oh ow c : Int) :
    CPUConvolution.depthwise_conv2d_acc input weights bias input_h input_w channels kernel_size
      stride padding oh ow c
    = CPUConvolution.conv2d_acc (channel_slice input channels c)
        (depthwise_weight_slice weights kernel_size c) (fun _ => bias c)
        input_h input_w 1 kernel_size stride padding oh ow 0 := by
  unfold CPUConvolution.depthwise_conv2d_acc CPUConvolution.conv2d_acc
  simp only [forLoop_one, channel_slice, depthwise_weight_slice]
  congr 1
  funext kh acc
  congr 1
  funext kw acc
  have e1 : ((oh * stride + kh - padding) * input_w + (ow * stride + kw - padding)) * channels + c
      = (((oh * stride + kh - padding) * input_w + (ow * stride + kw - padding)) * 1 + 0)
        * channels + c := by ring
  have e2 : (c * kernel_size + kh) * kernel_size + kw
      = c * kernel_size * kernel_size + (((0 * 1 + 0) * kernel_size + kh) * kernel_size + kw) := by
    ring
  rw [e1, e2]

/-- C4: channel `c` of the output of `depthwise_conv2d` equals the output of `conv2d` run on the
single-channel slice of the input at channel `c` with `input_c = output_c = 1`, the weight slice
of channel `c` and `bias[c]`; hence it is the same for any two inputs that agree on channel
`c`. -/
theorem C4_depthwise_is_per_channel_conv2d (input weights bias output output1 : Int → Int)
    (input_h input_w channels kernel_size stride padding oh ow c : Int)
    (hoh : 0 ≤ oh) (hoh' : oh < conv_output_dim input_h padding kernel_size stride)
    (how : 0 ≤ ow) (how' : ow < conv_output_dim input_w padding kernel_size stride)
    (hc : 0 ≤ c) (hc' : c < channels) :
    CPUConvolution.depthwise_conv2d input weights bias output input_h input_w channels
      kernel_size stride padding
      ((oh * conv_output_dim input_w padding kernel_size stride + ow) * channels + c)
    = CPUConvolution.conv2d (channel_slice input channels c)
        (depthwise_weight_slice weights kernel_size c) (fun _ => bias c) output1
        input_h input_w 1 1 kernel_size stride padding
        ((oh * conv_output_dim input_w padding kernel_size stride + ow) * 1 + 0) ∧
    ∀ input2 : Int → Int, channel_slice input2 channels c = channel_slice input channels c →
      CPUConvolution.depthwise_conv2d input2 weights bias output input_h input_w channels
        kernel_size stride padding
        ((oh * conv_output_dim input_w padding kernel_size stride + ow) * channels + c)
      = CPUConvolution.depthwise_conv2d input weights bias output input_h input_w channels
        kernel_size stride padding
        ((oh * conv_output_dim input_w padding kernel_size stride + ow) * channels + c) := by
  constructor
  · rw [CPUConvolution.depthwise_conv2d_at _ _ _ _ _ _ _ _ _ _ _ _ _ hoh hoh' how how' hc hc',
      CPUConvolution.conv2d_at _ _ _ _ _ _ _ _ _ _ _ _ _ _ hoh hoh' how how' (le_refl 0)
        (by decide),
      depthwise_acc_eq_conv2d_acc]
  · intro input2 h2
    rw [CPUConvolution.depthwise_conv2d_at _ _ _ _ _ _ _ _ _ _ _ _ _ hoh hoh' how how' hc hc',
      CPUConvolution.depthwise_conv2d_at _ _ _ _ _ _ _ _ _ _ _ _ _ hoh hoh' how how' hc hc',
      depthwise_acc_eq_conv2d_acc, depthwise_acc_eq_conv2d_acc, h2]

/-- C4, instance: channel 1 of a 2×2×2 tensor under a 1×1 depthwise kernel, position
`(1, 1)`. -/
theorem C4_depthwise_is_per_channel_conv2d_witness :
    CPUConvolution.depthwise_conv2d (fun i => 5 * i - 9) (fun i => 100 + i) (fun i => 300 * i)
      (fun _ => 0) 2 2 2 1 1 0 ((1 * conv_output_dim 2 0 1 1 + 1) * 2 + 1)
    = CPUConvolution.conv2d (channel_slice (fun i => 5 * i - 9) 2 1)
        (depthwise_weight_slice (fun i => 100 + i) 1 1) (fun _ => (fun i => 300 * i) (1 : Int))
        (fun _ => 0) 2 2 1 1 1 1 0 ((1 * conv_output_dim 2 0 1 1 + 1) * 1 + 0) :=
  (C4_depthwise_is_per_channel_conv2d (fun i => 5 * i - 9) (fun i => 100 + i) (fun i => 300 * i)
    (fun _ => 0) (fun _ => 0) 2 2 2 1 1 0 1 1 1 (by decide) (by decide) (by decide) (by decide)
    (by decide) (by decide)).1

/-- Quotient and remainder of a row-major offset. -/
theorem divmod_idx (C a b : Int) (hb : 0 ≤ b) (hb' : b < C) :
    (a * C + b) / C = a ∧ (a * C + b) % C = b := by
  rw [Int.ediv_emod_unique (by omega)]
  exact ⟨by ring, hb, hb'⟩

/-- Reading the zero-surrounded tensor at a position inside it gives the zero-extended sample
of the original tensor, shifted by the padding. -/
theorem zero_pad_at (X : Int → Int) (h w c p ih iw ic : Int)
    (hiw : 0 ≤ iw) (hiw' : iw < w + 2 * p) (hic : 0 ≤ ic) (hic' : ic < c) :
    zero_pad X h w c p ((ih * (w + 2 * p) + iw) * c + ic)
      = padded_input X h w c (ih - p) (iw - p) ic := by
  unfold zero_pad
  obtain ⟨e1, e2⟩ := divmod_idx c (ih * (w + 2 * p) + iw) ic hic hic'
  obtain ⟨e3, e4⟩ := divmod_idx (w + 2 * p) ih iw hiw hiw'
  rw [e1, e2, e3, e4]

theorem Acc32.add_zero_of_inInt32 (a : Acc32) (h : inInt32 a.val = true) : a.add 0 = a := by
  cases a with
  | mk v ok =>
    simp only [Acc32.add, add_zero] at h ⊢
    rw [wrap32_of_inInt32 v h, h]
    simp

theorem Acc32.inInt32_add (a : Acc32) (x : Int) : inInt32 (a.add x).val = true :=
  inInt32_wrap32 _

/-- One tap with padding `p` on a tensor does to an in-range accumulator what the same tap with
padding `0` does on the zero-surrounded tensor. -/
theorem tap_pad (X W : Int → Int) (h w c p ih iw ic widx : Int) (a : Acc32) (hp : 0 ≤ p)
    (hic : 0 ≤ ic) (hic' : ic < c) (ha : inInt32 a.val = true) :
    (if ih - p ≥ 0 ∧ ih - p < h ∧ iw - p ≥ 0 ∧ iw - p < w then
        a.add (X (((ih - p) * w + (iw - p)) * c + ic) * W widx) else a)
    = (if ih - 0 ≥ 0 ∧ ih - 0 < h + 2 * p ∧ iw - 0 ≥ 0 ∧ iw - 0 < w + 2 * p then
        a.add (zero_pad X h w c p (((ih - 0) * (w + 2 * p) + (iw - 0)) * c + ic) * W widx)
      else a) ∧
    inInt32 (if ih - p ≥ 0 ∧ ih - p < h ∧ iw - p ≥ 0 ∧ iw - p < w then
        a.add (X (((ih - p) * w + (iw - p)) * c + ic) * W widx) else a).val = true := by
  simp only [sub_zero]
  by_cases h2 : ih ≥ 0 ∧ ih < h + 2 * p ∧ iw ≥ 0 ∧ iw < w + 2 * p
  · rw [if_pos h2, zero_pad_at X h w c p ih iw ic h2.2.2.1 h2.2.2.2 hic hic']
    unfold padded_input
    by_cases h1 : ih - p ≥ 0 ∧ ih - p < h ∧ iw - p ≥ 0 ∧ iw - p < w
    · have h1' : 0 ≤ ih - p ∧ ih - p < h ∧ 0 ≤ iw - p ∧ iw - p < w := h1
      rw [if_pos h1, if_pos h1']
      exact ⟨rfl, Acc32.inInt32_add _ _⟩
    · have h1' : ¬ (0 ≤ ih - p ∧ ih - p < h ∧ 0 ≤ iw - p ∧ iw - p < w) := h1
      rw [if_neg h1, if_neg h1', zero_mul, Acc32.add_zero_of_inInt32 a ha]
      exact ⟨rfl, ha⟩
  · have h1 : ¬ (ih - p ≥ 0 ∧ ih - p < h ∧ iw - p ≥ 0 ∧ iw - p < w) := by
      intro h1
      apply h2
      omega
    rw [if_neg h2, if_neg h1]
    exact ⟨rfl, ha⟩

/-- The accumulation of `conv2d` with padding `p` equals the accumulation with padding `0` on
the zero-surrounded tensor. -/
theorem conv2d_acc_pad (X W B : Int → Int) (h w c k s p oh ow oc : Int) (hp : 0 ≤ p)
    (hb : inInt32 (B oc) = true) :
    CPUConvolution.conv2d_acc X W B h w c k s p oh ow oc
    = CPUConvolution.conv2d_acc (zero_pad X h w c p) W B (h + 2 * p) (w + 2 * p) c k s 0
        oh ow oc := by
  unfold CPUConvolution.conv2d_acc
  refine (forLoop_congr_inv (fun (a : Acc32) => inInt32 a.val = true) k _ _ _ hb ?_).1
  intro kh a _ _ ha
  refine forLoop_congr_inv (fun (a : Acc32) => inInt32 a.val = true) k _ _ _ ha ?_
  intro kw a _ _ ha
  refine forLoop_congr_inv (fun (a : Acc32) => inInt32 a.val = true) c _ _ _ ha ?_
  intro ic a hic hic' ha
  exact tap_pad X W h w c p (oh * s + kh) (ow * s + kw) ic _ a hp hic hic' ha

/-- The accumulation of `depthwise_conv2d` with padding `p` equals the accumulation with
padding `0` on the zero-surrounded tensor. -/
theorem depthwise_conv2d_acc_pad (X W B : Int → Int) (h w c k s p oh ow ch : Int) (hp : 0 ≤ p)
    (hch : 0 ≤ ch) (hch' : ch < c) (hb : inInt32 (B ch) = true) :
    CPUConvolution.depthwise_conv2d_acc X W B h w c k s p oh ow ch
    = CPUConvolution.depthwise_conv2d_acc (zero_pad X h w c p) W B (h + 2 * p) (w + 2 * p) c k s 0
        oh ow ch := by
  unfold CPUConvolution.depthwise_conv2d_acc
  refine (forLoop_congr_inv (fun (a : Acc32) => inInt32 a.val = true) k _ _ _ hb ?_).1
  intro kh a _ _ ha
  refine forLoop_congr_inv (fun (a : Acc32) => inInt32 a.val = true) k _ _ _ ha ?_
  intro kw a _ _ ha
  exact tap_pad X W h w c p (oh * s + kh) (ow * s + kw) ch _ a hp hch hch' ha

theorem conv_output_dim_pad (inp p k s : Int) :
    conv_output_dim (inp + 2 * p) 0 k s = conv_output_dim inp p k s := by
  unfold conv_output_dim
  congr 2
  ring

/-- C5: for `padding ≥ 0` (and biases in the `int32_t` range of their type), `conv2d` with
padding `p` on `X` yields the same output buffer as `conv2d` with padding `0` on `X` surrounded
by `p` rows and columns of zeros, with the same weights, bias, kernel size and stride; the same
holds for `depthwise_conv2d`. -/
theorem C5_padding_is_zero_surround (X weights bias output : Int → Int)
    (input_h input_w input_c output_c kernel_size stride p : Int) (hp : 0 ≤ p)
    (hb : ∀ oc, inInt32 (bias oc) = true) :
    CPUConvolution.conv2d X weights bias output input_h input_w input_c output_c kernel_size
      stride p
    = CPUConvolution.conv2d (zero_pad X input_h input_w input_c p) weights bias output
        (input_h + 2 * p) (input_w + 2 * p) input_c output_c kernel_size stride 0 ∧
    CPUConvolution.depthwise_conv2d X weights bias output input_h input_w input_c kernel_size
      stride p
    = CPUConvolution.depthwise_conv2d (zero_pad X input_h input_w input_c p) weights bias output
        (input_h + 2 * p) (input_w + 2 * p) input_c kernel_size stride 0 := by
  constructor
  · unfold CPUConvolution.conv2d
    simp only [conv_output_dim_pad]
    have e : ∀ oh ow oc, CPUConvolution.conv2d_acc (zero_pad X input_h input_w input_c p) weights
        bias (input_h + 2 * p) (input_w + 2 * p) input_c kernel_size stride 0 oh ow oc
        = CPUConvolution.conv2d_acc X weights bias input_h input_w input_c kernel_size stride p
          oh ow oc :=
      fun oh ow oc => (conv2d_acc_pad X weights bias input_h input_w input_c kernel_size stride p
        oh ow oc hp (hb oc)).symm
    simp only [e]
  · unfold CPUConvolution.depthwise_conv2d
    simp only [conv_output_dim_pad]
    refine (forLoop_congr_inv (fun _ => True) _ _ _ _ trivial ?_).1
    intro oh out _ _ _
    refine forLoop_congr_inv (fun _ => True) _ _ _ _ trivial ?_
    intro ow out _ _ _
    refine forLoop_congr_inv (fun _ => True) _ _ _ _ trivial ?_
    intro c out hc hc' _
    refine ⟨?_, trivial⟩
    rw [depthwise_conv2d_acc_pad X weights bias input_h input_w input_c kernel_size stride p
      oh ow c hp hc hc' (hb c)]

/-- C5, instance: a 2×2×1 tensor, 3×3 kernel, stride 1, padding 1, read at output offset 3. -/
theorem C5_padding_is_zero_surround_witness :
    CPUConvolution.conv2d (fun i => 40 * i + 7) (fun i => 9 * i - 30) (fun _ => 77) (fun _ => 0)
      2 2 1 1 3 1 1 3
    = CPUConvolution.conv2d (zero_pad (fun i => 40 * i + 7) 2 2 1 1) (fun i => 9 * i - 30)
        (fun _ => 77) (fun _ => 0) (2 + 2 * 1) (2 + 2 * 1) 1 1 3 1 0 3 :=
  congrFun (C5_padding_is_zero_surround (fun i => 40 * i + 7) (fun i => 9 * i - 30)
    (fun _ => 77) (fun _ => 0) 2 2 1 1 3 1 1 (by decide) (fun _ => rfl)).1 3

theorem forLoop_three {σ : Type} (body : Int → σ → σ) (s : σ) :
    forLoop 3 body s = body 2 (body 1 (body 0 s)) := by
  have h3 := forLoop_succ 2 body s
  have h2 := forLoop_succ 1 body s
  have h1 := forLoop_succ 0 body s
  have h0 : forLoop (((0 : ℕ) : Int)) body s = s := forLoop_nonpos _ body s (by simp)
  rw [h0] at h1
  norm_num at h1 h2 h3
  rw [h3, h2, h1]

/-- With the 3×3 kernel whose centre weight is 1 and whose other weights are 0, bias 0, stride 1
and padding 1 on a 4×4×1 tensor of `int8` values, the accumulator ends at the input sample under
the centre of the window. -/
theorem identity_kernel_acc (input : Int → Int) (hin : ∀ i, -128 ≤ input i ∧ input i ≤ 127)
    (oh ow : Int) (hoh : 0 ≤ oh) (hoh' : oh < 4) (how : 0 ≤ ow) (how' : ow < 4) :
    (CPUConvolution.conv2d_acc input (fun i => if i = 4 then 1 else 0) (fun _ => 0) 4 4 1 3 1 1
      oh ow 0).val = input (oh * 4 + ow) := by
  have hw : ∀ i, wrap32 (input i) = input i := fun i => by
    have := hin i
    unfold wrap32
    omega
  have hw0 : wrap32 0 = 0 := by decide
  unfold CPUConvolution.conv2d_acc
  simp only [forLoop_three, forLoop_one]
  interval_cases oh <;> interval_cases ow <;> simp [Acc32.add, hw, hw0]

/-- C6, counterexample: on the 4×4×1 input with elements `1, 2, ..., 16` the identity-like
kernel yields `0` at offset `0`, not the input element `1`. -/
theorem C6_identity_kernel_counterexample :
    CPUConvolution.conv2d (fun i => i % 16 + 1) (fun i => if i = 4 then 1 else 0) (fun _ => 0)
      (fun _ => 0) 4 4 1 1 3 1 1 0 ≠ (fun i : Int => i % 16 + 1) 0 := by
  decide

/-- C6 (amended): for a 4×4×1 input of `int8` values, the 3×3 kernel with centre weight 1 and
other weights 0, stride 1, padding 1 and bias 0, `conv2d` produces a 4×4×1 output whose element
at each offset is the input element shifted right by 8 bits, that is `0` for a non-negative and
`-1` for a negative input element. -/
theorem C6_identity_kernel (input output : Int → Int)
    (hin : ∀ i, -128 ≤ input i ∧ input i ≤ 127) (j : Int) (hj : 0 ≤ j) (hj' : j < 16) :
    conv_output_dim 4 1 3 1 = 4 ∧
    CPUConvolution.conv2d input (fun i => if i = 4 then 1 else 0) (fun _ => 0) output
      4 4 1 1 3 1 1 j = input j >>> (8 : ℕ) ∧
    input j >>> (8 : ℕ) = if input j < 0 then -1 else 0 := by
  have hd : conv_output_dim 4 1 3 1 = 4 := by decide
  have hidx : j = (j / 4 * conv_output_dim 4 1 3 1 + j % 4) * 1 + 0 := by
    rw [hd]
    omega
  have hat := CPUConvolution.conv2d_at input (fun i => if i = 4 then 1 else 0) (fun _ => 0)
    output 4 4 1 1 3 1 1 (j / 4) (j % 4) 0 (by omega) (by rw [hd]; omega) (by omega)
    (by rw [hd]; omega) (le_refl 0) (by decide)
  rw [← hidx, identity_kernel_acc input hin (j / 4) (j % 4) (by omega) (by omega) (by omega)
    (by omega), requantize_eq_sat8] at hat
  have hj4 : j / 4 * 4 + j % 4 = j := by omega
  rw [hj4] at hat
  have hsh := shiftRight8_eq_div (input j)
  have hr := hin j
  refine ⟨hd, ?_, ?_⟩
  · rw [hat, hsh]
    unfold sat8
    omega
  · rw [hsh]
    split_ifs with hneg <;> omega

/-- C6, instance: the input with elements `-8, -7, ..., 7` at offset 3. -/
theorem C6_identity_kernel_witness :
    CPUConvolution.conv2d (fun i => i % 16 - 8) (fun i => if i = 4 then 1 else 0) (fun _ => 0)
      (fun _ => 0) 4 4 1 1 3 1 1 3 = (fun i : Int => i % 16 - 8) 3 >>> (8 : ℕ) :=
  (C6_identity_kernel (fun i => i % 16 - 8) (fun _ => 0) (fun i => by
    show -128 ≤ i % 16 - 8 ∧ i % 16 - 8 ≤ 127
    omega) 3
    (by decide) (by decide)).2.1

/-! ### All-zero kernels -/

theorem conv2d_acc_zero (input : Int → Int)
    (input_h input_w input_c kernel_size stride padding oh ow oc : Int) :
    CPUConvolution.conv2d_acc input (fun _ => 0) (fun _ => 0) input_h input_w input_c
      kernel_size stride padding oh ow oc = ⟨0, true⟩ := by
  unfold CPUConvolution.conv2d_acc
  refine forLoop_id _ _ _ (fun kh _ _ => ?_)
  refine forLoop_id _ _ _ (fun kw _ _ => ?_)
  refine forLoop_id _ _ _ (fun ic _ _ => ?_)
  have h0 : (⟨0, true⟩ : Acc32).add 0 = ⟨0, true⟩ := Acc32.add_zero_of_inInt32 _ (by decide)
  simp only [mul_zero, h0, ite_self]

theorem depthwise_conv2d_acc_zero (input : Int → Int)
    (input_h input_w channels kernel_size stride padding oh ow c : Int) :
    CPUConvolution.depthwise_conv2d_acc input (fun _ => 0) (fun _ => 0) input_h input_w channels
      kernel_size stride padding oh ow c = ⟨0, true⟩ := by
  unfold CPUConvolution.depthwise_conv2d_acc
  refine forLoop_id _ _ _ (fun kh _ _ => ?_)
  refine forLoop_id _ _ _ (fun kw _ _ => ?_)
  have h0 : (⟨0, true⟩ : Acc32).add 0 = ⟨0, true⟩ := Acc32.add_zero_of_inInt32 _ (by decide)
  simp only [mul_zero, h0, ite_self]

/-- Every offset below `H * W * C` is the row-major offset of one position `(oh, ow, oc)`. -/
theorem idx_decode (H W C j : Int) (hH : 0 ≤ H) (hW : 0 ≤ W) (hj : 0 ≤ j) (hj' : j < H * W * C) :
    ∃ oh ow oc, 0 ≤ oh ∧ oh < H ∧ 0 ≤ ow ∧ ow < W ∧ 0 ≤ oc ∧ oc < C ∧
      j = (oh * W + ow) * C + oc := by
  have hC : 0 < C := by
    by_contra hc
    have : H * W * C ≤ 0 := mul_nonpos_of_nonneg_of_nonpos (mul_nonneg hH hW) (by omega)
    omega
  have hW' : 0 < W := by
    rcases lt_or_eq_of_le hW with h | h
    · exact h
    · rw [← h] at hj'
      simp at hj'
      omega
  have hq0 : 0 ≤ j / C := Int.ediv_nonneg hj hC.le
  have hq1 : j / C < H * W := Int.ediv_lt_of_lt_mul hC hj'
  refine ⟨j / C / W, j / C % W, j % C, Int.ediv_nonneg hq0 hW, Int.ediv_lt_of_lt_mul hW' hq1,
    Int.emod_nonneg _ (by omega), Int.emod_lt_of_pos _ hW', Int.emod_nonneg _ (by omega),
    Int.emod_lt_of_pos _ hC, ?_⟩
  have e1 := Int.ediv_add_emod (j / C) W
  have e2 := Int.ediv_add_emod j C
  have e3 : j / C / W * W + j / C % W = j / C := by linarith
  rw [e3]
  linarith

/-- A valid geometry has at least one output row (column). -/
theorem conv_output_dim_pos (inp p k s : Int) (hs : 1 ≤ s) (hk : k ≤ inp + 2 * p) :
    1 ≤ conv_output_dim inp p k s := by
  unfold conv_output_dim
  rw [Int.tdiv_eq_ediv (by omega) (by omega)]
  have := Int.ediv_nonneg (by omega : 0 ≤ inp + 2 * p - k) (by omega : 0 ≤ s)
  omega

/-- C7: for every input tensor and every valid geometry (`stride ≥ 1`, `kernel_size` at most
the padded input size in both dimensions), `conv2d` and `depthwise_conv2d` called with all
weights 0 and all biases 0 leave 0 in every one of the `output_h * output_w * output_c`
(respectively `output_h * output_w * channels`) output elements. -/
theorem C7_zero_kernel_zero_output (input output : Int → Int)
    (input_h input_w input_c output_c kernel_size stride padding : Int)
    (hs : 1 ≤ stride) (hh : kernel_size ≤ input_h + 2 * padding)
    (hw : kernel_size ≤ input_w + 2 * padding) :
    (∀ j, 0 ≤ j → j < conv_output_dim input_h padding kernel_size stride
        * conv_output_dim input_w padding kernel_size stride * output_c →
      CPUConvolution.conv2d input (fun _ => 0) (fun _ => 0) output input_h input_w input_c
        output_c kernel_size stride padding j = 0) ∧
    (∀ j, 0 ≤ j → j < conv_output_dim input_h padding kernel_size stride
        * conv_output_dim input_w padding kernel_size stride * input_c →
      CPUConvolution.depthwise_conv2d input (fun _ => 0) (fun _ => 0) output input_h input_w
        input_c kernel_size stride padding j = 0) := by
  have hH := conv_output_dim_pos input_h padding kernel_size stride hs hh
  have hW := conv_output_dim_pos input_w padding kernel_size stride hs hw
  have hz : requantize 0 = 0 := by decide
  constructor
  · intro j hj hj'
    obtain ⟨oh, ow, oc, h1, h2, h3, h4, h5, h6, e⟩ :=
      idx_decode _ _ _ j (by omega) (by omega) hj hj'
    rw [e, CPUConvolution.conv2d_at _ _ _ _ _ _ _ _ _ _ _ _ _ _ h1 h2 h3 h4 h5 h6,
      conv2d_acc_zero, hz]
  · intro j hj hj'
    obtain ⟨oh, ow, oc, h1, h2, h3, h4, h5, h6, e⟩ :=
      idx_decode _ _ _ j (by omega) (by omega) hj hj'
    rw [e, CPUConvolution.depthwise_conv2d_at _ _ _ _ _ _ _ _ _ _ _ _ _ h1 h2 h3 h4 h5 h6,
      depthwise_conv2d_acc_zero, hz]

/-- C7, instance: a 3×3×2 input, 3×3 kernel, stride 2, padding 1, four output channels; the
last of the 16 output elements. -/
theorem C7_zero_kernel_zero_output_witness :
    CPUConvolution.conv2d (fun i => 3 * i - 20) (fun _ => 0) (fun _ => 0) (fun _ => 55)
      3 3 2 4 3 2 1 15 = 0 :=
  (C7_zero_kernel_zero_output (fun i => 3 * i - 20) (fun _ => 55) 3 3 2 4 3 2 1 (by decide)
    (by decide) (by decide)).1 15 (by decide) (by decide)

/-! ## Further loop lemmas -/

/-- A component of the state that no iteration changes is the same after the loop. -/
theorem forLoop_proj_id {σ α : Type} (v : σ → α) (n : Int) (body : Int → σ → σ) (s : σ)
    (h : ∀ (i : Int) (st : σ), 0 ≤ i → i < n → v (body i st) = v st) :
    v (forLoop n body s) = v s := by
  have := forLoop_rec (fun _ st => v st = v s) n body s rfl
    (fun i st hi hst => by rw [← hst]; exact h i st (by omega) hi)
  exact this

/-- Two loops over different state types whose bodies preserve a relation between the
states. -/
theorem forLoop_sim {σ τ : Type} (R : ℕ → σ → τ → Prop) (n : Int) (b1 : Int → σ → σ)
    (b2 : Int → τ → τ) (s : σ) (t : τ) (h0 : R 0 s t)
    (hstep : ∀ (i : ℕ) (x : σ) (y : τ), (i : Int) < n → R i x y → R (i + 1) (b1 i x) (b2 i y)) :
    R n.toNat (forLoop n b1 s) (forLoop n b2 t) := by
  have h := forLoop_rec (fun m x => R m x (forLoop (m : Int) b2 t)) n b1 s
    (by simpa [forLoop] using h0)
    (fun i x hi hx => by
      have := hstep i x _ hi hx
      push_cast
      rw [forLoop_succ]
      exact this)
  have e : forLoop ((n.toNat : ℕ) : Int) b2 t = forLoop n b2 t := by
    have e1 : (((n.toNat : ℕ) : Int)).toNat = n.toNat := by omega
    unfold forLoop
    rw [e1]
  simp only [e] at h
  exact h

/-- A loop each of whose iterations stores `f j` at the keys `j` of a set `D i` and leaves the
other keys alone: afterwards the keys of the union of the `D i` hold `f j`. -/
theorem forLoop_tab {ι : Type} (n : Int) (body : Int → (ι → Int) → (ι → Int))
    (D : Int → ι → Prop) (f : ι → Int)
    (hb : ∀ i st j, 0 ≤ i → i < n →
      (D i j → body i st j = f j) ∧ (¬ D i j → body i st j = st j))
    (st0 : ι → Int) (j : ι) :
    ((∃ i, 0 ≤ i ∧ i < n ∧ D i j) → forLoop n body st0 j = f j) ∧
    ((¬ ∃ i, 0 ≤ i ∧ i < n ∧ D i j) → forLoop n body st0 j = st0 j) := by
  have h := forLoop_rec
    (fun m st => ((∃ i, 0 ≤ i ∧ i < (m : Int) ∧ D i j) → st j = f j) ∧
      ((¬ ∃ i, 0 ≤ i ∧ i < (m : Int) ∧ D i j) → st j = st0 j)) n body st0
    ⟨fun ⟨i, h1, h2, _⟩ => by exfalso; simp at h2; omega, fun _ => rfl⟩
    (fun m st hm hst => by
      obtain ⟨h1, h2⟩ := hst
      obtain ⟨b1, b2⟩ := hb m st j (by omega) hm
      by_cases hD : D m j
      · exact ⟨fun _ => b1 hD, fun hne => absurd ⟨m, by omega, by push_cast; omega, hD⟩ hne⟩
      · rw [b2 hD]
        constructor
        · rintro ⟨i, i1, i2, i3⟩
          have : i ≠ m := fun e => hD (e ▸ i3)
          exact h1 ⟨i, i1, by push_cast at i2; omega, i3⟩
        · intro hne
          exact h2 (fun ⟨i, i1, i2, i3⟩ => hne ⟨i, i1, by push_cast; omega, i3⟩))
  obtain ⟨h1, h2⟩ := h
  constructor
  · rintro ⟨i, i1, i2, i3⟩
    exact h1 ⟨i, i1, by omega, i3⟩
  · intro hne
    exact h2 (fun ⟨i, i1, i2, i3⟩ => hne ⟨i, i1, by omega, i3⟩)

theorem wrap32_wrap32_add (a b : Int) : wrap32 (wrap32 a + b) = wrap32 (a + b) := by
  unfold wrap32
  omega

theorem wrap32_idem (a : Int) : wrap32 (wrap32 a) = wrap32 a := by
  unfold wrap32
  omega

/-- An accumulation loop in 32-bit wrap-around arithmetic: if every iteration takes an
in-range accumulator `a` to `wrap32 (a + t i)`, the loop takes it to `wrap32 (a + Σ t i)`. -/
theorem forLoop_wrapsum {σ : Type} (v : σ → Int) (n : Int) (body : Int → σ → σ) (t : Int → Int)
    (hb : ∀ (i : Int) (st : σ), 0 ≤ i → i < n → wrap32 (v st) = v st →
      v (body i st) = wrap32 (v st + t i))
    (s : σ) (hs : wrap32 (v s) = v s) :
    v (forLoop n body s) = wrap32 (v s + ∑ i ∈ Finset.range n.toNat, t (i : Int)) := by
  have h := forLoop_rec
    (fun m st => v st = wrap32 (v s + ∑ i ∈ Finset.range m, t (i : Int))) n body s
    (by simp [hs])
    (fun m st hm hst => by
      have hst1 : v st = wrap32 (v s + ∑ i ∈ Finset.range m, t (i : Int)) := hst
      have hr : wrap32 (v st) = v st := by rw [hst1, wrap32_idem]
      show v (body (m : Int) st) = wrap32 (v s + ∑ i ∈ Finset.range (m + 1), t (i : Int))
      rw [hb m st (by omega) hm hr, hst1, wrap32_wrap32_add, Finset.sum_range_succ]
      congr 1
      ring)
  exact h

/-- In a loop over array entries in which iteration `i` changes no entry but entry `i`, the
entry `i0` after the loop is the one iteration `i0` produces from a state whose entry `i0` is
still the initial one. -/
theorem forLoop_own (n : Int) (body : Int → (Int → Int) → (Int → Int)) (st0 : Int → Int)
    (i0 : Int) (h0 : 0 ≤ i0) (h0' : i0 < n)
    (hframe : ∀ i st, 0 ≤ i → i < n → i ≠ i0 → body i st i0 = st i0) :
    ∃ st, st i0 = st0 i0 ∧ forLoop n body st0 i0 = body i0 st i0 := by
  have h := forLoop_rec
    (fun m st => ((m : Int) ≤ i0 → st i0 = st0 i0) ∧
      (i0 < (m : Int) → ∃ st1, st1 i0 = st0 i0 ∧ st i0 = body i0 st1 i0)) n body st0
    ⟨fun _ => rfl, fun h => by exfalso; simp at h; omega⟩
    (fun m st hm hst => by
      obtain ⟨h1, h2⟩ := hst
      constructor
      · intro hle
        rw [hframe m st (by omega) hm (by push_cast at hle; omega)]
        exact h1 (by push_cast at hle; omega)
      · intro hlt
        by_cases e : (m : Int) = i0
        · exact ⟨st, h1 (by omega), by rw [e]⟩
        · rw [hframe m st (by omega) hm e]
          exact h2 (by push_cast at hlt; omega))
  exact h.2 (by omega)

/-! ## The accelerator kernel, lemmas -/

/-- A single store, as one step of a tabulation of `f`. -/
theorem update_tab {ι : Type} [DecidableEq ι] (st : ι → Int) (k : ι) (x : Int) (f : ι → Int)
    (hx : x = f k) (j : ι) :
    (j = k → Function.update st k x j = f j) ∧ (¬ j = k → Function.update st k x j = st j) := by
  constructor
  · intro e
    rw [e, hx]
    simp
  · intro e
    simp [Function.update, e]

/-- The local `bias_buffer` holds the bias of every output channel. -/
theorem bias_buffer_at (bias : Int → Int) (config : ConvConfig) (oc : Int) (h0 : 0 ≤ oc)
    (h1 : oc < config.output_channels) :
    conv_accelerator_bias_buffer bias config oc = bias oc := by
  unfold conv_accelerator_bias_buffer
  exact (forLoop_tab config.output_channels
    (fun oc bb => Function.update bb oc (bias oc)) (fun i j => j = i) bias
    (fun i st j _ _ => update_tab st i (bias i) bias rfl j) _ oc).1 ⟨oc, h0, h1, rfl⟩

/-- The local `weight_buffer` holds, at `(oc, ic, kh, kw)`, the weight read from the offset
`((oc * input_channels + ic) * kernel_size + kh) * kernel_size + kw`. -/
theorem weight_buffer_at (weights : Int → Int) (config : ConvConfig) (oc ic kh kw : Int)
    (hoc : 0 ≤ oc) (hoc' : oc < config.output_channels)
    (hic : 0 ≤ ic) (hic' : ic < config.input_channels)
    (hkh : 0 ≤ kh) (hkh' : kh < config.kernel_size)
    (hkw : 0 ≤ kw) (hkw' : kw < config.kernel_size) :
    conv_accelerator_weight_buffer weights config (oc, ic, kh, kw)
      = weights (((oc * config.input_channels + ic) * config.kernel_size + kh)
          * config.kernel_size + kw) := by
  have L1 : ∀ (oc ic kh : Int) (st : Int × Int × Int × Int → Int) (j : Int × Int × Int × Int),
      ((∃ kw, 0 ≤ kw ∧ kw < config.kernel_size ∧ j = (oc, ic, kh, kw)) →
        forLoop config.kernel_size (fun kw wb => Function.update wb (oc, ic, kh, kw)
          (weights (((oc * config.input_channels + ic) * config.kernel_size + kh)
            * config.kernel_size + kw))) st j
        = weights (((j.1 * config.input_channels + j.2.1) * config.kernel_size + j.2.2.1)
            * config.kernel_size + j.2.2.2)) ∧
      ((¬ ∃ kw, 0 ≤ kw ∧ kw < config.kernel_size ∧ j = (oc, ic, kh, kw)) →
        forLoop config.kernel_size (fun kw wb => Function.update wb (oc, ic, kh, kw)
          (weights (((oc * config.input_channels + ic) * config.kernel_size + kh)
            * config.kernel_size + kw))) st j = st j) :=
    fun oc ic kh st j => forLoop_tab config.kernel_size _ (fun kw j => j = (oc, ic, kh, kw))
      (fun j => weights (((j.1 * config.input_channels + j.2.1) * config.kernel_size + j.2.2.1)
            * config.kernel_size + j.2.2.2))
      (fun kw st j _ _ => update_tab st (oc, ic, kh, kw) _
        (fun j => weights (((j.1 * config.input_channels + j.2.1) * config.kernel_size + j.2.2.1)
            * config.kernel_size + j.2.2.2)) rfl j) st j
  have L2 : ∀ (oc ic : Int) (st : Int × Int × Int × Int → Int) (j : Int × Int × Int × Int),
      ((∃ kh, 0 ≤ kh ∧ kh < config.kernel_size ∧
          ∃ kw, 0 ≤ kw ∧ kw < config.kernel_size ∧ j = (oc, ic, kh, kw)) →
        forLoop config.kernel_size (fun kh wb =>
          forLoop config.kernel_size (fun kw wb => Function.update wb (oc, ic, kh, kw)
            (weights (((oc * config.input_channels + ic) * config.kernel_size + kh)
              * config.kernel_size + kw))) wb) st j
        = weights (((j.1 * config.input_channels + j.2.1) * config.kernel_size + j.2.2.1)
            * config.kernel_size + j.2.2.2)) ∧
      ((¬ ∃ kh, 0 ≤ kh ∧ kh < config.kernel_size ∧
          ∃ kw, 0 ≤ kw ∧ kw < config.kernel_size ∧ j = (oc, ic, kh, kw)) →
        forLoop config.kernel_size (fun kh wb =>
          forLoop config.kernel_size (fun kw wb => Function.update wb (oc, ic, kh, kw)
            (weights (((oc * config.input_channels + ic) * config.kernel_size + kh)
              * config.kernel_size + kw))) wb) st j = st j) :=
    fun oc ic st j => forLoop_tab config.kernel_size _
      (fun kh j => ∃ kw, 0 ≤ kw ∧ kw < config.kernel_size ∧ j = (oc, ic, kh, kw))
      (fun j => weights (((j.1 * config.input_channels + j.2.1) * config.kernel_size + j.2.2.1)
            * config.kernel_size + j.2.2.2))
      (fun kh st j _ _ => L1 oc ic kh st j) st j
  have L3 : ∀ (oc : Int) (st : Int × Int × Int × Int → Int) (j : Int × Int × Int × Int),
      ((∃ ic, 0 ≤ ic ∧ ic < config.input_channels ∧
          ∃ kh, 0 ≤ kh ∧ kh < config.kernel_size ∧
          ∃ kw, 0 ≤ kw ∧ kw < config.kernel_size ∧ j = (oc, ic, kh, kw)) →
        forLoop config.input_channels (fun ic wb =>
          forLoop config.kernel_size (fun kh wb =>
            forLoop config.kernel_size (fun kw wb => Function.update wb (oc, ic, kh, kw)
              (weights (((oc * config.input_channels + ic) * config.kernel_size + kh)
                * config.kernel_size + kw))) wb) wb) st j
        = weights (((j.1 * config.input_channels + j.2.1) * config.kernel_size + j.2.2.1)
            * config.kernel_size + j.2.2.2)) ∧
      ((¬ ∃ ic, 0 ≤ ic ∧ ic < config.input_channels ∧
          ∃ kh, 0 ≤ kh ∧ kh < config.kernel_size ∧
          ∃ kw, 0 ≤ kw ∧ kw < config.kernel_size ∧ j = (oc, ic, kh, kw)) →
        forLoop config.input_channels (fun ic wb =>
          forLoop config.kernel_size (fun kh wb =>
            forLoop config.kernel_size (fun kw wb => Function.update wb (oc, ic, kh, kw)
              (weights (((oc * config.input_channels + ic) * config.kernel_size + kh)
                * config.kernel_size + kw))) wb) wb) st j = st j) :=
    fun oc st j => forLoop_tab config.input_channels _
      (fun ic j => ∃ kh, 0 ≤ kh ∧ kh < config.kernel_size ∧
          ∃ kw, 0 ≤ kw ∧ kw < config.kernel_size ∧ j = (oc, ic, kh, kw))
      (fun j => weights (((j.1 * config.input_channels + j.2.1) * config.kernel_size + j.2.2.1)
            * config.kernel_size + j.2.2.2))
      (fun ic st j _ _ => L2 oc ic st j) st j
  have L4 := forLoop_tab config.output_channels
    (fun oc wb => forLoop config.input_channels (fun ic wb =>
          forLoop config.kernel_size (fun kh wb =>
            forLoop config.kernel_size (fun kw wb => Function.update wb (oc, ic, kh, kw)
              (weights (((oc * config.input_channels + ic) * config.kernel_size + kh)
                * config.kernel_size + kw))) wb) wb) wb)
    (fun oc j => ∃ ic, 0 ≤ ic ∧ ic < config.input_channels ∧
          ∃ kh, 0 ≤ kh ∧ kh < config.kernel_size ∧
          ∃ kw, 0 ≤ kw ∧ kw < config.kernel_size ∧ j = (oc, ic, kh, kw))
    (fun j => weights (((j.1 * config.input_channels + j.2.1) * config.kernel_size + j.2.2.1)
            * config.kernel_size + j.2.2.2))
    (fun oc st j _ _ => L3 oc st j) (fun _ => 0) (oc, ic, kh, kw)
  exact L4.1 ⟨oc, hoc, hoc', ic, hic, hic', kh, hkh, hkh', kw, hkw, hkw', rfl⟩

/-- One store of the window extraction, as one step of the tabulation of the zero-extended
input. -/
theorem window_store_tab (input : Int → Int) (H W C ihb iwb kh kw ic : Int)
    (st : Int × Int × Int → Int) (j : Int × Int × Int) :
    (j = (kh, kw, ic) →
      (if ihb + kh ≥ 0 ∧ ihb + kh < H ∧ iwb + kw ≥ 0 ∧ iwb + kw < W then
        Function.update st (kh, kw, ic) (input (((ihb + kh) * W + (iwb + kw)) * C + ic))
      else Function.update st (kh, kw, ic) 0) j
      = padded_input input H W C (ihb + j.1) (iwb + j.2.1) j.2.2) ∧
    (¬ j = (kh, kw, ic) →
      (if ihb + kh ≥ 0 ∧ ihb + kh < H ∧ iwb + kw ≥ 0 ∧ iwb + kw < W then
        Function.update st (kh, kw, ic) (input (((ihb + kh) * W + (iwb + kw)) * C + ic))
      else Function.update st (kh, kw, ic) 0) j = st j) := by
  by_cases hin : ihb + kh ≥ 0 ∧ ihb + kh < H ∧ iwb + kw ≥ 0 ∧ iwb + kw < W
  · have hin' : 0 ≤ ihb + kh ∧ ihb + kh < H ∧ 0 ≤ iwb + kw ∧ iwb + kw < W := hin
    rw [if_pos hin]
    exact update_tab st (kh, kw, ic) _
      (fun j => padded_input input H W C (ihb + j.1) (iwb + j.2.1) j.2.2)
      (by simp only [padded_input, if_pos hin']) j
  · have hin' : ¬ (0 ≤ ihb + kh ∧ ihb + kh < H ∧ 0 ≤ iwb + kw ∧ iwb + kw < W) := hin
    rw [if_neg hin]
    exact update_tab st (kh, kw, ic) _
      (fun j => padded_input input H W C (ihb + j.1) (iwb + j.2.1) j.2.2)
      (by simp only [padded_input, if_neg hin']) j

/-- The local `input_window` holds, at `(kh, kw, ic)`, the zero-extended input sample at
`(ih_base + kh, iw_base + kw, ic)`. -/
theorem window_at (input : Int → Int) (config : ConvConfig) (oh ow kh kw ic : Int)
    (hkh : 0 ≤ kh) (hkh' : kh < config.kernel_size)
    (hkw : 0 ≤ kw) (hkw' : kw < config.kernel_size)
    (hic : 0 ≤ ic) (hic' : ic < config.input_channels) :
    conv_accelerator_window input config oh ow (kh, kw, ic)
      = padded_input input config.input_height config.input_width config.input_channels
          (oh * config.stride - config.padding + kh) (ow * config.stride - config.padding + kw)
          ic := by
  have L1 : ∀ (kh kw : Int) (st : Int × Int × Int → Int) (j : Int × Int × Int),
      ((∃ ic, 0 ≤ ic ∧ ic < config.input_channels ∧ j = (kh, kw, ic)) →
        forLoop config.input_channels (fun ic win =>
          if oh * config.stride - config.padding + kh ≥ 0 ∧
              oh * config.stride - config.padding + kh < config.input_height ∧
              ow * config.stride - config.padding + kw ≥ 0 ∧
              ow * config.stride - config.padding + kw < config.input_width then
            Function.update win (kh, kw, ic)
              (input (((oh * config.stride - config.padding + kh) * config.input_width
                + (ow * config.stride - config.padding + kw)) * config.input_channels + ic))
          else Function.update win (kh, kw, ic) 0) st j
        = padded_input input config.input_height config.input_width config.input_channels
            (oh * config.stride - config.padding + j.1)
            (ow * config.stride - config.padding + j.2.1) j.2.2) ∧
      ((¬ ∃ ic, 0 ≤ ic ∧ ic < config.input_channels ∧ j = (kh, kw, ic)) →
        forLoop config.input_channels (fun ic win =>
          if oh * config.stride - config.padding + kh ≥ 0 ∧
              oh * config.stride - config.padding + kh < config.input_height ∧
              ow * config.stride - config.padding + kw ≥ 0 ∧
              ow * config.stride - config.padding + kw < config.input_width then
            Function.update win (kh, kw, ic)
              (input (((oh * config.stride - config.padding + kh) * config.input_width
                + (ow * config.stride - config.padding + kw)) * config.input_channels + ic))
          else Function.update win (kh, kw, ic) 0) st j = st j) :=
    fun kh kw st j => forLoop_tab config.input_channels _ (fun ic j => j = (kh, kw, ic))
      (fun j => padded_input input config.input_height config.input_width config.input_channels
            (oh * config.stride - config.padding + j.1)
            (ow * config.stride - config.padding + j.2.1) j.2.2)
      (fun ic st j _ _ => window_store_tab input config.input_height config.input_width
        config.input_channels (oh * config.stride - config.padding)
        (ow * config.stride - config.padding) kh kw ic st j) st j
  have L2 : ∀ (kh : Int) (st : Int × Int × Int → Int) (j : Int × Int × Int),
      ((∃ kw, 0 ≤ kw ∧ kw < config.kernel_size ∧
          ∃ ic, 0 ≤ ic ∧ ic < config.input_channels ∧ j = (kh, kw, ic)) →
        forLoop config.kernel_size (fun kw win =>
          forLoop config.input_channels (fun ic win =>
            if oh * config.stride - config.padding + kh ≥ 0 ∧
                oh * config.stride - config.padding + kh < config.input_height ∧
                ow * config.stride - config.padding + kw ≥ 0 ∧
                ow * config.stride - config.padding + kw < config.input_width then
              Function.update win (kh, kw, ic)
                (input (((oh * config.stride - config.padding + kh) * config.input_width
                  + (ow * config.stride - config.padding + kw)) * config.input_channels + ic))
            else Function.update win (kh, kw, ic) 0) win) st j
        = padded_input input config.input_height config.input_width config.input_channels
            (oh * config.stride - config.padding + j.1)
            (ow * config.stride - config.padding + j.2.1) j.2.2) ∧
      ((¬ ∃ kw, 0 ≤ kw ∧ kw < config.kernel_size ∧
          ∃ ic, 0 ≤ ic ∧ ic < config.input_channels ∧ j = (kh, kw, ic)) →
        forLoop config.kernel_size (fun kw win =>
          forLoop config.input_channels (fun ic win =>
            if oh * config.stride - config.padding + kh ≥ 0 ∧
                oh * config.stride - config.padding + kh < config.input_height ∧
                ow * config.stride - config.padding + kw ≥ 0 ∧
                ow * config.stride - config.padding + kw < config.input_width then
              Function.update win (kh, kw, ic)
                (input (((oh * config.stride - config.padding + kh) * config.input_width
                  + (ow * config.stride - config.padding + kw)) * config.input_channels + ic))
            else Function.update win (kh, kw, ic) 0) win) st j = st j) :=
    fun kh st j => forLoop_tab config.kernel_size _
      (fun kw j => ∃ ic, 0 ≤ ic ∧ ic < config.input_channels ∧ j = (kh, kw, ic))
      (fun j => padded_input input config.input_height config.input_width config.input_channels
            (oh * config.stride - config.padding + j.1)
            (ow * config.stride - config.padding + j.2.1) j.2.2)
      (fun kw st j _ _ => L1 kh kw st j) st j
  have L3 := forLoop_tab config.kernel_size
    (fun kh win => forLoop config.kernel_size (fun kw win =>
          forLoop config.input_channels (fun ic win =>
            if oh * config.stride - config.padding + kh ≥ 0 ∧
                oh * config.stride - config.padding + kh < config.input_height ∧
                ow * config.stride - config.padding + kw ≥ 0 ∧
                ow * config.stride - config.padding + kw < config.input_width then
              Function.update win (kh, kw, ic)
                (input (((oh * config.stride - config.padding + kh) * config.input_width
                  + (ow * config.stride - config.padding + kw)) * config.input_channels + ic))
            else Function.update win (kh, kw, ic) 0) win) win)
    (fun kh j => ∃ kw, 0 ≤ kw ∧ kw < config.kernel_size ∧
          ∃ ic, 0 ≤ ic ∧ ic < config.input_channels ∧ j = (kh, kw, ic))
    (fun j => padded_input input config.input_height config.input_width config.input_channels
            (oh * config.stride - config.padding + j.1)
            (ow * config.stride - config.padding + j.2.1) j.2.2)
    (fun kh st j _ _ => L2 kh st j) (fun _ => 0) (kh, kw, ic)
  exact L3.1 ⟨kh, hkh, hkh', kw, hkw, hkw', ic, hic, hic', rfl⟩

theorem wrap32_mul_256 (b : Int) (h1 : -32768 ≤ b) (h2 : b ≤ 32767) :
    wrap32 (b * 256) = b * 256 := by
  unfold wrap32
  omega

/-- The accumulator of output channel `oc` in `conv2d_compute`: the bias word at accumulator
scale plus all products, in 32-bit wrap-around arithmetic. -/
theorem conv2d_compute_acc_at (input_window : Int × Int × Int → Int)
    (weights : Int × Int × Int × Int → Int) (bias : Int → Int) (config : ConvConfig) (oc : Int)
    (hoc : 0 ≤ oc) (hoc' : oc < config.output_channels)
    (hb : -32768 ≤ bias oc ∧ bias oc ≤ 32767) :
    conv2d_compute_acc input_window weights bias config oc
      = wrap32 (bias oc * 256 +
          ∑ ic ∈ Finset.range config.input_channels.toNat,
            ∑ kh ∈ Finset.range config.kernel_size.toNat,
              ∑ kw ∈ Finset.range config.kernel_size.toNat,
                input_window ((kh : Int), (kw : Int), (ic : Int))
                  * weights (oc, (ic : Int), (kh : Int), (kw : Int))) := by
  unfold conv2d_compute_acc
  have hinit : ∀ st0 : Int → Int, forLoop config.output_channels
      (fun oc acc => Function.update acc oc (bias oc * 256)) st0 oc = bias oc * 256 := by
    intro st0
    refine (forLoop_tab config.output_channels _ (fun i j => j = i) (fun j => bias j * 256) ?_
      st0 oc).1 ⟨oc, hoc, hoc', rfl⟩
    intro i st j _ _
    constructor
    · intro e
      rw [e]
      simp
    · intro e
      simp [Function.update, e]
  obtain ⟨st, hst, hown⟩ := forLoop_own config.output_channels
    (fun oc acc =>
      forLoop config.input_channels (fun ic acc =>
        forLoop config.kernel_size (fun kh acc =>
          forLoop config.kernel_size (fun kw acc =>
            Function.update acc oc
              (wrap32 (acc oc + input_window (kh, kw, ic) * weights (oc, ic, kh, kw))))
            acc) acc) acc)
    (forLoop config.output_channels (fun oc acc => Function.update acc oc (bias oc * 256))
      (fun _ => 0)) oc hoc hoc'
    (fun i st _ _ hne =>
      forLoop_proj_id (fun a : Int → Int => a oc) _ _ _ (fun ic st _ _ =>
        forLoop_proj_id (fun a : Int → Int => a oc) _ _ _ (fun kh st _ _ =>
          forLoop_proj_id (fun a : Int → Int => a oc) _ _ _ (fun kw st _ _ => by
            show Function.update st i _ oc = st oc
            simp [Function.update, Ne.symm hne]))))
  rw [hown]
  rw [hinit] at hst
  have hr : wrap32 (st oc) = st oc := by
    rw [hst]
    exact wrap32_mul_256 _ hb.1 hb.2
  have hsum := forLoop_wrapsum (fun a : Int → Int => a oc) config.input_channels
    (fun ic acc =>
        forLoop config.kernel_size (fun kh acc =>
          forLoop config.kernel_size (fun kw acc =>
            Function.update acc oc
              (wrap32 (acc oc + input_window (kh, kw, ic) * weights (oc, ic, kh, kw))))
            acc) acc)
    (fun ic => ∑ kh ∈ Finset.range config.kernel_size.toNat,
              ∑ kw ∈ Finset.range config.kernel_size.toNat,
                input_window ((kh : Int), (kw : Int), ic) * weights (oc, ic, (kh : Int), (kw : Int)))
    (fun ic st _ _ hst => forLoop_wrapsum (fun a : Int → Int => a oc) config.kernel_size _
      (fun kh => ∑ kw ∈ Finset.range config.kernel_size.toNat,
                input_window (kh, (kw : Int), ic) * weights (oc, ic, kh, (kw : Int)))
      (fun kh st _ _ hst => forLoop_wrapsum (fun a : Int → Int => a oc) config.kernel_size _
        (fun kw => input_window (kh, kw, ic) * weights (oc, ic, kh, kw))
        (fun kw st _ _ _ => by simp) st hst) st hst) st hr
  simp only at hsum
  rw [hsum, hst]

/-- The element `conv2d_compute` stores for output channel `oc`. -/
theorem conv2d_compute_at (input_window : Int × Int × Int → Int)
    (weights : Int × Int × Int × Int → Int) (bias output : Int → Int) (config : ConvConfig)
    (oc : Int) (hoc : 0 ≤ oc) (hoc' : oc < config.output_channels) :
    conv2d_compute input_window weights bias output config oc
      = if config.use_relu = true ∧
          wrap16 (conv2d_compute_acc input_window weights bias config oc >>> (8 : ℕ)) < 0 then 0
        else wrap16 (conv2d_compute_acc input_window weights bias config oc >>> (8 : ℕ)) := by
  unfold conv2d_compute
  refine (forLoop_tab config.output_channels _ (fun i j => j = i)
    (fun oc => if config.use_relu = true ∧
          wrap16 (conv2d_compute_acc input_window weights bias config oc >>> (8 : ℕ)) < 0 then 0
        else wrap16 (conv2d_compute_acc input_window weights bias config oc >>> (8 : ℕ))) ?_
    output oc).1 ⟨oc, hoc, hoc', rfl⟩
  intro i st j _ _
  constructor
  · intro e
    rw [e]
    simp
  · intro e
    simp [Function.update, e]

/-- The pixel loops of `conv_accelerator`, which address the output through the running
counter `output_idx`, store at the row-major offsets `(oh * output_width + ow) *
output_channels + oc`. -/
theorem conv_accelerator_eq (input weights bias output : Int → Int) (config : ConvConfig)
    (hW : 0 ≤ conv_output_dim config.input_width config.padding config.kernel_size
      config.stride) :
    conv_accelerator input weights bias output config
    = forLoop (conv_output_dim config.input_height config.padding config.kernel_size
        config.stride) (fun oh o =>
        forLoop (conv_output_dim config.input_width config.padding config.kernel_size
          config.stride) (fun ow o =>
          forLoop config.output_channels (fun oc o =>
            Function.update o
              ((oh * conv_output_dim config.input_width config.padding config.kernel_size
                config.stride + ow) * config.output_channels + oc)
              (conv2d_compute (conv_accelerator_window input config oh ow)
                (conv_accelerator_weight_buffer weights config)
                (conv_accelerator_bias_buffer bias config) (fun _ => 0) config oc)) o) o)
        output := by
  unfold conv_accelerator
  have hsim := forLoop_sim
    (fun m (s : (Int → Int) × Int) (t : Int → Int) =>
      s = (t, (m : Int) * conv_output_dim config.input_width config.padding config.kernel_size
        config.stride))
    (conv_output_dim config.input_height config.padding config.kernel_size config.stride)
    (fun oh st =>
      forLoop (conv_output_dim config.input_width config.padding config.kernel_size
          config.stride) (fun ow (st : (Int → Int) × Int) =>
        (forLoop config.output_channels (fun oc out =>
          Function.update out (st.2 * config.output_channels + oc)
            (conv2d_compute (conv_accelerator_window input config oh ow)
              (conv_accelerator_weight_buffer weights config)
              (conv_accelerator_bias_buffer bias config) (fun _ => 0) config oc)) st.1,
          st.2 + 1)) st)
    (fun oh o =>
        forLoop (conv_output_dim config.input_width config.padding config.kernel_size
          config.stride) (fun ow o =>
          forLoop config.output_channels (fun oc o =>
            Function.update o
              ((oh * conv_output_dim config.input_width config.padding config.kernel_size
                config.stride + ow) * config.output_channels + oc)
              (conv2d_compute (conv_accelerator_window input config oh ow)
                (conv_accelerator_weight_buffer weights config)
                (conv_accelerator_bias_buffer bias config) (fun _ => 0) config oc)) o) o)
    (output, 0) output (by simp)
    (fun m x y _ hxy => by
      have hin := forLoop_sim
        (fun k (s : (Int → Int) × Int) (t : Int → Int) =>
          s = (t, (m : Int) * conv_output_dim config.input_width config.padding
            config.kernel_size config.stride + (k : Int)))
        (conv_output_dim config.input_width config.padding config.kernel_size config.stride)
        (fun ow (st : (Int → Int) × Int) =>
          (forLoop config.output_channels (fun oc out =>
            Function.update out (st.2 * config.output_channels + oc)
              (conv2d_compute (conv_accelerator_window input config m ow)
                (conv_accelerator_weight_buffer weights config)
                (conv_accelerator_bias_buffer bias config) (fun _ => 0) config oc)) st.1,
            st.2 + 1))
        (fun ow o =>
          forLoop config.output_channels (fun oc o =>
            Function.update o
              (((m : Int) * conv_output_dim config.input_width config.padding config.kernel_size
                config.stride + ow) * config.output_channels + oc)
              (conv2d_compute (conv_accelerator_window input config m ow)
                (conv_accelerator_weight_buffer weights config)
                (conv_accelerator_bias_buffer bias config) (fun _ => 0) config oc)) o)
        x y (by simpa using hxy)
        (fun k x1 y1 _ hk => by
          have hk1 : x1 = (y1, (m : Int) * conv_output_dim config.input_width config.padding
            config.kernel_size config.stride + (k : Int)) := hk
          rw [hk1]
          show (_, _) = (_, _)
          push_cast
          rw [add_assoc])
      have hin1 : forLoop (conv_output_dim config.input_width config.padding config.kernel_size
          config.stride) _ x = (_, _) := hin
      show forLoop _ _ x = (_, _)
      rw [hin1]
      have e : ((conv_output_dim config.input_width config.padding config.kernel_size
          config.stride).toNat : Int) = conv_output_dim config.input_width config.padding
          config.kernel_size config.stride := Int.toNat_of_nonneg hW
      rw [e]
      push_cast
      congr 1
      ring)
  have hsim1 : forLoop (conv_output_dim config.input_height config.padding config.kernel_size
      config.stride) _ (output, (0 : Int)) = (_, _) := hsim
  exact congrArg Prod.fst hsim1

/-- In wrap-around arithmetic the accumulator of `conv2d` ends at the bias plus the sum of all
products, reduced to 32 bits, whether or not an addition overflowed. -/
theorem conv2d_acc_wrap (input weights bias : Int → Int)
    (input_h input_w input_c kernel_size stride padding oh ow oc : Int)
    (hb : wrap32 (bias oc) = bias oc) :
    (CPUConvolution.conv2d_acc input weights bias input_h input_w input_c kernel_size stride
      padding oh ow oc).val = wrap32 (bias oc +
      ∑ kh ∈ Finset.range kernel_size.toNat, ∑ kw ∈ Finset.range kernel_size.toNat,
        ∑ ic ∈ Finset.range input_c.toNat,
          padded_input input input_h input_w input_c (oh * stride + (kh : Int) - padding)
            (ow * stride + (kw : Int) - padding) (ic : Int)
          * weights (((oc * input_c + (ic : Int)) * kernel_size + (kh : Int)) * kernel_size
            + (kw : Int))) := by
  unfold CPUConvolution.conv2d_acc
  exact forLoop_wrapsum Acc32.val kernel_size _
    (fun kh => ∑ kw ∈ Finset.range kernel_size.toNat, ∑ ic ∈ Finset.range input_c.toNat,
          padded_input input input_h input_w input_c (oh * stride + kh - padding)
            (ow * stride + (kw : Int) - padding) (ic : Int)
          * weights (((oc * input_c + (ic : Int)) * kernel_size + kh) * kernel_size
            + (kw : Int)))
    (fun kh a _ _ ha => forLoop_wrapsum Acc32.val kernel_size _
      (fun kw => ∑ ic ∈ Finset.range input_c.toNat,
          padded_input input input_h input_w input_c (oh * stride + kh - padding)
            (ow * stride + kw - padding) (ic : Int)
          * weights (((oc * input_c + (ic : Int)) * kernel_size + kh) * kernel_size + kw))
      (fun kw a _ _ ha => forLoop_wrapsum Acc32.val input_c _
        (fun ic => padded_input input input_h input_w input_c (oh * stride + kh - padding)
            (ow * stride + kw - padding) ic
          * weights (((oc * input_c + ic) * kernel_size + kh) * kernel_size + kw))
        (fun ic a _ _ ha => by
          unfold padded_input
          by_cases hin : oh * stride + kh - padding ≥ 0 ∧ oh * stride + kh - padding < input_h ∧
              ow * stride + kw - padding ≥ 0 ∧ ow * stride + kw - padding < input_w
          · have hin' : 0 ≤ oh * stride + kh - padding ∧ oh * stride + kh - padding < input_h ∧
              0 ≤ ow * stride + kw - padding ∧ ow * stride + kw - padding < input_w := hin
            simp only [if_pos hin, if_pos hin']
            rfl
          · have hin' : ¬ (0 ≤ oh * stride + kh - padding ∧
                oh * stride + kh - padding < input_h ∧
                0 ≤ ow * stride + kw - padding ∧ ow * stride + kw - padding < input_w) := hin
            simp only [if_neg hin, if_neg hin', zero_mul, add_zero]
            exact ha.symm) a ha) a ha)
    ⟨bias oc, true⟩ hb

/-- The accumulator `conv2d_compute` builds inside `conv_accelerator` for `(oh, ow, oc)`, in
terms of the caller's input, weights and bias. -/
theorem conv_accelerator_acc (input weights bias : Int → Int) (config : ConvConfig)
    (oh ow oc : Int) (hoc : 0 ≤ oc) (hoc' : oc < config.output_channels)
    (hb : -32768 ≤ bias oc ∧ bias oc ≤ 32767) :
    conv2d_compute_acc (conv_accelerator_window input config oh ow)
      (conv_accelerator_weight_buffer weights config) (conv_accelerator_bias_buffer bias config)
      config oc
    = wrap32 (bias oc * 256 +
      ∑ kh ∈ Finset.range config.kernel_size.toNat, ∑ kw ∈ Finset.range config.kernel_size.toNat,
        ∑ ic ∈ Finset.range config.input_channels.toNat,
          padded_input input config.input_height config.input_width config.input_channels
            (oh * config.stride + (kh : Int) - config.padding)
            (ow * config.stride + (kw : Int) - config.padding) (ic : Int)
          * weights (((oc * config.input_channels + (ic : Int)) * config.kernel_size + (kh : Int))
            * config.kernel_size + (kw : Int))) := by
  have hbb := bias_buffer_at bias config oc hoc hoc'
  rw [conv2d_compute_acc_at _ _ _ config oc hoc hoc' (by rw [hbb]; exact hb), hbb]
  congr 2
  rw [Finset.sum_comm]
  refine Finset.sum_congr rfl (fun kh hkh => ?_)
  rw [Finset.sum_comm]
  refine Finset.sum_congr rfl (fun kw hkw => ?_)
  refine Finset.sum_congr rfl (fun ic hic => ?_)
  have h1 : (kh : Int) < config.kernel_size := by
    have := Finset.mem_range.mp hkh
    omega
  have h2 : (kw : Int) < config.kernel_size := by
    have := Finset.mem_range.mp hkw
    omega
  have h3 : (ic : Int) < config.input_channels := by
    have := Finset.mem_range.mp hic
    omega
  rw [window_at input config oh ow kh kw ic (by omega) h1 (by omega) h2 (by omega) h3,
    weight_buffer_at weights config oc ic kh kw hoc hoc' (by omega) h3 (by omega) h1
      (by omega) h2]
  have e1 : oh * config.stride - config.padding + (kh : Int)
      = oh * config.stride + (kh : Int) - config.padding := by ring
  have e2 : ow * config.stride - config.padding + (kw : Int)
      = ow * config.stride + (kw : Int) - config.padding := by ring
  rw [e1, e2]

/-! ## The claim on the accelerator kernel -/

/-- C8, counterexample: for a 1×1×1 input `3`, a 1×1 kernel `2` and bias `1`, `conv2d` outputs
`(1 + 3 * 2) >> 8 = 0`, while the accelerator outputs the word `1` when it is given the same
numbers as raw fixed-point words, and the word `1792` (the number 7) when it is given them as
fixed-point numbers (words `768`, `512`, `256`), which is not the word `0` of the number 0. -/
theorem C8_accelerator_vs_cpu_counterexample :
    conv_accelerator (fun _ => 3) (fun _ => 2) (fun _ => 1) (fun _ => 0)
      ⟨1, 1, 1, 1, 1, 1, 0, false⟩ 0
    ≠ CPUConvolution.conv2d (fun _ => 3) (fun _ => 2) (fun _ => 1) (fun _ => 0)
      1 1 1 1 1 1 0 0 ∧
    conv_accelerator (fun _ => 3 * 256) (fun _ => 2 * 256) (fun _ => 1 * 256) (fun _ => 0)
      ⟨1, 1, 1, 1, 1, 1, 0, false⟩ 0
    ≠ 256 * CPUConvolution.conv2d (fun _ => 3) (fun _ => 2) (fun _ => 1) (fun _ => 0)
      1 1 1 1 1 1 0 0 := by
  decide

/-- C8 (amended): for a layer geometry inside the accelerator's local arrays
(`kernel_size ≤ MAX_KERNEL_SIZE = 3`, at most `MAX_CHANNELS = 1024` input and output channels)
and with `stride ≥ 1`, when the accelerator is given the input and weight words of the CPU path
as raw fixed-point words, `use_relu` is off and the CPU bias is 256 times the accelerator's bias
word (in particular when both are 0), `conv_accelerator` and `CPUConvolution::conv2d` store the
same word at every output position and channel at which the accumulator of `conv2d` lies in
`[-32768, 32767]`, that is, at which `conv2d` does not saturate. -/
theorem C8_accelerator_matches_cpu (input weights bias output : Int → Int)
    (config : ConvConfig) (oh ow oc : Int)
    (_hkernel : config.kernel_size ≤ MAX_KERNEL_SIZE)
    (_hic : config.input_channels ≤ MAX_CHANNELS)
    (_hocmax : config.output_channels ≤ MAX_CHANNELS)
    (_hstride : 1 ≤ config.stride)
    (hrelu : config.use_relu = false)
    (hb : -32768 ≤ bias oc ∧ bias oc ≤ 32767)
    (hoh : 0 ≤ oh)
    (hoh' : oh < conv_output_dim config.input_height config.padding config.kernel_size
      config.stride)
    (how : 0 ≤ ow)
    (how' : ow < conv_output_dim config.input_width config.padding config.kernel_size
      config.stride)
    (hoc : 0 ≤ oc) (hoc' : oc < config.output_channels)
    (hsat : -32768 ≤ (CPUConvolution.conv2d_acc input weights (fun c => bias c * 256)
        config.input_height config.input_width config.input_channels config.kernel_size
        config.stride config.padding oh ow oc).val ∧
      (CPUConvolution.conv2d_acc input weights (fun c => bias c * 256)
        config.input_height config.input_width config.input_channels config.kernel_size
        config.stride config.padding oh ow oc).val ≤ 32767) :
    conv_accelerator input weights bias output config
      ((oh * conv_output_dim config.input_width config.padding config.kernel_size config.stride
        + ow) * config.output_channels + oc)
    = CPUConvolution.conv2d input weights (fun c => bias c * 256) output
        config.input_height config.input_width config.input_channels config.output_channels
        config.kernel_size config.stride config.padding
        ((oh * conv_output_dim config.input_width config.padding config.kernel_size
          config.stride + ow) * config.output_channels + oc) := by
  have hacc := conv2d_acc_wrap input weights (fun c => bias c * 256) config.input_height
    config.input_width config.input_channels config.kernel_size config.stride config.padding
    oh ow oc (wrap32_mul_256 _ hb.1 hb.2)
  rw [CPUConvolution.conv2d_at _ _ _ _ _ _ _ _ _ _ _ _ _ _ hoh hoh' how how' hoc hoc',
    conv_accelerator_eq _ _ _ _ _ (by omega),
    (write3 _ _ _ (fun oh ow oc => conv2d_compute (conv_accelerator_window input config oh ow)
      (conv_accelerator_weight_buffer weights config)
      (conv_accelerator_bias_buffer bias config) (fun _ => 0) config oc) output).1 oh ow oc
      hoh hoh' how how' hoc hoc',
    conv2d_compute_at _ _ _ _ _ _ hoc hoc', conv_accelerator_acc _ _ _ _ _ _ _ hoc hoc' hb,
    ← hacc, requantize_eq_sat8]
  have hsh := shiftRight8_eq_div (CPUConvolution.conv2d_acc input weights (fun c => bias c * 256)
        config.input_height config.input_width config.input_channels config.kernel_size
        config.stride config.padding oh ow oc).val
  rw [hsh]
  simp only [hrelu, Bool.false_eq_true, false_and, if_false]
  unfold wrap16 sat8
  omega

/-- C8, instance: a 2×2×1 input, a 1×1 kernel with weight 100, accelerator bias word 2,
`use_relu` off, output position `(1, 0, 0)`. -/
theorem C8_accelerator_matches_cpu_witness :
    conv_accelerator (fun i => 50 * i + 20) (fun _ => 100) (fun _ => 2) (fun _ => 0)
      ⟨2, 2, 1, 1, 1, 1, 0, false⟩ ((1 * conv_output_dim 2 0 1 1 + 0) * 1 + 0)
    = CPUConvolution.conv2d (fun i => 50 * i + 20) (fun _ => 100) (fun c => (fun _ => 2) c * 256)
        (fun _ => 0) 2 2 1 1 1 1 0 ((1 * conv_output_dim 2 0 1 1 + 0) * 1 + 0) :=
  C8_accelerator_matches_cpu (fun i => 50 * i + 20) (fun _ => 100) (fun _ => 2) (fun _ => 0)
    ⟨2, 2, 1, 1, 1, 1, 0, false⟩ 1 0 0 (by decide) (by decide) (by decide) (by decide) rfl
    (by decide) (by decide) (by decide) (by decide) (by decide) (by decide) (by decide)
    (by decide)

/-! ## The driver, lemmas -/

namespace CNNFPGADriver

theorem write_reg_input_buffer (d : State) (o v : Nat) :
    (write_reg d o v).input_buffer_virt = d.input_buffer_virt := by
  unfold write_reg
  cases d.fpga_base <;> rfl

theorem write_reg_output_buffer (d : State) (o v : Nat) :
    (write_reg d o v).output_buffer_virt = d.output_buffer_virt := by
  unfold write_reg
  cases d.fpga_base <;> rfl

theorem write_reg_weight_buffer (d : State) (o v : Nat) :
    (write_reg d o v).weight_buffer_virt = d.weight_buffer_virt := by
  unfold write_reg
  cases d.fpga_base <;> rfl

theorem write_reg_fpga_base (d : State) (o v : Nat) :
    (write_reg d o v).fpga_base = d.fpga_base := by
  unfold write_reg
  cases h : d.fpga_base <;> simp [h]

/-- With the register window mapped, the completion poll returns as soon as one of the reads
the fuel allows shows the done bit; it changes no field but the trace. -/
theorem wait_for_completion_returns (fuel : Nat) :
    ∀ (status : Nat → Nat) (d : State) (n : Nat), n < fuel →
      status n &&& STATUS_DONE_BIT ≠ 0 → d.fpga_base.isSome = true →
      ∃ d1, wait_for_completion fuel status d = some d1 ∧
        d1.output_buffer_virt = d.output_buffer_virt := by
  induction fuel with
  | zero => intro status d n hn; omega
  | succ k ih =>
    intro status d n hn hdone hmap
    obtain ⟨base, hbase⟩ := Option.isSome_iff_exists.mp hmap
    unfold wait_for_completion
    have hr : read_reg d CONV_STATUS_REG (status 0)
        = ({ d with trace := d.trace ++ [Event.reg_read CONV_STATUS_REG (status 0)] },
            status 0) := by
      unfold read_reg
      rw [hbase]
    simp only [hr]
    by_cases h0 : status 0 &&& STATUS_DONE_BIT ≠ 0
    · rw [if_pos h0]
      exact ⟨_, rfl, rfl⟩
    · rw [if_neg h0]
      have hn0 : n ≠ 0 := fun e => h0 (e ▸ hdone)
      obtain ⟨m, rfl⟩ := Nat.exists_eq_succ_of_ne_zero hn0
      obtain ⟨d1, h1, h2⟩ := ih (fun j => status (j + 1))
        { d with trace := d.trace ++ [Event.reg_read CONV_STATUS_REG (status 0)]
            ++ [Event.usleep 10] } m (by omega) hdone (by simp [hbase])
      exact ⟨d1, h1, h2⟩

/-- With the input and weight DMA buffers allocated the dispatch goes through; it leaves the
register window pointer and the output DMA buffer as they were. -/
theorem conv2d_dispatch_some (d : State) (input weights : Int → Int)
    (input_h input_w input_c output_c kernel_size : Int)
    (hin : d.input_buffer_virt.isSome = true) (hw : d.weight_buffer_virt.isSome = true) :
    ∃ d1, conv2d_dispatch d input weights input_h input_w input_c output_c kernel_size = some d1 ∧
      d1.fpga_base = d.fpga_base ∧ d1.output_buffer_virt = d.output_buffer_virt := by
  obtain ⟨ibuf, hibuf⟩ := Option.isSome_iff_exists.mp hin
  obtain ⟨wbuf, hwbuf⟩ := Option.isSome_iff_exists.mp hw
  unfold conv2d_dispatch
  rw [hibuf]
  dsimp only
  rw [hwbuf]
  dsimp only
  refine ⟨_, rfl, ?_, ?_⟩
  · simp only [write_reg_fpga_base]
  · simp only [write_reg_output_buffer]

end CNNFPGADriver

/-! ## The claims on invalid geometries -/

/-- C9, counterexample: for a 2×2×1 input with a 3×3 kernel, stride 1 and no padding the
formula gives `floor(-1 / 1) + 1 = 0` output rows, yet `CNNFPGADriver::conv2d` on an
initialised driver whose device signals done returns, and returns `true`. -/
theorem C9_invalid_geometry_counterexample :
    ⌊((2 + 2 * 0 - 3 : Int) : ℚ) / ((1 : Int) : ℚ)⌋ + 1 ≤ 0 ∧
    (match CNNFPGADriver.conv2d 1 ⟨fun _ => 1, fun b => b⟩
      ⟨3, some 0, none, 4096, 8192, 12288, some (fun _ => 0), some (fun _ => 0),
        some (fun _ => 0), 12845056, []⟩
      (fun _ => 1) (fun _ => 1) (fun _ => 0) (fun _ => 0) 2 2 1 1 3 1 0 false with
    | CNNFPGADriver.Outcome.returned r => r.2.2
    | _ => false) = true := by
  constructor
  · rw [floor_div_eq _ _ (by decide)]
    decide
  · rfl

/-- C9 (amended): for every geometry, valid or not, `CNNFPGADriver::conv2d` reports no failure:
whenever it returns, it returns `true`. On a driver whose register window and DMA buffers are
set up, for `stride ≥ 1` and a geometry whose three byte counts (`input_h * input_w * input_c`,
`output_c * input_c * kernel_size^2` and `output_h * output_w * output_c` with the output sizes
the code computes) are non-negative and within the DMA buffers, it does return, with `true`, once
a read of the status register shows the done bit; this covers the invalid geometries whose
computed output element count is 0 and those whose two computed output sizes are both negative.
(`CPUConvolution::conv2d` and `depthwise_conv2d` return `void`.) -/
theorem C9_driver_conv2d_returns_true (fuel : Nat) (dev : CNNFPGADriver.Device)
    (d : CNNFPGADriver.State) (input weights bias output : Int → Int)
    (input_h input_w input_c output_c kernel_size stride padding : Int) (use_relu : Bool) :
    (∀ r, CNNFPGADriver.conv2d fuel dev d input weights bias output input_h input_w input_c
        output_c kernel_size stride padding use_relu = CNNFPGADriver.Outcome.returned r →
      r.2.2 = true) ∧
    (∀ n, d.fpga_base.isSome = true → d.input_buffer_virt.isSome = true →
      d.weight_buffer_virt.isSome = true → d.output_buffer_virt.isSome = true →
      1 ≤ stride →
      (0 ≤ input_h * input_w * input_c ∧ input_h * input_w * input_c ≤ d.buffer_size) →
      (0 ≤ output_c * input_c * kernel_size * kernel_size ∧
        output_c * input_c * kernel_size * kernel_size ≤ WEIGHT_BUFFER_SIZE) →
      (0 ≤ conv_output_dim input_h padding kernel_size stride
          * conv_output_dim input_w padding kernel_size stride * output_c ∧
        conv_output_dim input_h padding kernel_size stride
          * conv_output_dim input_w padding kernel_size stride * output_c ≤ d.buffer_size) →
      n < fuel → dev.status n &&& CNNFPGADriver.STATUS_DONE_BIT ≠ 0 →
      ∃ r, CNNFPGADriver.conv2d fuel dev d input weights bias output input_h input_w input_c
        output_c kernel_size stride padding use_relu = CNNFPGADriver.Outcome.returned r ∧
        r.2.2 = true) := by
  constructor
  · intro r hr
    unfold CNNFPGADriver.conv2d at hr
    split at hr
    · exact absurd hr (by simp)
    · split at hr
      · exact absurd hr (by simp)
      · dsimp only at hr
        split at hr
        · exact absurd hr (by simp)
        · injection hr with hr
          rw [← hr]
  · intro n hmap hin hw hout _ _ _ _ hn hdone
    obtain ⟨d0, hd0, hbase, hobuf⟩ := CNNFPGADriver.conv2d_dispatch_some d input weights input_h
      input_w input_c output_c kernel_size hin hw
    obtain ⟨d1, h1, h2⟩ := CNNFPGADriver.wait_for_completion_returns fuel dev.status d0 n hn
      hdone (by rw [hbase]; exact hmap)
    obtain ⟨obuf, hobuf'⟩ := Option.isSome_iff_exists.mp hout
    unfold CNNFPGADriver.conv2d
    rw [hd0]
    dsimp only
    rw [h1]
    dsimp only
    rw [h2, hobuf, hobuf']
    exact ⟨_, rfl, rfl⟩

/-- C9, instance: a 1×1×1 input with a 3×3 kernel, stride 1 and no padding, for which both
computed output sizes are `-1` and the output byte count is `(-1) * (-1) * 1 = 1`, on a driver
that is set up, the device signalling done at the third read of the status register: the call
returns `true`. -/
theorem C9_driver_conv2d_returns_true_witness :
    conv_output_dim 1 0 3 1 = -1 ∧
    (match CNNFPGADriver.conv2d 5 ⟨fun k => if k < 2 then 2 else 1, fun b => b⟩
      ⟨3, some 0, none, 4096, 8192, 12288, some (fun _ => 0), some (fun _ => 0),
        some (fun _ => 0), 12845056, []⟩
      (fun _ => 1) (fun _ => 1) (fun _ => 0) (fun _ => 0) 1 1 1 1 3 1 0 true with
    | CNNFPGADriver.Outcome.returned r => r.2.2
    | _ => false) = true := by
  refine ⟨by decide, ?_⟩
  obtain ⟨r, h1, h2⟩ := (C9_driver_conv2d_returns_true 5
      ⟨fun k => if k < 2 then 2 else 1, fun b => b⟩
      ⟨3, some 0, none, 4096, 8192, 12288, some (fun _ => 0), some (fun _ => 0),
        some (fun _ => 0), 12845056, []⟩
      (fun _ => 1) (fun _ => 1) (fun _ => 0) (fun _ => 0) 1 1 1 1 3 1 0 true).2 2 rfl rfl
    rfl rfl (by decide) (by decide) (by decide) (by decide) (by decide) (by decide)
  rw [h1]
  exact h2

/-! ### Geometries without output -/

/-- For `stride ≥ 1` the computed output size is non-positive exactly when the kernel exceeds
the padded input by at least `stride`. -/
theorem conv_output_dim_nonpos_iff (inp p k s : Int) (hs : 1 ≤ s) :
    conv_output_dim inp p k s ≤ 0 ↔ inp + 2 * p - k ≤ -s := by
  unfold conv_output_dim
  rcases le_or_lt 0 (inp + 2 * p - k) with hn | hn
  · rw [Int.tdiv_eq_ediv hn (by omega)]
    have := Int.ediv_nonneg hn (by omega : 0 ≤ s)
    constructor <;> intro h <;> omega
  · have e : Int.tdiv (inp + 2 * p - k) s = -((-(inp + 2 * p - k)) / s) := by
      have h1 : Int.tdiv (-(-(inp + 2 * p - k))) s = -(Int.tdiv (-(inp + 2 * p - k)) s) :=
        Int.neg_tdiv _ s
      rw [neg_neg] at h1
      rw [h1, Int.tdiv_eq_ediv (by omega) (by omega)]
    rw [e]
    have hiff : 1 ≤ (-(inp + 2 * p - k)) / s ↔ 1 * s ≤ -(inp + 2 * p - k) :=
      Int.le_ediv_iff_mul_le (by omega)
    constructor
    · intro h
      have := hiff.mp (by omega)
      omega
    · intro h
      have := hiff.mpr (by omega)
      omega

/-- The loops of `conv2d` and `depthwise_conv2d` store nothing when there are no output rows or
no output columns. -/
theorem write3_empty (H W C : Int) (f : Int → Int → Int → (Int → Int) → (Int → Int))
    (out : Int → Int) (h : H ≤ 0 ∨ W ≤ 0) :
    forLoop H (fun oh o => forLoop W (fun ow o => forLoop C (fun oc o => f oh ow oc o) o) o) out
      = out := by
  rcases h with h | h
  · exact forLoop_nonpos _ _ _ h
  · exact forLoop_id _ _ _ (fun oh _ _ => forLoop_nonpos _ _ _ h)

/-- C10, counterexample: for a 1×1×1 input, `kernel_size = 3`, `stride = 4`, `padding = 0` the
floor formula gives `floor(-2 / 4) + 1 = 0` output rows, yet `conv2d` and `depthwise_conv2d`
store into offset 0 of the output (the truncating division gives one row and one column). -/
theorem C10_no_write_counterexample :
    ⌊((1 + 2 * 0 - 3 : Int) : ℚ) / ((4 : Int) : ℚ)⌋ + 1 ≤ 0 ∧
    CPUConvolution.conv2d (fun _ => 5) (fun _ => 1) (fun _ => 1280) (fun _ => 9)
      1 1 1 1 3 4 0 0 ≠ (fun _ : Int => (9 : Int)) 0 ∧
    CPUConvolution.depthwise_conv2d (fun _ => 5) (fun _ => 1) (fun _ => 1280) (fun _ => 9)
      1 1 1 3 4 0 0 ≠ (fun _ : Int => (9 : Int)) 0 := by
  rw [floor_div_eq _ _ (by decide)]
  decide

/-- C10 (amended): for `stride ≥ 1`, when `in + 2*padding - kernel_size ≤ -stride` in some
dimension, which is exactly when the output size the code computes with its truncating division
is `≤ 0` in that dimension, `conv2d` and `depthwise_conv2d` store no element: the output buffer
is left unchanged. -/
theorem C10_no_write (input weights bias output : Int → Int)
    (input_h input_w input_c output_c kernel_size stride padding : Int) (hs : 1 ≤ stride)
    (h : input_h + 2 * padding - kernel_size ≤ -stride ∨
      input_w + 2 * padding - kernel_size ≤ -stride) :
    (conv_output_dim input_h padding kernel_size stride ≤ 0 ∨
      conv_output_dim input_w padding kernel_size stride ≤ 0) ∧
    CPUConvolution.conv2d input weights bias output input_h input_w input_c output_c kernel_size
      stride padding = output ∧
    CPUConvolution.depthwise_conv2d input weights bias output input_h input_w input_c
      kernel_size stride padding = output := by
  have hd : conv_output_dim input_h padding kernel_size stride ≤ 0 ∨
      conv_output_dim input_w padding kernel_size stride ≤ 0 :=
    h.imp (conv_output_dim_nonpos_iff _ _ _ _ hs).mpr (conv_output_dim_nonpos_iff _ _ _ _ hs).mpr
  exact ⟨hd, write3_empty _ _ _ _ _ hd, write3_empty _ _ _ _ _ hd⟩

/-- C10, instance: a 2×5×1 input with a 3×3 kernel, stride 1 and no padding has no output row;
the buffer keeps its contents. -/
theorem C10_no_write_witness :
    CPUConvolution.conv2d (fun i => i) (fun _ => 1) (fun _ => 512) (fun i => 2 * i)
      2 5 1 1 3 1 0 = (fun i => 2 * i) :=
  (C10_no_write (fun i => i) (fun _ => 1) (fun _ => 512) (fun i => 2 * i) 2 5 1 1 3 1 0
    (by decide) (Or.inl (by decide))).2.1

/-! ## Accumulator width -/

/-- An accumulation loop whose iterations each move an in-range accumulator by at most `B`
without overflow keeps the ghost flag set and moves the accumulator by at most `n * B`, as long
as that stays within 32 bits. -/
theorem Acc32.forLoop_bounded (n : Int) (body : Int → Acc32 → Acc32) (B : Int) (hB : 0 ≤ B)
    (hb : ∀ (i : Int) (a : Acc32) (M : Int), 0 ≤ i → i < n → -M ≤ a.val → a.val ≤ M →
      M + B ≤ 2147483647 → a.ok = true →
      (body i a).ok = true ∧ -(M + B) ≤ (body i a).val ∧ (body i a).val ≤ M + B)
    (a : Acc32) (M : Int) (h1 : -M ≤ a.val) (h2 : a.val ≤ M)
    (hM : M + (n.toNat : Int) * B ≤ 2147483647) (hok : a.ok = true) :
    (forLoop n body a).ok = true ∧ -(M + (n.toNat : Int) * B) ≤ (forLoop n body a).val ∧
      (forLoop n body a).val ≤ M + (n.toNat : Int) * B := by
  have h := forLoop_rec
    (fun m st => st.ok = true ∧ -(M + (m : Int) * B) ≤ st.val ∧ st.val ≤ M + (m : Int) * B)
    n body a ⟨hok, by simpa using h1, by simpa using h2⟩
    (fun m st hm hst => by
      obtain ⟨s1, s2, s3⟩ := hst
      have hle : ((m : Int) + 1) * B ≤ (n.toNat : Int) * B :=
        mul_le_mul_of_nonneg_right (by omega) hB
      have := hb m st (M + (m : Int) * B) (by omega) hm s2 s3 (by linarith) s1
      refine ⟨this.1, ?_, ?_⟩
      · push_cast
        linarith [this.2.1]
      · push_cast
        linarith [this.2.2])
  exact h

theorem int8_mul_bound (x w : Int) (hx : -128 ≤ x ∧ x ≤ 127) (hw : -128 ≤ w ∧ w ≤ 127) :
    -16384 ≤ x * w ∧ x * w ≤ 16384 := by
  constructor <;> nlinarith [hx.1, hx.2, hw.1, hw.2]

/-- Adding a product of two `int8` values to an accumulator that is at least 16384 away from the
ends of the 32-bit range does not overflow. -/
theorem Acc32.add_bounded (a : Acc32) (p M : Int) (hp : -16384 ≤ p ∧ p ≤ 16384)
    (h1 : -M ≤ a.val) (h2 : a.val ≤ M) (hM : M + 16384 ≤ 2147483647) (hok : a.ok = true) :
    (a.add p).ok = true ∧ -(M + 16384) ≤ (a.add p).val ∧ (a.add p).val ≤ M + 16384 := by
  have hr : inInt32 (a.val + p) = true := by
    simp only [inInt32, Bool.and_eq_true, decide_eq_true_eq]
    omega
  have hv : (a.add p).val = a.val + p := wrap32_of_inInt32 _ hr
  refine ⟨?_, ?_, ?_⟩
  · simp only [Acc32.add, hok, hr, Bool.and_self]
  · rw [hv]; omega
  · rw [hv]; omega

/-- The number of taps of one output element, times the largest product. -/
theorem taps_bound (input_c kernel_size : Int) (h : input_c * kernel_size * kernel_size ≤ 9216) :
    (kernel_size.toNat : Int) * ((kernel_size.toNat : Int) * ((input_c.toNat : Int) * 16384))
      ≤ 150994944 := by
  rcases le_or_lt kernel_size 0 with hk | hk
  · have : kernel_size.toNat = 0 := by omega
    simp [this]
  · rcases le_or_lt input_c 0 with hc | hc
    · have : input_c.toNat = 0 := by omega
      simp [this]
    · have e1 : (kernel_size.toNat : Int) = kernel_size := Int.toNat_of_nonneg hk.le
      have e2 : (input_c.toNat : Int) = input_c := Int.toNat_of_nonneg hc.le
      rw [e1, e2]
      nlinarith

/-- For `int8` inputs and weights the accumulation of `conv2d`, started from a bias of absolute
value at most `M`, never overflows and stays within `M` plus 16384 per tap, as long as that
bound fits in 32 bits. -/
theorem conv2d_acc_bounded (input weights bias : Int → Int)
    (input_h input_w input_c kernel_size stride padding oh ow oc M : Int)
    (hin : ∀ i, -128 ≤ input i ∧ input i ≤ 127)
    (hw : ∀ i, -128 ≤ weights i ∧ weights i ≤ 127)
    (hb1 : -M ≤ bias oc) (hb2 : bias oc ≤ M)
    (hM : M + (kernel_size.toNat : Int) * ((kernel_size.toNat : Int)
      * ((input_c.toNat : Int) * 16384)) ≤ 2147483647) :
    (CPUConvolution.conv2d_acc input weights bias input_h input_w input_c kernel_size stride
      padding oh ow oc).ok = true ∧
    -(M + (kernel_size.toNat : Int) * ((kernel_size.toNat : Int)
      * ((input_c.toNat : Int) * 16384))) ≤
      (CPUConvolution.conv2d_acc input weights bias input_h input_w input_c kernel_size stride
        padding oh ow oc).val ∧
    (CPUConvolution.conv2d_acc input weights bias input_h input_w input_c kernel_size stride
        padding oh ow oc).val ≤ M + (kernel_size.toNat : Int) * ((kernel_size.toNat : Int)
      * ((input_c.toNat : Int) * 16384)) := by
  have hc0 : (0 : Int) ≤ (input_c.toNat : Int) * 16384 := by positivity
  have hk0 : (0 : Int) ≤ (kernel_size.toNat : Int) * ((input_c.toNat : Int) * 16384) := by
    positivity
  unfold CPUConvolution.conv2d_acc
  refine Acc32.forLoop_bounded kernel_size _ _ hk0 ?_ ⟨bias oc, true⟩ M hb1 hb2 hM rfl
  intro kh a M1 _ _ a1 a2 aM aok
  refine Acc32.forLoop_bounded kernel_size _ _ hc0 ?_ a M1 a1 a2 aM aok
  intro kw a M2 _ _ a1 a2 aM aok
  refine Acc32.forLoop_bounded input_c _ 16384 (by decide) ?_ a M2 a1 a2 aM aok
  intro ic a M3 _ _ a1 a2 aM aok
  dsimp only
  split_ifs
  · exact Acc32.add_bounded a _ M3 (int8_mul_bound _ _ (hin _) (hw _)) a1 a2 aM aok
  · exact ⟨aok, by omega, by omega⟩

/-- C11: for a `conv2d` call on `int8` inputs and weights with
`input_c * kernel_size * kernel_size ≤ 9216`, the sum of the products of one output element has
absolute value at most `9216 * 16384 = 150994944 < 2^31`, and for a bias with
`|bias| ≤ 2^31 - 1 - 150994944` no addition of the accumulation leaves the 32-bit range, so the
accumulator ends at the bias plus that sum. -/
theorem C11_accumulator_no_overflow (input weights bias : Int → Int)
    (input_h input_w input_c kernel_size stride padding oh ow oc : Int)
    (hin : ∀ i, -128 ≤ input i ∧ input i ≤ 127)
    (hw : ∀ i, -128 ≤ weights i ∧ weights i ≤ 127)
    (hsize : input_c * kernel_size * kernel_size ≤ 9216)
    (hbias : -(2147483647 - 150994944) ≤ bias oc ∧ bias oc ≤ 2147483647 - 150994944) :
    ((150994944 : Int) < 2 ^ 31) ∧
    (-150994944 ≤ ∑ kh ∈ Finset.range kernel_size.toNat, ∑ kw ∈ Finset.range kernel_size.toNat,
        ∑ ic ∈ Finset.range input_c.toNat,
          padded_input input input_h input_w input_c (oh * stride + (kh : Int) - padding)
            (ow * stride + (kw : Int) - padding) (ic : Int)
          * weights (((oc * input_c + (ic : Int)) * kernel_size + (kh : Int)) * kernel_size
            + (kw : Int)) ∧
      ∑ kh ∈ Finset.range kernel_size.toNat, ∑ kw ∈ Finset.range kernel_size.toNat,
        ∑ ic ∈ Finset.range input_c.toNat,
          padded_input input input_h input_w input_c (oh * stride + (kh : Int) - padding)
            (ow * stride + (kw : Int) - padding) (ic : Int)
          * weights (((oc * input_c + (ic : Int)) * kernel_size + (kh : Int)) * kernel_size
            + (kw : Int)) ≤ 150994944) ∧
    (CPUConvolution.conv2d_acc input weights bias input_h input_w input_c kernel_size stride
      padding oh ow oc).ok = true ∧
    (CPUConvolution.conv2d_acc input weights bias input_h input_w input_c kernel_size stride
      padding oh ow oc).val = bias oc +
      ∑ kh ∈ Finset.range kernel_size.toNat, ∑ kw ∈ Finset.range kernel_size.toNat,
        ∑ ic ∈ Finset.range input_c.toNat,
          padded_input input input_h input_w input_c (oh * stride + (kh : Int) - padding)
            (ow * stride + (kw : Int) - padding) (ic : Int)
          * weights (((oc * input_c + (ic : Int)) * kernel_size + (kh : Int)) * kernel_size
            + (kw : Int)) := by
  have ht := taps_bound input_c kernel_size hsize
  have hz := conv2d_acc_bounded input weights (fun _ => 0) input_h input_w input_c kernel_size
    stride padding oh ow oc 0 hin hw (le_refl _) (le_refl _) (by omega)
  have hzv := CPUConvolution.conv2d_acc_val input weights (fun _ => 0) input_h input_w input_c
    kernel_size stride padding oh ow oc hz.1
  have hb := conv2d_acc_bounded input weights bias input_h input_w input_c kernel_size
    stride padding oh ow oc (2147483647 - 150994944) hin hw hbias.1 hbias.2 (by omega)
  have hbv := CPUConvolution.conv2d_acc_val input weights bias input_h input_w input_c
    kernel_size stride padding oh ow oc hb.1
  refine ⟨by norm_num, ⟨?_, ?_⟩, hb.1, hbv⟩
  · have := hz.2.1
    rw [hzv] at this
    dsimp only at this
    omega
  · have := hz.2.2
    rw [hzv] at this
    dsimp only at this
    omega

/-- C11, instance: a 3×3×2 input of elements `-128`, a 3×3 kernel of weights `-128`, the largest
admitted bias, output position `(1, 1, 0)`: the nine-by-two products of 16384 do not overflow. -/
theorem C11_accumulator_no_overflow_witness :
    (CPUConvolution.conv2d_acc (fun _ => -128) (fun _ => -128) (fun _ => 2147483647 - 150994944)
      3 3 2 3 1 1 1 1 0).ok = true :=
  (C11_accumulator_no_overflow (fun _ => -128) (fun _ => -128)
    (fun _ => 2147483647 - 150994944) 3 3 2 3 1 1 1 1 0
    (fun _ => ⟨le_refl _, by norm_num⟩) (fun _ => ⟨le_refl _, by norm_num⟩)
    (by decide) (by decide)).2.2.1

/-! ## Activations -/

/-- The in-place `relu` replaces the negative ones of the first `size` elements by 0 and leaves
every other element as it was. -/
theorem relu_at (data : Int → Int) (size i : Int) :
    CPUConvolution.relu data size i
      = if 0 ≤ i ∧ i < size then (if data i < 0 then 0 else data i) else data i := by
  have h := forLoop_rec
    (fun m st => ∀ j : Int, st j
      = if 0 ≤ j ∧ j < (m : Int) then (if data j < 0 then 0 else data j) else data j)
    size (fun i data => if data i < 0 then Function.update data i 0 else data) data
    (fun j => by
      have : ¬ (0 ≤ j ∧ j < ((0 : ℕ) : Int)) := by
        rintro ⟨a, b⟩
        simp at b
        omega
      rw [if_neg this])
    (fun m st _ hst j => by
      have hm : st (m : Int) = data (m : Int) := by
        rw [hst]
        exact if_neg (by omega)
      show (if st (m : Int) < 0 then Function.update st (m : Int) 0 else st) j = _
      rw [hm]
      by_cases hj : j = (m : Int)
      · subst hj
        have hc : 0 ≤ (m : Int) ∧ (m : Int) < ((m + 1 : ℕ) : Int) := by
          push_cast
          omega
        rw [if_pos hc]
        split_ifs with hneg
        · simp
        · exact hm
      · have e : (if data (m : Int) < 0 then Function.update st (m : Int) 0 else st) j = st j := by
          split_ifs
          · simp [Function.update, hj]
          · rfl
        rw [e, hst]
        have hiff : (0 ≤ j ∧ j < (m : Int)) ↔ (0 ≤ j ∧ j < ((m + 1 : ℕ) : Int)) := by
          push_cast
          constructor <;> intro h <;> omega
        simp only [hiff])
  have e := h i
  unfold CPUConvolution.relu
  rw [e]
  clear h e
  have hiff : (0 ≤ i ∧ i < (size.toNat : Int)) ↔ (0 ≤ i ∧ i < size) := by
    constructor <;> intro h <;> omega
  simp only [hiff]

/-- The driver's `activation` stores the activated element at each of the first `size` offsets
of `output` when `act_type` is 0 or 1, and leaves every other element of `output` alone. -/
theorem activation_at (input output : Int → Int) (size act_type i : Int)
    (ht : act_type = 0 ∨ act_type = 1) :
    (CNNFPGADriver.activation input output size act_type).1 i
      = if 0 ≤ i ∧ i < size then
          (if act_type = 0 then toInt8 (if input i > 0 then input i else 0)
            else toInt8 (if toInt8 (if input i > 0 then input i else 0) < 6
              then toInt8 (if input i > 0 then input i else 0) else 6))
        else output i := by
  unfold CNNFPGADriver.activation
  have L := forLoop_tab size
    (fun i output =>
      if act_type = 0 then
        Function.update output i (toInt8 (if input i > 0 then input i else 0))
      else if act_type = 1 then
        Function.update output i (toInt8 (if toInt8 (if input i > 0 then input i else 0) < 6
          then toInt8 (if input i > 0 then input i else 0) else 6))
      else output)
    (fun i j => j = i)
    (fun j => if act_type = 0 then toInt8 (if input j > 0 then input j else 0)
            else toInt8 (if toInt8 (if input j > 0 then input j else 0) < 6
              then toInt8 (if input j > 0 then input j else 0) else 6))
    (fun k st j _ _ => by
      rcases ht with h0 | h1
      · simp only [h0, if_true]
        exact update_tab st k _ (fun j => toInt8 (if input j > 0 then input j else 0)) rfl j
      · have hne : ¬ act_type = 0 := by omega
        simp only [if_neg hne, h1, if_true]
        exact update_tab st k _
          (fun j => toInt8 (if toInt8 (if input j > 0 then input j else 0) < 6
              then toInt8 (if input j > 0 then input j else 0) else 6)) rfl j)
    output i
  by_cases hi : 0 ≤ i ∧ i < size
  · rw [if_pos hi]
    exact L.1 ⟨i, hi.1, hi.2, rfl⟩
  · rw [if_neg hi]
    exact L.2 (fun ⟨k, k1, k2, k3⟩ => hi (k3 ▸ ⟨k1, k2⟩))

/-- C12: on `int8` elements, the in-place `CPUConvolution::relu` maps each of the first `size`
elements `x` to 0 when `x < 0` and to `x` when `x ≥ 0` and leaves every other element of the
buffer alone; `CNNFPGADriver::activation` with `act_type` 0 stores the same values at the first
`size` offsets of its output, leaves the rest of the output alone and returns `true`. -/
theorem C12_relu (data output : Int → Int) (size i : Int)
    (hin : ∀ j, 0 ≤ j → j < size → -128 ≤ data j ∧ data j ≤ 127) :
    CPUConvolution.relu data size i
      = (if 0 ≤ i ∧ i < size then (if data i < 0 then 0 else data i) else data i) ∧
    (CNNFPGADriver.activation data output size 0).1 i
      = (if 0 ≤ i ∧ i < size then (if data i < 0 then 0 else data i) else output i) ∧
    (CNNFPGADriver.activation data output size 0).2 = true ∧
    (0 ≤ i → i < size →
      CPUConvolution.relu data size i = (CNNFPGADriver.activation data output size 0).1 i) := by
  have h1 := relu_at data size i
  have h2 : (CNNFPGADriver.activation data output size 0).1 i
      = (if 0 ≤ i ∧ i < size then (if data i < 0 then 0 else data i) else output i) := by
    rw [activation_at data output size 0 i (Or.inl rfl)]
    by_cases hi : 0 ≤ i ∧ i < size
    · rw [if_pos hi, if_pos hi, if_pos rfl]
      have hr := hin i hi.1 hi.2
      by_cases hpos : data i > 0
      · rw [if_pos hpos, if_neg (by omega), toInt8_of_range _ hr.1 hr.2]
      · rw [if_neg hpos]
        have hz : toInt8 0 = 0 := by decide
        rw [hz]
        split_ifs <;> omega
    · rw [if_neg hi, if_neg hi]
  refine ⟨h1, h2, rfl, ?_⟩
  intro a b
  have hc : 0 ≤ i ∧ i < size := ⟨a, b⟩
  rw [h1, h2, if_pos hc, if_pos hc]

/-- C12, instance: the elements `-3, -2, ..., 6` under both functions at offset 1. -/
theorem C12_relu_witness :
    CPUConvolution.relu (fun j => j % 10 - 3) 10 1
      = (CNNFPGADriver.activation (fun j => j % 10 - 3) (fun _ => 99) 10 0).1 1 :=
  (C12_relu (fun j => j % 10 - 3) (fun _ => 99) 10 1 (fun j _ _ => by
    show -128 ≤ j % 10 - 3 ∧ j % 10 - 3 ≤ 127
    omega)).2.2.2 (by decide) (by decide)

/-- C13: on `int8` elements, `CNNFPGADriver::activation` with `act_type` 1 stores
`min(max(x, 0), 6)` for each of the first `size` elements `x`: 0 for `x < 0`, `x` for
`0 ≤ x ≤ 6` and 6 for `x > 6`, a value in `[0, 6]`; the accelerator's `relu6` does the same on
fixed-point words, where 6 is the word `6 * 256`. -/
theorem C13_relu6 (input output : Int → Int) (size i : Int)
    (hin : -128 ≤ input i ∧ input i ≤ 127) (hi : 0 ≤ i) (hi' : i < size) :
    (CNNFPGADriver.activation input output size 1).1 i = min (max (input i) 0) 6 ∧
    (input i < 0 → (CNNFPGADriver.activation input output size 1).1 i = 0) ∧
    (0 ≤ input i → input i ≤ 6 →
      (CNNFPGADriver.activation input output size 1).1 i = input i) ∧
    (6 < input i → (CNNFPGADriver.activation input output size 1).1 i = 6) ∧
    (0 ≤ (CNNFPGADriver.activation input output size 1).1 i ∧
      (CNNFPGADriver.activation input output size 1).1 i ≤ 6) ∧
    (∀ x : Int, relu6 x = min (max x 0) (6 * 256) ∧ (x < 0 → relu6 x = 0) ∧
      (0 ≤ x → x ≤ 6 * 256 → relu6 x = x) ∧ (6 * 256 < x → relu6 x = 6 * 256) ∧
      0 ≤ relu6 x ∧ relu6 x ≤ 6 * 256) := by
  have h : (CNNFPGADriver.activation input output size 1).1 i = min (max (input i) 0) 6 := by
    rw [activation_at input output size 1 i (Or.inr rfl), if_pos ⟨hi, hi'⟩,
      if_neg (by decide)]
    have hv : toInt8 (if input i > 0 then input i else 0) = max (input i) 0 := by
      split_ifs with hpos
      · rw [toInt8_of_range _ hin.1 hin.2]
        omega
      · have hz : toInt8 0 = 0 := by decide
        rw [hz]
        omega
    rw [hv]
    split_ifs with h6
    · rw [toInt8_of_range _ (by omega) (by omega)]
      omega
    · have hz : toInt8 6 = 6 := by decide
      rw [hz]
      omega
  rw [h]
  refine ⟨rfl, ?_, ?_, ?_, ?_, ?_⟩
  · intro hx; omega
  · intro h0 h6; omega
  · intro h6; omega
  · omega
  · intro x
    have hx : relu6 x = min (max x 0) (6 * 256) := by
      unfold relu6
      dsimp only
      split_ifs <;> omega
    rw [hx]
    refine ⟨rfl, ?_, ?_, ?_, ?_, ?_⟩
    · intro h0; omega
    · intro h0 h6; omega
    · intro h6; omega
    · omega
    · omega

/-- C13, instance: the element 100 at offset 2 is clamped to 6. -/
theorem C13_relu6_witness :
    (CNNFPGADriver.activation (fun _ => 100) (fun _ => 0) 4 1).1 2
      = min (max ((fun _ : Int => (100 : Int)) 2) 0) 6 :=
  (C13_relu6 (fun _ => 100) (fun _ => 0) 4 2 (by decide) (by decide) (by decide)).1

/-! ## Global average pooling -/

/-- Adding a value of absolute value at most `B` to an accumulator that is at least `B` away
from the ends of the 32-bit range does not overflow. -/
theorem Acc32.add_bounded_by (a : Acc32) (p M B : Int) (hp : -B ≤ p ∧ p ≤ B)
    (h1 : -M ≤ a.val) (h2 : a.val ≤ M) (hM : M + B ≤ 2147483647) (hok : a.ok = true) :
    (a.add p).ok = true ∧ -(M + B) ≤ (a.add p).val ∧ (a.add p).val ≤ M + B := by
  have hr : inInt32 (a.val + p) = true := by
    simp only [inInt32, Bool.and_eq_true, decide_eq_true_eq]
    omega
  have hv : (a.add p).val = a.val + p := wrap32_of_inInt32 _ hr
  refine ⟨?_, ?_, ?_⟩
  · simp only [Acc32.add, hok, hr, Bool.and_self]
  · rw [hv]; omega
  · rw [hv]; omega

/-- The truncated quotient of a sum of `n ≥ 1` terms lying in `[lo, hi]` lies in `[lo, hi]`. -/
theorem tdiv_between (S n lo hi : Int) (hn : 1 ≤ n) (h1 : lo * n ≤ S) (h2 : S ≤ hi * n) :
    lo ≤ Int.tdiv S n ∧ Int.tdiv S n ≤ hi := by
  rcases le_or_lt 0 S with hS | hS
  · rw [Int.tdiv_eq_ediv hS (by omega)]
    constructor
    · exact (Int.le_ediv_iff_mul_le (by omega)).mpr h1
    · have : S / n < hi + 1 := (Int.ediv_lt_iff_lt_mul (by omega)).mpr (by nlinarith)
      omega
  · have e : Int.tdiv S n = -((-S) / n) := by
      have h0 : Int.tdiv (-(-S)) n = -(Int.tdiv (-S) n) := Int.neg_tdiv (-S) n
      rw [neg_neg] at h0
      rw [h0, Int.tdiv_eq_ediv (by omega) (by omega)]
    rw [e]
    constructor
    · have : (-S) / n < -lo + 1 := (Int.ediv_lt_iff_lt_mul (by omega)).mpr (by nlinarith)
      omega
    · have : -hi ≤ (-S) / n := (Int.le_ediv_iff_mul_le (by omega)).mpr (by nlinarith)
      omega

/-- A sum of `n` terms lying in `[lo, hi]` lies in `[lo * n, hi * n]`. -/
theorem sum_range_between (n : ℕ) (f : ℕ → Int) (lo hi : Int)
    (h : ∀ s, s < n → lo ≤ f s ∧ f s ≤ hi) :
    lo * (n : Int) ≤ ∑ s ∈ Finset.range n, f s ∧ ∑ s ∈ Finset.range n, f s ≤ hi * (n : Int) := by
  induction n with
  | zero => simp
  | succ k ih =>
    have hk := ih (fun s hs => h s (by omega))
    have hl := h k (by omega)
    rw [Finset.sum_range_succ]
    push_cast
    constructor
    · nlinarith [hk.1, hl.1]
    · nlinarith [hk.2, hl.2]

/-- The sum loop of the global average pooling over fewer than `2^24` `int8` elements does not
overflow and ends at the sum of the elements of the channel. -/
theorem avg_pool_sum_val (input : Int → Int) (n channels c : Int) (hn : n < 16777216)
    (hin : ∀ s, 0 ≤ s → s < n → -128 ≤ input (s * channels + c) ∧ input (s * channels + c) ≤ 127) :
    (forLoop n (fun s (sum : Acc32) => sum.add (input (s * channels + c))) ⟨0, true⟩).ok = true ∧
    (forLoop n (fun s (sum : Acc32) => sum.add (input (s * channels + c))) ⟨0, true⟩).val
      = ∑ s ∈ Finset.range n.toNat, input ((s : Int) * channels + c) := by
  have hb := Acc32.forLoop_bounded n
    (fun s (sum : Acc32) => sum.add (input (s * channels + c))) 128 (by decide)
    (fun s a M s0 s1 a1 a2 aM aok =>
      Acc32.add_bounded_by a _ M 128 (by have := hin s s0 s1; omega) a1 a2 aM aok)
    ⟨0, true⟩ 0 (by decide) (by decide) (by omega) rfl
  have hs := Acc32.forLoop_sum n
    (fun s (sum : Acc32) => sum.add (input (s * channels + c)))
    (fun s => input (s * channels + c))
    (fun s a _ _ hok => Acc32.add_ok a _ hok) ⟨0, true⟩ hb.1
  refine ⟨hb.1, ?_⟩
  rw [hs.2]
  simp

/-- The element `global_avg_pool` stores for channel `c`: the truncated quotient of the channel
sum, which lies between any two bounds of the elements of the channel. -/
theorem global_avg_pool_at (input output : Int → Int) (height width channels c : Int)
    (hsz1 : 1 ≤ height * width) (hsz2 : height * width < 16777216)
    (hc : 0 ≤ c) (hc' : c < channels)
    (hin : ∀ s, 0 ≤ s → s < height * width →
      -128 ≤ input (s * channels + c) ∧ input (s * channels + c) ≤ 127) :
    CPUConvolution.global_avg_pool input output height width channels c
      = Int.tdiv (∑ s ∈ Finset.range (height * width).toNat, input ((s : Int) * channels + c))
          (height * width) ∧
    (CPUConvolution.global_avg_pool_sum input (height * width) channels c).ok = true ∧
    (∀ lo hi : Int, (∀ s, 0 ≤ s → s < height * width →
        lo ≤ input (s * channels + c) ∧ input (s * channels + c) ≤ hi) →
      lo ≤ CPUConvolution.global_avg_pool input output height width channels c ∧
      CPUConvolution.global_avg_pool input output height width channels c ≤ hi) := by
  have hsum := avg_pool_sum_val input (height * width) channels c hsz2 hin
  have hbetween : ∀ lo hi : Int, (∀ s, 0 ≤ s → s < height * width →
        lo ≤ input (s * channels + c) ∧ input (s * channels + c) ≤ hi) →
      lo ≤ Int.tdiv (∑ s ∈ Finset.range (height * width).toNat,
        input ((s : Int) * channels + c)) (height * width) ∧
      Int.tdiv (∑ s ∈ Finset.range (height * width).toNat,
        input ((s : Int) * channels + c)) (height * width) ≤ hi := by
    intro lo hi hb
    have hsb := sum_range_between (height * width).toNat
      (fun s => input ((s : Int) * channels + c)) lo hi
      (fun s hs => hb s (by omega) (by omega))
    have e : (((height * width).toNat : ℕ) : Int) = height * width :=
      Int.toNat_of_nonneg (by omega)
    rw [e] at hsb
    exact tdiv_between _ _ lo hi hsz1 hsb.1 hsb.2
  have hval : CPUConvolution.global_avg_pool input output height width channels c
      = Int.tdiv (∑ s ∈ Finset.range (height * width).toNat, input ((s : Int) * channels + c))
          (height * width) := by
    unfold CPUConvolution.global_avg_pool
    have L := forLoop_tab channels
      (fun c out => Function.update out c (toInt8 (Int.tdiv
        (CPUConvolution.global_avg_pool_sum input (height * width) channels c).val
        (height * width))))
      (fun i j => j = i)
      (fun c => toInt8 (Int.tdiv
        (CPUConvolution.global_avg_pool_sum input (height * width) channels c).val
        (height * width)))
      (fun k st j _ _ => update_tab st k _ (fun c => toInt8 (Int.tdiv
        (CPUConvolution.global_avg_pool_sum input (height * width) channels c).val
        (height * width))) rfl j) output c
    have hL := L.1 ⟨c, hc, hc', rfl⟩
    rw [hL]
    unfold CPUConvolution.global_avg_pool_sum
    rw [hsum.2]
    have hr := hbetween (-128) 127 hin
    exact toInt8_of_range _ hr.1 hr.2
  refine ⟨hval, hsum.1, ?_⟩
  intro lo hi hb
  rw [hval]
  exact hbetween lo hi hb

/-- The two global average poolings are the same function. -/
theorem global_avg_pooling_eq (input output : Int → Int) (height width channels : Int) :
    (CNNFPGADriver.global_avg_pooling input output height width channels).1
      = CPUConvolution.global_avg_pool input output height width channels := rfl

/-- Truncation toward zero: the C quotient by a positive divisor is the floor of the exact
quotient of a non-negative dividend and the ceiling of the exact quotient of a negative one. -/
theorem tdiv_floor_ceil (S n : Int) (hn : 1 ≤ n) :
    (0 ≤ S → Int.tdiv S n = ⌊(S : ℚ) / (n : ℚ)⌋) ∧
    (S < 0 → Int.tdiv S n = ⌈(S : ℚ) / (n : ℚ)⌉) := by
  constructor
  · intro hS
    rw [floor_div_eq S n hn, Int.tdiv_eq_ediv hS (by omega)]
  · intro hS
    have e : Int.tdiv S n = -((-S) / n) := by
      have h0 : Int.tdiv (-(-S)) n = -(Int.tdiv (-S) n) := Int.neg_tdiv (-S) n
      rw [neg_neg] at h0
      rw [h0, Int.tdiv_eq_ediv (by omega) (by omega)]
    have hc : ⌈(S : ℚ) / (n : ℚ)⌉ = -⌊((-S : Int) : ℚ) / (n : ℚ)⌋ := by
      rw [← Int.ceil_neg]
      congr 1
      push_cast
      ring
    rw [hc, floor_div_eq (-S) n hn, e]

/-- C14: for `1 ≤ height * width < 2^24` and `int8` elements, `global_avg_pool` stores for each
channel `c` the quotient of the sum of the channel's `height * width` elements by
`height * width`, rounded toward zero (the floor of the exact quotient of a non-negative sum,
the ceiling of that of a negative sum); the sum does not overflow; the value lies between any
lower and upper bound of the elements of the channel, so in `[-128, 127]`, where the cast to
`int8` is the identity. The driver's `global_avg_pooling` stores the same value. -/
theorem C14_global_avg_pool (input output : Int → Int) (height width channels c : Int)
    (hsz1 : 1 ≤ height * width) (hsz2 : height * width < 2 ^ 24)
    (hc : 0 ≤ c) (hc' : c < channels)
    (hin : ∀ s, 0 ≤ s → s < height * width →
      -128 ≤ input (s * channels + c) ∧ input (s * channels + c) ≤ 127) :
    CPUConvolution.global_avg_pool input output height width channels c
      = Int.tdiv (∑ s ∈ Finset.range (height * width).toNat, input ((s : Int) * channels + c))
          (height * width) ∧
    (0 ≤ ∑ s ∈ Finset.range (height * width).toNat, input ((s : Int) * channels + c) →
      CPUConvolution.global_avg_pool input output height width channels c
        = ⌊((∑ s ∈ Finset.range (height * width).toNat, input ((s : Int) * channels + c) : Int)
            : ℚ) / ((height * width : Int) : ℚ)⌋) ∧
    (∑ s ∈ Finset.range (height * width).toNat, input ((s : Int) * channels + c) < 0 →
      CPUConvolution.global_avg_pool input output height width channels c
        = ⌈((∑ s ∈ Finset.range (height * width).toNat, input ((s : Int) * channels + c) : Int)
            : ℚ) / ((height * width : Int) : ℚ)⌉) ∧
    (CPUConvolution.global_avg_pool_sum input (height * width) channels c).ok = true ∧
    (∀ lo hi : Int, (∀ s, 0 ≤ s → s < height * width →
        lo ≤ input (s * channels + c) ∧ input (s * channels + c) ≤ hi) →
      lo ≤ CPUConvolution.global_avg_pool input output height width channels c ∧
      CPUConvolution.global_avg_pool input output height width channels c ≤ hi) ∧
    (-128 ≤ CPUConvolution.global_avg_pool input output height width channels c ∧
      CPUConvolution.global_avg_pool input output height width channels c ≤ 127) ∧
    toInt8 (Int.tdiv (∑ s ∈ Finset.range (height * width).toNat,
        input ((s : Int) * channels + c)) (height * width))
      = Int.tdiv (∑ s ∈ Finset.range (height * width).toNat,
        input ((s : Int) * channels + c)) (height * width) ∧
    (CNNFPGADriver.global_avg_pooling input output height width channels).1 c
      = CPUConvolution.global_avg_pool input output height width channels c := by
  have hsz2' : height * width < 16777216 := by
    have : (2 : Int) ^ 24 = 16777216 := by norm_num
    omega
  obtain ⟨h1, h2, h3⟩ := global_avg_pool_at input output height width channels c hsz1 hsz2'
    hc hc' hin
  have hfc := tdiv_floor_ceil (∑ s ∈ Finset.range (height * width).toNat,
    input ((s : Int) * channels + c)) (height * width) hsz1
  have hr := h3 (-128) 127 hin
  refine ⟨h1, ?_, ?_, h2, h3, hr, ?_, ?_⟩
  · intro h0
    rw [h1]
    exact hfc.1 h0
  · intro h0
    rw [h1]
    exact hfc.2 h0
  · rw [h1] at hr
    exact toInt8_of_range _ hr.1 hr.2
  · rw [global_avg_pooling_eq]

/-- C14, instance: a 2×2 tensor with 2 channels and elements `-5, -4, ..., 2`; channel 0 holds
`-5, -3, -1, 1`, whose sum `-8` divided by 4 is `-2`. -/
theorem C14_global_avg_pool_witness :
    CPUConvolution.global_avg_pool (fun i => i % 8 - 5) (fun _ => 0) 2 2 2 0
      = Int.tdiv (∑ s ∈ Finset.range ((2 : Int) * 2).toNat,
          (fun i : Int => i % 8 - 5) ((s : Int) * 2 + 0)) (2 * 2) :=
  (C14_global_avg_pool (fun i => i % 8 - 5) (fun _ => 0) 2 2 2 0 (by decide) (by decide)
    (by decide) (by decide) (fun s _ _ => by
      show -128 ≤ (s * 2 + 0) % 8 - 5 ∧ (s * 2 + 0) % 8 - 5 ≤ 127
      omega)).1

/-- C15: for an `int8` value `k` and `1 ≤ height * width < 2^24`, `global_avg_pool` applied to a
tensor whose every element equals `k` stores `k` for every channel, and so does the driver's
`global_avg_pooling`. -/
theorem C15_global_avg_pool_uniform (input output : Int → Int) (height width channels c k : Int)
    (hk : -128 ≤ k ∧ k ≤ 127) (hsz1 : 1 ≤ height * width) (hsz2 : height * width < 2 ^ 24)
    (hc : 0 ≤ c) (hc' : c < channels) (hin : ∀ i, input i = k) :
    CPUConvolution.global_avg_pool input output height width channels c = k ∧
    (CNNFPGADriver.global_avg_pooling input output height width channels).1 c = k := by
  have hsz2' : height * width < 16777216 := by
    have : (2 : Int) ^ 24 = 16777216 := by norm_num
    omega
  obtain ⟨_, _, h3⟩ := global_avg_pool_at input output height width channels c hsz1 hsz2'
    hc hc' (fun s _ _ => by rw [hin]; exact hk)
  have hk' := h3 k k (fun s _ _ => by rw [hin]; exact ⟨le_refl _, le_refl _⟩)
  have e : CPUConvolution.global_avg_pool input output height width channels c = k := by omega
  exact ⟨e, by rw [global_avg_pooling_eq]; exact e⟩

/-- C15, instance: a 7×7 tensor with 3 channels whose every element is `-128`. -/
theorem C15_global_avg_pool_uniform_witness :
    CPUConvolution.global_avg_pool (fun _ => -128) (fun _ => 0) 7 7 3 2 = -128 :=
  (C15_global_avg_pool_uniform (fun _ => -128) (fun _ => 0) 7 7 3 2 (-128) (by decide)
    (by decide) (by decide) (by decide) (by decide) (fun _ => rfl)).1

/-! ## Max pooling -/

/-- A loop that keeps a running maximum: if iteration `i` never lowers the value, raises it to
at least every candidate of a set `A i` and ends at the old value or at a candidate, then the
loop ends at the start value or at a candidate, above the start value and every candidate. -/
theorem forLoop_running_max (n : Int) (body : Int → Int → Int) (A : Int → Int → Prop)
    (hb : ∀ i m, 0 ≤ i → i < n →
      m ≤ body i m ∧ (∀ x, A i x → x ≤ body i m) ∧ (body i m = m ∨ A i (body i m)))
    (m0 : Int) :
    m0 ≤ forLoop n body m0 ∧
    (∀ i x, 0 ≤ i → i < n → A i x → x ≤ forLoop n body m0) ∧
    (forLoop n body m0 = m0 ∨ ∃ i, 0 ≤ i ∧ i < n ∧ A i (forLoop n body m0)) := by
  have h := forLoop_rec
    (fun k r => m0 ≤ r ∧ (∀ i x, 0 ≤ i → i < (k : Int) → A i x → x ≤ r) ∧
      (r = m0 ∨ ∃ i, 0 ≤ i ∧ i < (k : Int) ∧ A i r)) n body m0
    ⟨le_refl _, fun i x h1 h2 => by exfalso; simp at h2; omega, Or.inl rfl⟩
    (fun k r hk hr => by
      obtain ⟨r1, r2, r3⟩ := hr
      obtain ⟨b1, b2, b3⟩ := hb k r (by omega) hk
      refine ⟨le_trans r1 b1, ?_, ?_⟩
      · intro i x i0 i1 hA
        by_cases e : i = (k : Int)
        · subst e
          exact b2 x hA
        · exact le_trans (r2 i x i0 (by push_cast at i1; omega) hA) b1
      · rcases b3 with b3 | b3
        · rw [b3]
          rcases r3 with r3 | ⟨i, i0, i1, hA⟩
          · exact Or.inl r3
          · exact Or.inr ⟨i, i0, by push_cast; omega, hA⟩
        · exact Or.inr ⟨k, by omega, by push_cast; omega, b3⟩)
  obtain ⟨h1, h2, h3⟩ := h
  refine ⟨h1, fun i x i0 i1 hA => h2 i x i0 (by omega) hA, ?_⟩
  rcases h3 with h3 | ⟨i, i0, i1, hA⟩
  · exact Or.inl h3
  · exact Or.inr ⟨i, i0, by omega, hA⟩

/-- The window loops of `max_pooling` end at the largest element of the window, when the
elements are `int8` values and the window is not empty. -/
theorem max_pooling_window_max (input : Int → Int)
    (input_w channels pool_size stride oh ow c : Int) (hp : 1 ≤ pool_size)
    (hin : ∀ i, -128 ≤ input i) :
    (∀ ph pw, 0 ≤ ph → ph < pool_size → 0 ≤ pw → pw < pool_size →
      input (((oh * stride + ph) * input_w + (ow * stride + pw)) * channels + c)
        ≤ CNNFPGADriver.max_pooling_window input input_w channels pool_size stride oh ow c) ∧
    (∃ ph pw, 0 ≤ ph ∧ ph < pool_size ∧ 0 ≤ pw ∧ pw < pool_size ∧
      CNNFPGADriver.max_pooling_window input input_w channels pool_size stride oh ow c
        = input (((oh * stride + ph) * input_w + (ow * stride + pw)) * channels + c)) := by
  have hinner : ∀ (ph m : Int),
      m ≤ forLoop pool_size (fun pw max_val =>
          if input (((oh * stride + ph) * input_w + (ow * stride + pw)) * channels + c) > max_val
          then input (((oh * stride + ph) * input_w + (ow * stride + pw)) * channels + c)
          else max_val) m ∧
      (∀ pw x, 0 ≤ pw → pw < pool_size →
        x = input (((oh * stride + ph) * input_w + (ow * stride + pw)) * channels + c) →
        x ≤ forLoop pool_size (fun pw max_val =>
          if input (((oh * stride + ph) * input_w + (ow * stride + pw)) * channels + c) > max_val
          then input (((oh * stride + ph) * input_w + (ow * stride + pw)) * channels + c)
          else max_val) m) ∧
      (forLoop pool_size (fun pw max_val =>
          if input (((oh * stride + ph) * input_w + (ow * stride + pw)) * channels + c) > max_val
          then input (((oh * stride + ph) * input_w + (ow * stride + pw)) * channels + c)
          else max_val) m = m ∨
        ∃ pw, 0 ≤ pw ∧ pw < pool_size ∧
          forLoop pool_size (fun pw max_val =>
            if input (((oh * stride + ph) * input_w + (ow * stride + pw)) * channels + c)
              > max_val
            then input (((oh * stride + ph) * input_w + (ow * stride + pw)) * channels + c)
            else max_val) m
          = input (((oh * stride + ph) * input_w + (ow * stride + pw)) * channels + c)) :=
    fun ph m => forLoop_running_max pool_size _
      (fun pw x => x = input (((oh * stride + ph) * input_w + (ow * stride + pw)) * channels + c))
      (fun pw m _ _ => by
        refine ⟨?_, ?_, ?_⟩
        · split_ifs <;> omega
        · intro x hx
          split_ifs <;> omega
        · split_ifs with hgt
          · exact Or.inr rfl
          · exact Or.inl rfl) m
  have houter := forLoop_running_max pool_size
    (fun ph max_val => forLoop pool_size (fun pw max_val =>
          if input (((oh * stride + ph) * input_w + (ow * stride + pw)) * channels + c) > max_val
          then input (((oh * stride + ph) * input_w + (ow * stride + pw)) * channels + c)
          else max_val) max_val)
    (fun ph x => ∃ pw, 0 ≤ pw ∧ pw < pool_size ∧
      x = input (((oh * stride + ph) * input_w + (ow * stride + pw)) * channels + c))
    (fun ph m _ _ => by
      obtain ⟨i1, i2, i3⟩ := hinner ph m
      exact ⟨i1, fun x ⟨pw, p0, p1, hx⟩ => i2 pw x p0 p1 hx, i3⟩) (-128)
  obtain ⟨o1, o2, o3⟩ := houter
  have hdef : CNNFPGADriver.max_pooling_window input input_w channels pool_size stride oh ow c
      = forLoop pool_size (fun ph max_val => forLoop pool_size (fun pw max_val =>
          if input (((oh * stride + ph) * input_w + (ow * stride + pw)) * channels + c) > max_val
          then input (((oh * stride + ph) * input_w + (ow * stride + pw)) * channels + c)
          else max_val) max_val) (-128) := rfl
  rw [hdef]
  constructor
  · intro ph pw p0 p1 q0 q1
    exact o2 ph _ p0 p1 ⟨pw, q0, q1, rfl⟩
  · rcases o3 with o3 | ⟨ph, p0, p1, pw, q0, q1, hx⟩
    · refine ⟨0, 0, le_refl _, by omega, le_refl _, by omega, ?_⟩
      have hle := o2 0 (input (((oh * stride + 0) * input_w + (ow * stride + 0)) * channels + c))
        (le_refl _) (by omega) ⟨0, le_refl _, by omega, rfl⟩
      have hge := hin (((oh * stride + 0) * input_w + (ow * stride + 0)) * channels + c)
      rw [o3] at hle ⊢
      omega
    · exact ⟨ph, pw, p0, p1, q0, q1, hx⟩

/-- The element `max_pooling` leaves at the offset of `(oh, ow, c)`. -/
theorem max_pooling_at (input output : Int → Int)
    (input_h input_w channels pool_size stride oh ow c : Int)
    (hoh : 0 ≤ oh) (hoh' : oh < Int.tdiv (input_h - pool_size) stride + 1)
    (how : 0 ≤ ow) (how' : ow < Int.tdiv (input_w - pool_size) stride + 1)
    (hc : 0 ≤ c) (hc' : c < channels) :
    (CNNFPGADriver.max_pooling input output input_h input_w channels pool_size stride).1
      ((oh * (Int.tdiv (input_w - pool_size) stride + 1) + ow) * channels + c)
    = CNNFPGADriver.max_pooling_window input input_w channels pool_size stride oh ow c :=
  (write3 _ _ _ (fun oh ow c => CNNFPGADriver.max_pooling_window input input_w channels
    pool_size stride oh ow c) output).1 oh ow c hoh hoh' how how' hc hc'

/-- C16: on `int8` elements, with `pool_size ≥ 1`, each output element of `max_pooling` at
`(oh, ow, c)` is the maximum of the `pool_size × pool_size` input window whose top-left corner is
`(oh * stride, ow * stride)` in channel `c`: it bounds every element of the window and is one of
them. In particular window 2, stride 2 on the 4×4 single-channel tensor `1, ..., 16` gives the
2×2 output `6, 8, 14, 16`. -/
theorem C16_max_pooling (input output : Int → Int)
    (input_h input_w channels pool_size stride oh ow c : Int)
    (hp : 1 ≤ pool_size) (hin : ∀ i, -128 ≤ input i ∧ input i ≤ 127)
    (hoh : 0 ≤ oh) (hoh' : oh < Int.tdiv (input_h - pool_size) stride + 1)
    (how : 0 ≤ ow) (how' : ow < Int.tdiv (input_w - pool_size) stride + 1)
    (hc : 0 ≤ c) (hc' : c < channels) :
    (∀ ph pw, 0 ≤ ph → ph < pool_size → 0 ≤ pw → pw < pool_size →
      input (((oh * stride + ph) * input_w + (ow * stride + pw)) * channels + c)
        ≤ (CNNFPGADriver.max_pooling input output input_h input_w channels pool_size stride).1
            ((oh * (Int.tdiv (input_w - pool_size) stride + 1) + ow) * channels + c)) ∧
    (∃ ph pw, 0 ≤ ph ∧ ph < pool_size ∧ 0 ≤ pw ∧ pw < pool_size ∧
      (CNNFPGADriver.max_pooling input output input_h input_w channels pool_size stride).1
          ((oh * (Int.tdiv (input_w - pool_size) stride + 1) + ow) * channels + c)
        = input (((oh * stride + ph) * input_w + (ow * stride + pw)) * channels + c)) ∧
    (Int.tdiv (4 - 2) 2 + 1 = 2 ∧
      (CNNFPGADriver.max_pooling (fun i => i + 1) output 4 4 1 2 2).1 0 = 6 ∧
      (CNNFPGADriver.max_pooling (fun i => i + 1) output 4 4 1 2 2).1 1 = 8 ∧
      (CNNFPGADriver.max_pooling (fun i => i + 1) output 4 4 1 2 2).1 2 = 14 ∧
      (CNNFPGADriver.max_pooling (fun i => i + 1) output 4 4 1 2 2).1 3 = 16) := by
  rw [max_pooling_at input output input_h input_w channels pool_size stride oh ow c hoh hoh'
    how how' hc hc']
  obtain ⟨h1, h2⟩ := max_pooling_window_max input input_w channels pool_size stride oh ow c hp
    (fun i => (hin i).1)
  refine ⟨h1, h2, by decide, ?_, ?_, ?_, ?_⟩
  · have h := max_pooling_at (fun i => i + 1) output 4 4 1 2 2 0 0 0 (by decide) (by decide)
      (by decide) (by decide) (by decide) (by decide)
    have e : (0 * (Int.tdiv (4 - 2) 2 + 1) + 0) * 1 + 0 = (0 : Int) := by decide
    rw [e] at h
    rw [h]
    decide
  · have h := max_pooling_at (fun i => i + 1) output 4 4 1 2 2 0 1 0 (by decide) (by decide)
      (by decide) (by decide) (by decide) (by decide)
    have e : (0 * (Int.tdiv (4 - 2) 2 + 1) + 1) * 1 + 0 = (1 : Int) := by decide
    rw [e] at h
    rw [h]
    decide
  · have h := max_pooling_at (fun i => i + 1) output 4 4 1 2 2 1 0 0 (by decide) (by decide)
      (by decide) (by decide) (by decide) (by decide)
    have e : (1 * (Int.tdiv (4 - 2) 2 + 1) + 0) * 1 + 0 = (2 : Int) := by decide
    rw [e] at h
    rw [h]
    decide
  · have h := max_pooling_at (fun i => i + 1) output 4 4 1 2 2 1 1 0 (by decide) (by decide)
      (by decide) (by decide) (by decide) (by decide)
    have e : (1 * (Int.tdiv (4 - 2) 2 + 1) + 1) * 1 + 0 = (3 : Int) := by decide
    rw [e] at h
    rw [h]
    decide

/-- C16, instance: the 4×4 single-channel tensor with elements `i % 16 + 1`, window 2,
stride 2, output position `(1, 1, 0)`: the stored element bounds the top-left element of the
window. -/
theorem C16_max_pooling_witness :
    (fun i : Int => i % 16 + 1) (((1 * 2 + 0) * 4 + (1 * 2 + 0)) * 1 + 0)
      ≤ (CNNFPGADriver.max_pooling (fun i => i % 16 + 1) (fun _ => 0) 4 4 1 2 2).1
          ((1 * (Int.tdiv (4 - 2) 2 + 1) + 1) * 1 + 0) :=
  (C16_max_pooling (fun i => i % 16 + 1) (fun _ => 0) 4 4 1 2 2 1 1 0 (by decide)
    (fun i => by
      show -128 ≤ i % 16 + 1 ∧ i % 16 + 1 ≤ 127
      omega)
    (by decide) (by decide) (by decide) (by decide) (by decide) (by decide)).1 0 0
    (by decide) (by decide) (by decide) (by decide)

/-! ## The fully connected layer -/

/-- The accumulation of `conv2d` on a 1×1×n tensor with a 1×1 kernel, stride 1 and no padding is
the accumulation of `fully_connected`. -/
theorem conv2d_acc_one_by_one (input weights bias : Int → Int) (n oc : Int) :
    CPUConvolution.conv2d_acc input weights bias 1 1 n 1 1 0 0 0 oc
      = CPUConvolution.fully_connected_acc input weights bias n oc := by
  unfold CPUConvolution.conv2d_acc CPUConvolution.fully_connected_acc
  simp only [forLoop_one]
  congr 1
  funext ic acc
  have hin : (0 : Int) * 1 + 0 - 0 ≥ 0 ∧ (0 : Int) * 1 + 0 - 0 < 1 ∧
      (0 : Int) * 1 + 0 - 0 ≥ 0 ∧ (0 : Int) * 1 + 0 - 0 < 1 := by decide
  rw [if_pos hin]
  have e1 : (((0 : Int) * 1 + 0 - 0) * 1 + ((0 : Int) * 1 + 0 - 0)) * n + ic = ic := by ring
  have e2 : ((oc * n + ic) * 1 + 0) * 1 + 0 = oc * n + ic := by ring
  rw [e1, e2]

/-- C17: `fully_connected` on an input vector of length `n`, weights of size `m * n` and bias of
length `m` leaves the output buffer exactly as `conv2d` does on the input viewed as a 1×1×n
tensor with `kernel_size` 1, stride 1, padding 0 and `output_c = m`, with the same weights and
bias: same accumulation, same shift by 8, same saturation. -/
theorem C17_fully_connected_is_conv2d (input weights bias output : Int → Int) (n m : Int) :
    CPUConvolution.fully_connected input weights bias output n m
      = CPUConvolution.conv2d input weights bias output 1 1 n m 1 1 0 := by
  unfold CPUConvolution.fully_connected CPUConvolution.conv2d
  have hd : conv_output_dim 1 0 1 1 = 1 := by decide
  simp only [hd, forLoop_one, conv2d_acc_one_by_one]
  congr 1
  funext o out
  have e : ((0 : Int) * 1 + 0) * m + o = o := by ring
  rw [e]

/-! ## Softmax -/

/-- A loop that replaces element `i` of a buffer by a function of that element, for each `i`
below `n`. -/
theorem forLoop_map_inplace {α : Type} (n : Int) (g : α → α) (d0 : Int → α) (j : Int) :
    forLoop n (fun i (d : Int → α) => Function.update d i (g (d i))) d0 j
      = if 0 ≤ j ∧ j < n then g (d0 j) else d0 j := by
  have h := forLoop_rec
    (fun m (st : Int → α) => ∀ j : Int, st j
      = if 0 ≤ j ∧ j < (m : Int) then g (d0 j) else d0 j)
    n (fun i (d : Int → α) => Function.update d i (g (d i))) d0
    (fun j => by
      have : ¬ (0 ≤ j ∧ j < ((0 : ℕ) : Int)) := by
        rintro ⟨a, b⟩
        simp at b
        omega
      rw [if_neg this])
    (fun m st _ hst j => by
      have hm : st (m : Int) = d0 (m : Int) := by
        rw [hst]
        exact if_neg (by omega)
      show Function.update st (m : Int) (g (st (m : Int))) j = _
      by_cases hj : j = (m : Int)
      · subst hj
        have hc : 0 ≤ (m : Int) ∧ (m : Int) < ((m + 1 : ℕ) : Int) := by
          push_cast
          omega
        rw [if_pos hc, hm]
        simp
      · have e : Function.update st (m : Int) (g (st (m : Int))) j = st j := by
          simp [Function.update, hj]
        rw [e, hst]
        have hiff : (0 ≤ j ∧ j < (m : Int)) ↔ (0 ≤ j ∧ j < ((m + 1 : ℕ) : Int)) := by
          push_cast
          constructor <;> intro h <;> omega
        simp only [hiff])
  have e := h j
  rw [e]
  clear h e
  have hiff : (0 ≤ j ∧ j < (n.toNat : Int)) ↔ (0 ≤ j ∧ j < n) := by
    constructor <;> intro h <;> omega
  simp only [hiff]

/-- The second loop of `softmax` leaves the exponentials at the first `size` offsets of the
buffer and their sum in `sum`. -/
theorem softmax_exp_sum_at {K : Type} [LinearOrderedField K] (exp : K → K) (input : Int → Int)
    (output : Int → K) (size : Int) :
    (∀ j : Int, (CPUConvolution.softmax_exp_sum exp input output size).1 j
      = if 0 ≤ j ∧ j < size then
          exp ((input j : K) - CPUConvolution.softmax_max input size)
        else output j) ∧
    (CPUConvolution.softmax_exp_sum exp input output size).2
      = ∑ i ∈ Finset.range size.toNat,
          exp ((input (i : Int) : K) - CPUConvolution.softmax_max input size) := by
  have h := forLoop_rec
    (fun m (st : (Int → K) × K) =>
      (∀ j : Int, st.1 j = if 0 ≤ j ∧ j < (m : Int) then
          exp ((input j : K) - CPUConvolution.softmax_max input size)
        else output j) ∧
      st.2 = ∑ i ∈ Finset.range m,
          exp ((input (i : Int) : K) - CPUConvolution.softmax_max input size))
    size (fun i (st : (Int → K) × K) =>
      (Function.update st.1 i (exp ((input i : K) - CPUConvolution.softmax_max input size)),
        st.2 + Function.update st.1 i
          (exp ((input i : K) - CPUConvolution.softmax_max input size)) i))
    (output, 0)
    ⟨fun j => by
      have : ¬ (0 ≤ j ∧ j < ((0 : ℕ) : Int)) := by
        rintro ⟨a, b⟩
        simp at b
        omega
      rw [if_neg this], by simp⟩
    (fun m st _ hst => by
      obtain ⟨h1, h2⟩ := hst
      constructor
      · intro j
        show Function.update st.1 (m : Int) _ j = _
        by_cases hj : j = (m : Int)
        · subst hj
          have hc : 0 ≤ (m : Int) ∧ (m : Int) < ((m + 1 : ℕ) : Int) := by
            push_cast
            omega
          rw [if_pos hc]
          simp
        · have e : Function.update st.1 (m : Int)
              (exp ((input (m : Int) : K) - CPUConvolution.softmax_max input size)) j
              = st.1 j := by
            simp [Function.update, hj]
          rw [e, h1]
          have hiff : (0 ≤ j ∧ j < (m : Int)) ↔ (0 ≤ j ∧ j < ((m + 1 : ℕ) : Int)) := by
            push_cast
            constructor <;> intro h <;> omega
          simp only [hiff]
      · show st.2 + Function.update st.1 (m : Int) _ (m : Int) = _
        rw [Function.update_same, h2, Finset.sum_range_succ])
  obtain ⟨h1, h2⟩ := h
  refine ⟨?_, h2⟩
  intro j
  have e := h1 j
  have hiff : (0 ≤ j ∧ j < (size.toNat : Int)) ↔ (0 ≤ j ∧ j < size) := by
    clear h1 h2 e
    constructor <;> intro h <;> omega
  simp only [hiff] at e
  exact e

/-- Each of the first `size` outputs of `softmax` is the exponential of the logit minus
`max_val`, divided by the sum of these exponentials. -/
theorem softmax_at {K : Type} [LinearOrderedField K] (exp : K → K) (input : Int → Int)
    (output : Int → K) (size j : Int) (hj : 0 ≤ j) (hj' : j < size) :
    CPUConvolution.softmax exp input output size j
      = exp ((input j : K) - CPUConvolution.softmax_max input size)
        / ∑ i ∈ Finset.range size.toNat,
            exp ((input (i : Int) : K) - CPUConvolution.softmax_max input size) := by
  obtain ⟨h1, h2⟩ := softmax_exp_sum_at exp input output size
  unfold CPUConvolution.softmax
  have hm := forLoop_map_inplace size
    (fun x : K => x / (CPUConvolution.softmax_exp_sum exp input output size).2)
    (CPUConvolution.softmax_exp_sum exp input output size).1 j
  have hc : 0 ≤ j ∧ j < size := ⟨hj, hj'⟩
  rw [if_pos hc] at hm
  rw [hm, h1 j, if_pos hc, h2]

/-- The properties of `softmax` over an ordered field, for a positive and strictly increasing
`exp`. -/
theorem softmax_distribution {K : Type} [LinearOrderedField K] (exp : K → K)
    (hpos : ∀ x, 0 < exp x) (hmono : StrictMono exp) (input : Int → Int) (output : Int → K)
    (size : Int) (hsize : 1 ≤ size) :
    (∀ i, 0 ≤ i → i < size →
      0 ≤ CPUConvolution.softmax exp input output size i ∧
      CPUConvolution.softmax exp input output size i ≤ 1) ∧
    ∑ i ∈ Finset.range size.toNat, CPUConvolution.softmax exp input output size (i : Int) = 1 ∧
    (∀ i, 0 ≤ i → i < size →
      ((∀ j, 0 ≤ j → j < size → CPUConvolution.softmax exp input output size j
          ≤ CPUConvolution.softmax exp input output size i) ↔
        (∀ j, 0 ≤ j → j < size → input j ≤ input i))) := by
  have hterm : ∀ i : ℕ, i ∈ Finset.range size.toNat →
      0 ≤ exp ((input (i : Int) : K) - CPUConvolution.softmax_max input size) :=
    fun i _ => (hpos _).le
  have hSpos : 0 < ∑ i ∈ Finset.range size.toNat,
      exp ((input (i : Int) : K) - CPUConvolution.softmax_max input size) := by
    apply Finset.sum_pos
    · intro i _
      exact hpos _
    · exact ⟨0, Finset.mem_range.mpr (by omega)⟩
  refine ⟨?_, ?_, ?_⟩
  · intro i hi hi'
    rw [softmax_at exp input output size i hi hi']
    constructor
    · exact div_nonneg (hpos _).le hSpos.le
    · rw [div_le_one hSpos]
      have hmem : i.toNat ∈ Finset.range size.toNat := Finset.mem_range.mpr (by omega)
      have hle := Finset.single_le_sum (f := fun k : ℕ =>
        exp ((input (k : Int) : K) - CPUConvolution.softmax_max input size))
        (fun k hk => hterm k hk) hmem
      have e : ((i.toNat : ℕ) : Int) = i := Int.toNat_of_nonneg hi
      simp only [e] at hle
      exact hle
  · have e : ∀ i ∈ Finset.range size.toNat,
        CPUConvolution.softmax exp input output size (i : Int)
        = exp ((input (i : Int) : K) - CPUConvolution.softmax_max input size)
          / ∑ k ∈ Finset.range size.toNat,
            exp ((input (k : Int) : K) - CPUConvolution.softmax_max input size) := by
      intro i hi
      have := Finset.mem_range.mp hi
      exact softmax_at exp input output size i (by omega) (by omega)
    rw [Finset.sum_congr rfl e, ← Finset.sum_div]
    exact div_self hSpos.ne'
  · intro i hi hi'
    have key : ∀ j, 0 ≤ j → j < size →
        (CPUConvolution.softmax exp input output size j
          ≤ CPUConvolution.softmax exp input output size i ↔ input j ≤ input i) := by
      intro j hj hj'
      rw [softmax_at exp input output size i hi hi', softmax_at exp input output size j hj hj',
        div_le_div_iff_of_pos_right hSpos, hmono.le_iff_le, sub_le_sub_iff_right, Int.cast_le]
    constructor
    · intro h j hj hj'
      exact (key j hj hj').mp (h j hj hj')
    · intro h j hj hj'
      exact (key j hj hj').mpr (h j hj hj')

/-- C18: computed over the real numbers (with `std::exp` the real exponential), `softmax` of a
non-empty vector of logits returns entries that all lie in `[0, 1]` and sum to 1, and an index
holds the largest output exactly when it holds the largest logit. -/
theorem C18_softmax_distribution (input : Int → Int) (output : Int → ℝ) (size : Int)
    (hsize : 1 ≤ size) :
    (∀ i, 0 ≤ i → i < size →
      0 ≤ CPUConvolution.softmax Real.exp input output size i ∧
      CPUConvolution.softmax Real.exp input output size i ≤ 1) ∧
    ∑ i ∈ Finset.range size.toNat,
      CPUConvolution.softmax Real.exp input output size (i : Int) = 1 ∧
    (∀ i, 0 ≤ i → i < size →
      ((∀ j, 0 ≤ j → j < size → CPUConvolution.softmax Real.exp input output size j
          ≤ CPUConvolution.softmax Real.exp input output size i) ↔
        (∀ j, 0 ≤ j → j < size → input j ≤ input i))) :=
  softmax_distribution Real.exp Real.exp_pos Real.exp_strictMono input output size hsize

/-- C18, instance: the three logits `-128, 0, 127`; the outputs sum to 1. -/
theorem C18_softmax_distribution_witness :
    ∑ i ∈ Finset.range (3 : Int).toNat,
      CPUConvolution.softmax Real.exp (fun i => if i = 0 then -128 else if i = 1 then 0 else 127)
        (fun _ => 0) 3 (i : Int) = 1 :=
  (C18_softmax_distribution (fun i => if i = 0 then -128 else if i = 1 then 0 else 127)
    (fun _ => 0) 3 (by decide)).2.1

/-! ## The packed configuration word -/

/-- Four 8-bit fields packed by shifts and bitwise or add up without carries. -/
theorem pack_eq (a b c d : ℕ) (ha : a < 256) (hb : b < 256) (hc : c < 256) (hd : d < 256) :
    ((a <<< 24) % 4294967296) ||| ((b <<< 16) % 4294967296) ||| ((c <<< 8) % 4294967296) ||| d
      = a * 16777216 + b * 65536 + c * 256 + d := by
  have e1 : (a <<< 24) % 4294967296 = 2 ^ 24 * a := by
    rw [Nat.shiftLeft_eq]
    omega
  have e2 : (b <<< 16) % 4294967296 = 2 ^ 16 * b := by
    rw [Nat.shiftLeft_eq]
    omega
  have e3 : (c <<< 8) % 4294967296 = 2 ^ 8 * c := by
    rw [Nat.shiftLeft_eq]
    omega
  rw [e1, e2, e3, Nat.or_assoc, Nat.or_assoc]
  have s1 : 2 ^ 8 * c ||| d = 2 ^ 8 * c + d := (Nat.mul_add_lt_is_or (by omega) c).symm
  rw [s1]
  have s2 : 2 ^ 16 * b ||| (2 ^ 8 * c + d) = 2 ^ 16 * b + (2 ^ 8 * c + d) :=
    (Nat.mul_add_lt_is_or (by omega) b).symm
  rw [s2]
  have s3 : 2 ^ 24 * a ||| (2 ^ 16 * b + (2 ^ 8 * c + d))
      = 2 ^ 24 * a + (2 ^ 16 * b + (2 ^ 8 * c + d)) :=
    (Nat.mul_add_lt_is_or (by omega) a).symm
  rw [s3]
  omega

theorem shiftRight_and_255 (x k : ℕ) : (x >>> k) &&& 255 = x / 2 ^ k % 256 := by
  have h : (255 : ℕ) = 2 ^ 8 - 1 := by norm_num
  rw [h, Nat.and_pow_two_sub_one_eq_mod, Nat.shiftRight_eq_div_pow]

theorem and_255 (x : ℕ) : x &&& 255 = x % 256 := by
  have h : (255 : ℕ) = 2 ^ 8 - 1 := by norm_num
  rw [h, Nat.and_pow_two_sub_one_eq_mod]

namespace CNNFPGADriver

theorem toU32_of_byte (x : Int) (h0 : 0 ≤ x) (h1 : x ≤ 255) :
    toU32 x < 256 ∧ ((toU32 x : ℕ) : Int) = x := by
  unfold toU32
  omega

/-- The configuration word of four 8-bit fields is their base-256 number, and each field is read
back from its byte. -/
theorem pack_config_fields (input_h input_w input_c output_c : Int)
    (hh : 0 ≤ input_h ∧ input_h ≤ 255) (hw : 0 ≤ input_w ∧ input_w ≤ 255)
    (hc : 0 ≤ input_c ∧ input_c ≤ 255) (ho : 0 ≤ output_c ∧ output_c ≤ 255) :
    pack_config input_h input_w input_c output_c < 4294967296 ∧
    ((((pack_config input_h input_w input_c output_c >>> 24) &&& 255 : ℕ)) : Int) = input_h ∧
    ((((pack_config input_h input_w input_c output_c >>> 16) &&& 255 : ℕ)) : Int) = input_w ∧
    ((((pack_config input_h input_w input_c output_c >>> 8) &&& 255 : ℕ)) : Int) = input_c ∧
    (((pack_config input_h input_w input_c output_c &&& 255 : ℕ)) : Int) = output_c := by
  obtain ⟨a1, a2⟩ := toU32_of_byte input_h hh.1 hh.2
  obtain ⟨b1, b2⟩ := toU32_of_byte input_w hw.1 hw.2
  obtain ⟨c1, c2⟩ := toU32_of_byte input_c hc.1 hc.2
  obtain ⟨d1, d2⟩ := toU32_of_byte output_c ho.1 ho.2
  have hp : pack_config input_h input_w input_c output_c
      = toU32 input_h * 16777216 + toU32 input_w * 65536 + toU32 input_c * 256
        + toU32 output_c := pack_eq _ _ _ _ a1 b1 c1 d1
  rw [shiftRight_and_255, shiftRight_and_255, shiftRight_and_255, and_255, hp]
  have n1 : (toU32 input_h * 16777216 + toU32 input_w * 65536 + toU32 input_c * 256
      + toU32 output_c) / 2 ^ 24 % 256 = toU32 input_h := by
    norm_num
    omega
  have n2 : (toU32 input_h * 16777216 + toU32 input_w * 65536 + toU32 input_c * 256
      + toU32 output_c) / 2 ^ 16 % 256 = toU32 input_w := by
    norm_num
    omega
  have n3 : (toU32 input_h * 16777216 + toU32 input_w * 65536 + toU32 input_c * 256
      + toU32 output_c) / 2 ^ 8 % 256 = toU32 input_c := by
    norm_num
    omega
  have n4 : (toU32 input_h * 16777216 + toU32 input_w * 65536 + toU32 input_c * 256
      + toU32 output_c) % 256 = toU32 output_c := by
    omega
  rw [n1, n2, n3, n4]
  exact ⟨by omega, a2, b2, c2, d2⟩

end CNNFPGADriver

/-- C19: for `input_h`, `input_w`, `input_c`, `output_c` in `[0, 255]` the 32-bit word
`(input_h << 24) | (input_w << 16) | (input_c << 8) | output_c` that `conv2d` writes to the
configuration register decodes back to the four fields, bits 31..24 being `input_h`, bits 23..16
`input_w`, bits 15..8 `input_c` and bits 7..0 `output_c`; hence packing is injective on 8-bit
fields. -/
theorem C19_pack_config_decode (input_h input_w input_c output_c : Int)
    (hh : 0 ≤ input_h ∧ input_h ≤ 255) (hw : 0 ≤ input_w ∧ input_w ≤ 255)
    (hc : 0 ≤ input_c ∧ input_c ≤ 255) (ho : 0 ≤ output_c ∧ output_c ≤ 255) :
    CNNFPGADriver.pack_config input_h input_w input_c output_c < 2 ^ 32 ∧
    ((((CNNFPGADriver.pack_config input_h input_w input_c output_c >>> 24) &&& 255 : ℕ)) : Int)
      = input_h ∧
    ((((CNNFPGADriver.pack_config input_h input_w input_c output_c >>> 16) &&& 255 : ℕ)) : Int)
      = input_w ∧
    ((((CNNFPGADriver.pack_config input_h input_w input_c output_c >>> 8) &&& 255 : ℕ)) : Int)
      = input_c ∧
    (((CNNFPGADriver.pack_config input_h input_w input_c output_c &&& 255 : ℕ)) : Int)
      = output_c ∧
    (∀ h2 w2 c2 o2 : Int, 0 ≤ h2 ∧ h2 ≤ 255 → 0 ≤ w2 ∧ w2 ≤ 255 → 0 ≤ c2 ∧ c2 ≤ 255 →
      0 ≤ o2 ∧ o2 ≤ 255 →
      CNNFPGADriver.pack_config h2 w2 c2 o2
        = CNNFPGADriver.pack_config input_h input_w input_c output_c →
      h2 = input_h ∧ w2 = input_w ∧ c2 = input_c ∧ o2 = output_c) := by
  obtain ⟨p0, p1, p2, p3, p4⟩ :=
    CNNFPGADriver.pack_config_fields input_h input_w input_c output_c hh hw hc ho
  refine ⟨by norm_num; exact p0, p1, p2, p3, p4, ?_⟩
  intro h2 w2 c2 o2 q1 q2 q3 q4 e
  obtain ⟨_, r1, r2, r3, r4⟩ := CNNFPGADriver.pack_config_fields h2 w2 c2 o2 q1 q2 q3 q4
  rw [e] at r1 r2 r3 r4
  exact ⟨r1.symm.trans p1, r2.symm.trans p2, r3.symm.trans p3, r4.symm.trans p4⟩

/-- C19, instance: the geometry 112×112, 32 input and 64 output channels; bits 31..24 of its
word hold 112. -/
theorem C19_pack_config_decode_witness :
    ((((CNNFPGADriver.pack_config 112 112 32 64 >>> 24) &&& 255 : ℕ)) : Int) = 112 :=
  (C19_pack_config_decode 112 112 32 64 (by decide) (by decide) (by decide) (by decide)).2.1

/-! ## The order of the steps of a dispatch -/

namespace CNNFPGADriver

/-- With the register window mapped, the dispatch appends to the trace the two buffer copies and
then the five register stores, in program order. -/
theorem conv2d_dispatch_trace (d d1 : State) (input weights : Int → Int)
    (input_h input_w input_c output_c kernel_size : Int)
    (hmap : d.fpga_base.isSome = true)
    (h : conv2d_dispatch d input weights input_h input_w input_c output_c kernel_size = some d1) :
    d1.trace = d.trace ++
      [Event.memcpy_input (input_h * input_w * input_c),
       Event.memcpy_weights (output_c * input_c * kernel_size * kernel_size),
       Event.reg_write CONV_INPUT_ADDR_REG (toU32 d.input_buffer_phys),
       Event.reg_write CONV_OUTPUT_ADDR_REG (toU32 d.output_buffer_phys),
       Event.reg_write CONV_WEIGHT_ADDR_REG (toU32 d.weight_buffer_phys),
       Event.reg_write CONV_CONFIG_REG (pack_config input_h input_w input_c output_c),
       Event.reg_write CONV_CTRL_REG CTRL_START_BIT] := by
  obtain ⟨b, hb⟩ := Option.isSome_iff_exists.mp hmap
  unfold conv2d_dispatch at h
  cases hi : d.input_buffer_virt with
  | none => simp [hi] at h
  | some ibuf =>
    cases hw : d.weight_buffer_virt with
    | none => simp [hi, hw] at h
    | some wbuf =>
      simp only [hi, hw, write_reg, hb, Option.some.injEq] at h
      rw [← h]
      simp

/-- The completion poll appends to the trace only reads of the status register and sleeps, and
at least one of them. -/
theorem wait_for_completion_trace (fuel : Nat) :
    ∀ (status : Nat → Nat) (d d1 : State), wait_for_completion fuel status d = some d1 →
      ∃ evs, d1.trace = d.trace ++ evs ∧ evs ≠ [] ∧
        (∀ e, e ∈ evs → (∃ v, e = Event.reg_read CONV_STATUS_REG v) ∨ e = Event.usleep 10) := by
  induction fuel with
  | zero =>
    intro status d d1 h
    simp [wait_for_completion] at h
  | succ k ih =>
    intro status d d1 h
    unfold wait_for_completion at h
    cases hb : d.fpga_base with
    | none =>
      have hr : read_reg d CONV_STATUS_REG (status 0) = (d, 0) := by
        unfold read_reg
        rw [hb]
      simp only [hr] at h
      have h0 : ¬ ((0 : ℕ) &&& STATUS_DONE_BIT ≠ 0) := by decide
      rw [if_neg h0] at h
      obtain ⟨evs, e1, _, e2⟩ := ih _ _ _ h
      refine ⟨[Event.usleep 10] ++ evs, ?_, by simp, ?_⟩
      · rw [e1]
        simp
      · intro e he
        rcases List.mem_append.mp he with he | he
        · right
          simpa using he
        · exact e2 e he
    | some b =>
      have hr : read_reg d CONV_STATUS_REG (status 0)
          = ({ d with trace := d.trace ++ [Event.reg_read CONV_STATUS_REG (status 0)] },
              status 0) := by
        unfold read_reg
        rw [hb]
      simp only [hr] at h
      by_cases h0 : status 0 &&& STATUS_DONE_BIT ≠ 0
      · rw [if_pos h0] at h
        injection h with h
        refine ⟨[Event.reg_read CONV_STATUS_REG (status 0)], ?_, by simp, ?_⟩
        · rw [← h]
        · intro e he
          left
          exact ⟨status 0, by simpa using he⟩
      · rw [if_neg h0] at h
        obtain ⟨evs, e1, _, e2⟩ := ih _ _ _ h
        refine ⟨[Event.reg_read CONV_STATUS_REG (status 0), Event.usleep 10] ++ evs, ?_,
          by simp, ?_⟩
        · rw [e1]
          simp
        · intro e he
          rcases List.mem_append.mp he with he | he
          · simp only [List.mem_cons, List.mem_singleton, List.mem_nil_iff, or_false] at he
            rcases he with he | he
            · left
              exact ⟨status 0, he⟩
            · right
              exact he
          · exact e2 e he

end CNNFPGADriver

/-- C20: on a driver whose register window is mapped, every `CNNFPGADriver::conv2d` call first
copies the input and the weights into the DMA buffers and then stores, in this order, the input
address register, the output address register, the weight address register, the packed
configuration register and the control register with the start bit. In a call that returns, the
start-bit store is followed only by reads of the status register and sleeps and then by the copy
of the output: it is the last register store, and every read of the status register comes after
it. -/
theorem C20_dispatch_order (fuel : Nat) (dev : CNNFPGADriver.Device) (d : CNNFPGADriver.State)
    (input weights bias output : Int → Int)
    (input_h input_w input_c output_c kernel_size stride padding : Int) (use_relu : Bool)
    (hmap : d.fpga_base.isSome = true) :
    (∀ d1, CNNFPGADriver.conv2d_dispatch d input weights input_h input_w input_c output_c
        kernel_size = some d1 →
      d1.trace = d.trace ++
        [CNNFPGADriver.Event.memcpy_input (input_h * input_w * input_c),
         CNNFPGADriver.Event.memcpy_weights (output_c * input_c * kernel_size * kernel_size),
         CNNFPGADriver.Event.reg_write CNNFPGADriver.CONV_INPUT_ADDR_REG
           (CNNFPGADriver.toU32 d.input_buffer_phys),
         CNNFPGADriver.Event.reg_write CNNFPGADriver.CONV_OUTPUT_ADDR_REG
           (CNNFPGADriver.toU32 d.output_buffer_phys),
         CNNFPGADriver.Event.reg_write CNNFPGADriver.CONV_WEIGHT_ADDR_REG
           (CNNFPGADriver.toU32 d.weight_buffer_phys),
         CNNFPGADriver.Event.reg_write CNNFPGADriver.CONV_CONFIG_REG
           (CNNFPGADriver.pack_config input_h input_w input_c output_c),
         CNNFPGADriver.Event.reg_write CNNFPGADriver.CONV_CTRL_REG
           CNNFPGADriver.CTRL_START_BIT]) ∧
    (∀ r, CNNFPGADriver.conv2d fuel dev d input weights bias output input_h input_w input_c
        output_c kernel_size stride padding use_relu = CNNFPGADriver.Outcome.returned r →
      ∃ evs, r.1.trace = d.trace ++
        [CNNFPGADriver.Event.memcpy_input (input_h * input_w * input_c),
         CNNFPGADriver.Event.memcpy_weights (output_c * input_c * kernel_size * kernel_size),
         CNNFPGADriver.Event.reg_write CNNFPGADriver.CONV_INPUT_ADDR_REG
           (CNNFPGADriver.toU32 d.input_buffer_phys),
         CNNFPGADriver.Event.reg_write CNNFPGADriver.CONV_OUTPUT_ADDR_REG
           (CNNFPGADriver.toU32 d.output_buffer_phys),
         CNNFPGADriver.Event.reg_write CNNFPGADriver.CONV_WEIGHT_ADDR_REG
           (CNNFPGADriver.toU32 d.weight_buffer_phys),
         CNNFPGADriver.Event.reg_write CNNFPGADriver.CONV_CONFIG_REG
           (CNNFPGADriver.pack_config input_h input_w input_c output_c),
         CNNFPGADriver.Event.reg_write CNNFPGADriver.CONV_CTRL_REG
           CNNFPGADriver.CTRL_START_BIT] ++ evs ++
        [CNNFPGADriver.Event.memcpy_output
          (conv_output_dim input_h padding kernel_size stride
            * conv_output_dim input_w padding kernel_size stride * output_c)] ∧
        evs ≠ [] ∧
        ∀ e, e ∈ evs → (∃ v, e = CNNFPGADriver.Event.reg_read CNNFPGADriver.CONV_STATUS_REG v) ∨
          e = CNNFPGADriver.Event.usleep 10) := by
  constructor
  · intro d1 h
    exact CNNFPGADriver.conv2d_dispatch_trace d d1 input weights input_h input_w input_c
      output_c kernel_size hmap h
  · intro r hr
    unfold CNNFPGADriver.conv2d at hr
    cases hd : CNNFPGADriver.conv2d_dispatch d input weights input_h input_w input_c output_c
        kernel_size with
    | none =>
      rw [hd] at hr
      exact absurd hr (by simp)
    | some d1 =>
      rw [hd] at hr
      dsimp only at hr
      cases hwc : CNNFPGADriver.wait_for_completion fuel dev.status d1 with
      | none =>
        rw [hwc] at hr
        exact absurd hr (by simp)
      | some d2 =>
        rw [hwc] at hr
        dsimp only at hr
        have ht1 := CNNFPGADriver.conv2d_dispatch_trace d d1 input weights input_h input_w
          input_c output_c kernel_size hmap hd
        obtain ⟨evs, e1, hne, e2⟩ := CNNFPGADriver.wait_for_completion_trace fuel dev.status
          d1 d2 hwc
        cases ho : d2.output_buffer_virt with
        | none =>
          rw [ho] at hr
          exact absurd hr (by simp)
        | some obuf =>
          rw [ho] at hr
          dsimp only at hr
          injection hr with hr
          refine ⟨evs, ?_, hne, e2⟩
          rw [← hr]
          show d2.trace ++ _ = _
          rw [e1, ht1]

/-- C20, instance: the first layer dispatched on a freshly initialised driver; its trace is the
two copies followed by the five register stores. -/
theorem C20_dispatch_order_witness :
    Option.map CNNFPGADriver.State.trace
      (CNNFPGADriver.conv2d_dispatch
        ⟨3, some 0, none, 4096, 8192, 12288, some (fun _ => 0), some (fun _ => 0),
          some (fun _ => 0), 12845056, []⟩
        (fun _ => 1) (fun _ => 1) 224 224 3 32 3)
    = some ([] ++
        [CNNFPGADriver.Event.memcpy_input (224 * 224 * 3),
         CNNFPGADriver.Event.memcpy_weights (32 * 3 * 3 * 3),
         CNNFPGADriver.Event.reg_write CNNFPGADriver.CONV_INPUT_ADDR_REG
           (CNNFPGADriver.toU32 ((4096 : ℕ) : Int)),
         CNNFPGADriver.Event.reg_write CNNFPGADriver.CONV_OUTPUT_ADDR_REG
           (CNNFPGADriver.toU32 ((8192 : ℕ) : Int)),
         CNNFPGADriver.Event.reg_write CNNFPGADriver.CONV_WEIGHT_ADDR_REG
           (CNNFPGADriver.toU32 ((12288 : ℕ) : Int)),
         CNNFPGADriver.Event.reg_write CNNFPGADriver.CONV_CONFIG_REG
           (CNNFPGADriver.pack_config 224 224 3 32),
         CNNFPGADriver.Event.reg_write CNNFPGADriver.CONV_CTRL_REG
           CNNFPGADriver.CTRL_START_BIT]) := by
  have h := (C20_dispatch_order 1 ⟨fun _ => 1, fun b => b⟩
    ⟨3, some 0, none, 4096, 8192, 12288, some (fun _ => 0), some (fun _ => 0),
      some (fun _ => 0), 12845056, []⟩
    (fun _ => 1) (fun _ => 1) (fun _ => 0) (fun _ => 0) 224 224 3 32 3 2 1 true rfl).1
  cases hd : CNNFPGADriver.conv2d_dispatch
      ⟨3, some 0, none, 4096, 8192, 12288, some (fun _ => 0), some (fun _ => 0),
        some (fun _ => 0), 12845056, []⟩
      (fun _ => 1) (fun _ => 1) 224 224 3 32 3 with
  | none => exact absurd hd (by simp [CNNFPGADriver.conv2d_dispatch])
  | some d1 =>
    rw [Option.map_some']
    exact congrArg some (h d1 hd)

/-! ## The topology tables -/

/-- C24: the channel counts of the topology tables chain. `CONV1_FILTERS` is the input channel
count of block 1, for every `i` in `0 .. 11` the output channel count `DEPTHWISE_BLOCKS[i][1]` is
the input channel count `DEPTHWISE_BLOCKS[i+1][0]`, and the output channel count of block 13 is
`GAP_OUTPUT_SIZE` and `FC_INPUT_SIZE`, which is 1024. -/
theorem C24_topology_chains :
    CONV1_FILTERS = DEPTHWISE_BLOCKS 0 0 ∧
    (∀ i : Int, 0 ≤ i → i ≤ 11 → DEPTHWISE_BLOCKS i 1 = DEPTHWISE_BLOCKS (i + 1) 0) ∧
    DEPTHWISE_BLOCKS 12 1 = GAP_OUTPUT_SIZE ∧ DEPTHWISE_BLOCKS 12 1 = FC_INPUT_SIZE ∧
    FC_INPUT_SIZE = 1024 := by
  refine ⟨by decide, ?_, by decide, by decide, by decide⟩
  intro i h0 h1
  interval_cases i <;> decide

/-- C24, instance: block 6 hands its 512 output channels to block 7. -/
theorem C24_topology_chains_witness :
    DEPTHWISE_BLOCKS 5 1 = 512 ∧ DEPTHWISE_BLOCKS 5 1 = DEPTHWISE_BLOCKS (5 + 1) 0 :=
  ⟨by decide, C24_topology_chains.2.1 5 (by decide) (by decide)⟩

/-! ## The register offsets and the reset sequence -/

namespace CNNFPGADriver

/-- A failing `init` leaves the trace as it was. -/
theorem init_trace_of_false (env : InitEnv) (d : State) (h : (init env d).2 = false) :
    (init env d).1.trace = d.trace := by
  unfold init at h ⊢
  dsimp only at h ⊢
  split_ifs at h ⊢ with h1 h2 h3
  · rfl
  · rfl
  · rfl

/-- A successful `init` appends the reset store, the sleep and the clearing store. -/
theorem init_trace_of_true (env : InitEnv) (d : State) (h : (init env d).2 = true) :
    (init env d).1.trace = d.trace ++
      [Event.reg_write CONV_CTRL_REG CTRL_RESET_BIT, Event.usleep 1000,
       Event.reg_write CONV_CTRL_REG 0] := by
  unfold init at h ⊢
  dsimp only at h ⊢
  split_ifs at h ⊢ with h1 h2 h3
  cases hm : map_physical_memory env.mmap_result FPGA_BASE_ADDR MAP_SIZE with
  | none => simp [hm] at h2
  | some b => simp [write_reg, hm]

end CNNFPGADriver

/-- C23: the register stores of `init`. A successful `init` (one that returns `true`) performs
exactly two register stores, both to the control register: first the value with only the reset
bit (bit 1) set, then, after a sleep, the value 0. An `init` that returns `false` performs no
register store: it leaves the trace as it found it. -/
theorem C23_init_reset_sequence (env : CNNFPGADriver.InitEnv) (d : CNNFPGADriver.State) :
    (CNNFPGADriver.init env d).1.trace = d.trace ++
      (if (CNNFPGADriver.init env d).2 = true then
        [CNNFPGADriver.Event.reg_write CNNFPGADriver.CONV_CTRL_REG CNNFPGADriver.CTRL_RESET_BIT,
         CNNFPGADriver.Event.usleep 1000,
         CNNFPGADriver.Event.reg_write CNNFPGADriver.CONV_CTRL_REG 0]
      else []) ∧
    CNNFPGADriver.CTRL_RESET_BIT = 2 ^ 1 := by
  refine ⟨?_, by decide⟩
  cases h : (CNNFPGADriver.init env d).2 with
  | false =>
    rw [CNNFPGADriver.init_trace_of_false env d h]
    simp
  | true =>
    rw [CNNFPGADriver.init_trace_of_true env d h]
    simp

/-- C29, the failing case: `MAP_SIZE` is `4096 * 256 = 1048576` bytes, and each of the six
register macros is `FPGA_BASE_ADDR + k` with `FPGA_BASE_ADDR = 0x43C00000 = 1136656384`, so for
every one of them `offset + 4` exceeds `MAP_SIZE`. On a freshly constructed driver for which
`open`, `mmap` and the three allocations succeed, `init` returns `true` and its two stores go to
offset 1136656384 from `fpga_base`. -/
theorem C29_register_offsets_outside_window :
    CNNFPGADriver.MAP_SIZE = 1048576 ∧
    CNNFPGADriver.CONV_CTRL_REG = 1136656384 ∧
    (∀ r ∈ [CNNFPGADriver.CONV_CTRL_REG, CNNFPGADriver.CONV_STATUS_REG,
        CNNFPGADriver.CONV_INPUT_ADDR_REG, CNNFPGADriver.CONV_OUTPUT_ADDR_REG,
        CNNFPGADriver.CONV_WEIGHT_ADDR_REG, CNNFPGADriver.CONV_CONFIG_REG],
      ¬ (r + 4 ≤ CNNFPGADriver.MAP_SIZE)) ∧
    (CNNFPGADriver.init ⟨3, some 3014656, some 4096, some 8192, some 12288⟩
      CNNFPGADriver.constructed).2 = true ∧
    (CNNFPGADriver.init ⟨3, some 3014656, some 4096, some 8192, some 12288⟩
      CNNFPGADriver.constructed).1.trace
      = [CNNFPGADriver.Event.reg_write 1136656384 2, CNNFPGADriver.Event.usleep 1000,
         CNNFPGADriver.Event.reg_write 1136656384 0] := by
  decide

/-! ## The buffers after a dispatch -/

namespace CNNFPGADriver

/-- The completion poll changes no field of the driver but the trace. -/
theorem wait_for_completion_frame (fuel : Nat) :
    ∀ (status : Nat → Nat) (d d1 : State), wait_for_completion fuel status d = some d1 →
      d1.input_buffer_virt = d.input_buffer_virt ∧ d1.weight_buffer_virt = d.weight_buffer_virt ∧
      d1.output_buffer_virt = d.output_buffer_virt ∧ d1.fpga_base = d.fpga_base := by
  induction fuel with
  | zero =>
    intro status d d1 h
    simp [wait_for_completion] at h
  | succ k ih =>
    intro status d d1 h
    unfold wait_for_completion at h
    have hr : (read_reg d CONV_STATUS_REG (status 0)).1.input_buffer_virt = d.input_buffer_virt ∧
        (read_reg d CONV_STATUS_REG (status 0)).1.weight_buffer_virt = d.weight_buffer_virt ∧
        (read_reg d CONV_STATUS_REG (status 0)).1.output_buffer_virt = d.output_buffer_virt ∧
        (read_reg d CONV_STATUS_REG (status 0)).1.fpga_base = d.fpga_base := by
      unfold read_reg
      cases hb : d.fpga_base <;> simp [hb]
    dsimp only at h
    split_ifs at h with h0
    · injection h with h
      rw [← h]
      exact hr
    · have := ih _ _ _ h
      dsimp only at this
      exact ⟨this.1.trans hr.1, this.2.1.trans hr.2.1, this.2.2.1.trans hr.2.2.1,
        this.2.2.2.trans hr.2.2.2⟩

/-- A dispatch that goes through leaves in the input and weight DMA buffers the copies of the
caller's input and weights, and does not touch the output DMA buffer. -/
theorem conv2d_dispatch_buffers (d d1 : State) (input weights : Int → Int)
    (input_h input_w input_c output_c kernel_size : Int)
    (h : conv2d_dispatch d input weights input_h input_w input_c output_c kernel_size = some d1) :
    ∃ ibuf wbuf, d.input_buffer_virt = some ibuf ∧ d.weight_buffer_virt = some wbuf ∧
      d1.input_buffer_virt = some (memcpy ibuf input (input_h * input_w * input_c)) ∧
      d1.weight_buffer_virt
        = some (memcpy wbuf weights (output_c * input_c * kernel_size * kernel_size)) ∧
      d1.output_buffer_virt = d.output_buffer_virt := by
  unfold conv2d_dispatch at h
  cases hi : d.input_buffer_virt with
  | none => simp [hi] at h
  | some ibuf =>
    cases hw : d.weight_buffer_virt with
    | none => simp [hi, hw] at h
    | some wbuf =>
      simp only [hi, hw, Option.some.injEq] at h
      refine ⟨ibuf, wbuf, rfl, rfl, ?_, ?_, ?_⟩
      · rw [← h]
        simp only [write_reg_input_buffer]
      · rw [← h]
        simp only [write_reg_weight_buffer]
      · rw [← h]
        simp only [write_reg_output_buffer]

end CNNFPGADriver

/-- C21: after a `CNNFPGADriver::conv2d` call that returns, the first
`input_h * input_w * input_c` elements of the DMA input buffer are the caller's input, the first
`output_c * input_c * kernel_size * kernel_size` elements of the DMA weight buffer are the
caller's weights, the first `output_h * output_w * output_c` elements of the caller's output are
the corresponding elements of the DMA output buffer, and the elements of the caller's output from
that count on are unchanged. -/
theorem C21_conv2d_buffers (fuel : Nat) (dev : CNNFPGADriver.Device) (d : CNNFPGADriver.State)
    (input weights bias output : Int → Int)
    (input_h input_w input_c output_c kernel_size stride padding : Int) (use_relu : Bool)
    (r : CNNFPGADriver.State × (Int → Int) × Bool)
    (h : CNNFPGADriver.conv2d fuel dev d input weights bias output input_h input_w input_c
      output_c kernel_size stride padding use_relu = CNNFPGADriver.Outcome.returned r) :
    (∃ ibuf, r.1.input_buffer_virt = some ibuf ∧
      ∀ i, 0 ≤ i → i < input_h * input_w * input_c → ibuf i = input i) ∧
    (∃ wbuf, r.1.weight_buffer_virt = some wbuf ∧
      ∀ i, 0 ≤ i → i < output_c * input_c * kernel_size * kernel_size → wbuf i = weights i) ∧
    (∃ obuf, r.1.output_buffer_virt = some obuf ∧
      (∀ i, 0 ≤ i → i < conv_output_dim input_h padding kernel_size stride
          * conv_output_dim input_w padding kernel_size stride * output_c → r.2.1 i = obuf i) ∧
      (∀ i, conv_output_dim input_h padding kernel_size stride
          * conv_output_dim input_w padding kernel_size stride * output_c ≤ i →
        r.2.1 i = output i)) := by
  unfold CNNFPGADriver.conv2d at h
  cases hd : CNNFPGADriver.conv2d_dispatch d input weights input_h input_w input_c output_c
      kernel_size with
  | none =>
    rw [hd] at h
    exact absurd h (by simp)
  | some d1 =>
    rw [hd] at h
    dsimp only at h
    cases hwc : CNNFPGADriver.wait_for_completion fuel dev.status d1 with
    | none =>
      rw [hwc] at h
      exact absurd h (by simp)
    | some d2 =>
      rw [hwc] at h
      dsimp only at h
      obtain ⟨ibuf, wbuf, _, _, e1, e2, _⟩ := CNNFPGADriver.conv2d_dispatch_buffers d d1 input
        weights input_h input_w input_c output_c kernel_size hd
      obtain ⟨f1, f2, _, _⟩ := CNNFPGADriver.wait_for_completion_frame fuel dev.status d1 d2 hwc
      cases ho : d2.output_buffer_virt with
      | none =>
        rw [ho] at h
        exact absurd h (by simp)
      | some obuf =>
        rw [ho] at h
        dsimp only at h
        injection h with h
        rw [← h]
        refine ⟨⟨_, f1.trans e1, ?_⟩, ⟨_, f2.trans e2, ?_⟩, ⟨dev.dma_output obuf, rfl, ?_, ?_⟩⟩
        · intro i h0 h1
          simp [CNNFPGADriver.memcpy, h0, h1]
        · intro i h0 h1
          simp [CNNFPGADriver.memcpy, h0, h1]
        · intro i h0 h1
          simp [CNNFPGADriver.memcpy, h0, h1]
        · intro i h1
          have : ¬ (0 ≤ i ∧ i < conv_output_dim input_h padding kernel_size stride
              * conv_output_dim input_w padding kernel_size stride * output_c) := by
            intro hc
            omega
          simp only [CNNFPGADriver.memcpy]
          rw [if_neg this]

/-- C21, instance: a 2×2×1 input with a 1×1 kernel on a driver that is set up, the device
signalling done at the first read of the status register and filling the output DMA buffer with
7. The call returns, and element 4 of the caller's output, the first one beyond the
`2 * 2 * 1` output elements, still holds the 0 it held before the call. -/
theorem C21_conv2d_buffers_witness :
    (match CNNFPGADriver.conv2d 1 ⟨fun _ => 1, fun _ => fun _ => 7⟩
      ⟨3, some 0, none, 4096, 8192, 12288, some (fun _ => 0), some (fun _ => 0),
        some (fun _ => 0), 12845056, []⟩
      (fun _ => 1) (fun _ => 1) (fun _ => 0) (fun _ => 0) 2 2 1 1 1 1 0 true with
    | CNNFPGADriver.Outcome.returned r => r.2.1 4
    | _ => 1) = 0 := by
  have e : ∃ r, CNNFPGADriver.conv2d 1 ⟨fun _ => 1, fun _ => fun _ => 7⟩
      ⟨3, some 0, none, 4096, 8192, 12288, some (fun _ => 0), some (fun _ => 0),
        some (fun _ => 0), 12845056, []⟩
      (fun _ => 1) (fun _ => 1) (fun _ => 0) (fun _ => 0) 2 2 1 1 1 1 0 true
      = CNNFPGADriver.Outcome.returned r := ⟨_, rfl⟩
  obtain ⟨r, hr⟩ := e
  obtain ⟨_, _, obuf, _, _, h4⟩ := C21_conv2d_buffers 1 ⟨fun _ => 1, fun _ => fun _ => 7⟩
    ⟨3, some 0, none, 4096, 8192, 12288, some (fun _ => 0), some (fun _ => 0),
      some (fun _ => 0), 12845056, []⟩
    (fun _ => 1) (fun _ => 1) (fun _ => 0) (fun _ => 0) 2 2 1 1 1 1 0 true r hr
  rw [hr]
  exact h4 4 (by decide)

/-! ## Dispatch after a failed initialisation -/

namespace CNNFPGADriver

/-- With one of the three DMA buffer pointers null, `conv2d` does not return. -/
theorem conv2d_not_returned (fuel : Nat) (dev : Device) (d : State)
    (input weights bias output : Int → Int)
    (input_h input_w input_c output_c kernel_size stride padding : Int) (use_relu : Bool)
    (h : d.input_buffer_virt.isNone = true ∨ d.weight_buffer_virt.isNone = true ∨
      d.output_buffer_virt.isNone = true) (r : State × (Int → Int) × Bool) :
    conv2d fuel dev d input weights bias output input_h input_w input_c output_c kernel_size
      stride padding use_relu ≠ Outcome.returned r := by
  intro hr
  unfold conv2d at hr
  cases hd : conv2d_dispatch d input weights input_h input_w input_c output_c kernel_size with
  | none =>
    rw [hd] at hr
    exact absurd hr (by simp)
  | some d1 =>
    rw [hd] at hr
    dsimp only at hr
    obtain ⟨ibuf, wbuf, e1, e2, _, _, e3⟩ := conv2d_dispatch_buffers d d1 input weights input_h
      input_w input_c output_c kernel_size hd
    cases hwc : wait_for_completion fuel dev.status d1 with
    | none =>
      rw [hwc] at hr
      exact absurd hr (by simp)
    | some d2 =>
      rw [hwc] at hr
      dsimp only at hr
      obtain ⟨_, _, f3, _⟩ := wait_for_completion_frame fuel dev.status d1 d2 hwc
      cases ho : d2.output_buffer_virt with
      | none =>
        rw [ho] at hr
        exact absurd hr (by simp)
      | some obuf =>
        rw [f3, e3] at ho
        simp [e1, e2, ho] at h

/-- After an `init` that fails on a freshly constructed driver one of the three DMA buffer
pointers is null. -/
theorem init_failed_buffers (env : InitEnv) (h : (init env constructed).2 = false) :
    (init env constructed).1.input_buffer_virt.isNone = true ∨
    (init env constructed).1.weight_buffer_virt.isNone = true ∨
    (init env constructed).1.output_buffer_virt.isNone = true := by
  unfold init at h ⊢
  dsimp only at h ⊢
  split_ifs at h ⊢ with h1 h2 h3
  · left
    rfl
  · left
    rfl
  · dsimp only
    simp only [Bool.or_eq_true] at h3
    tauto

/-- After an `init` that fails in `open` or in `mmap` on a freshly constructed driver the
register window pointer and the DMA input buffer pointer are null and the trace is empty. -/
theorem init_failed_early (env : InitEnv) (h : env.open_result < 0 ∨ env.mmap_result = none) :
    (init env constructed).2 = false ∧ (init env constructed).1.fpga_base = none ∧
    (init env constructed).1.input_buffer_virt = none ∧ (init env constructed).1.trace = [] := by
  unfold init
  dsimp only
  split_ifs with h1 h2 h3
  · exact ⟨rfl, rfl, rfl, rfl⟩
  · refine ⟨rfl, ?_, rfl, rfl⟩
    simpa using h2
  · exfalso
    rcases h with h | h
    · exact h1 h
    · simp [map_physical_memory, h] at h2
  · exfalso
    rcases h with h | h
    · exact h1 h
    · simp [map_physical_memory, h] at h2

end CNNFPGADriver

/-- C22, counterexample: on a freshly constructed driver let `open`, `mmap` and the allocations
of the input and weight buffers succeed and the allocation of the output buffer fail. `init`
returns `false`. A following `conv2d` call on a 2×2×1 input with a 1×1 kernel is not refused: it
copies the input and the weights, performs the five register stores and reads the status
register, and then, instead of returning a failure, ends at the copy from the null output
buffer. -/
theorem C22_refusal_counterexample :
    (CNNFPGADriver.init ⟨3, some 3014656, some 4096, none, some 12288⟩
      CNNFPGADriver.constructed).2 = false ∧
    Option.map CNNFPGADriver.State.trace
      ((CNNFPGADriver.conv2d_dispatch
        (CNNFPGADriver.init ⟨3, some 3014656, some 4096, none, some 12288⟩
          CNNFPGADriver.constructed).1 (fun _ => 1) (fun _ => 1) 2 2 1 1 1).bind
        (CNNFPGADriver.wait_for_completion 1 (fun _ => 1)))
      = some
        [CNNFPGADriver.Event.memcpy_input 4, CNNFPGADriver.Event.memcpy_weights 1,
         CNNFPGADriver.Event.reg_write CNNFPGADriver.CONV_INPUT_ADDR_REG 4096,
         CNNFPGADriver.Event.reg_write CNNFPGADriver.CONV_OUTPUT_ADDR_REG 0,
         CNNFPGADriver.Event.reg_write CNNFPGADriver.CONV_WEIGHT_ADDR_REG 12288,
         CNNFPGADriver.Event.reg_write CNNFPGADriver.CONV_CONFIG_REG 33685761,
         CNNFPGADriver.Event.reg_write CNNFPGADriver.CONV_CTRL_REG 1,
         CNNFPGADriver.Event.reg_read CNNFPGADriver.CONV_STATUS_REG 1] ∧
    (match CNNFPGADriver.conv2d 1 ⟨fun _ => 1, fun b => b⟩
        (CNNFPGADriver.init ⟨3, some 3014656, some 4096, none, some 12288⟩
          CNNFPGADriver.constructed).1
        (fun _ => 1) (fun _ => 1) (fun _ => 0) (fun _ => 0) 2 2 1 1 1 1 0 true with
      | CNNFPGADriver.Outcome.returned _ => 0
      | CNNFPGADriver.Outcome.null_deref => 1
      | CNNFPGADriver.Outcome.still_polling => 2) = 1 := by
  refine ⟨by decide, by decide, by rfl⟩

/-- C22 (amended): after an `init` that failed on a freshly constructed driver, a `conv2d` call
that has bytes to move (its three byte counts `input_h * input_w * input_c`,
`output_c * input_c * kernel_size^2` and `output_h * output_w * output_c` are positive) is not
refused with a failure: it does not return at all, neither `false` nor `true`, since one of the
three DMA buffer pointers is null and the copy through it ends the call. When the failure was in
opening `/dev/mem` or in mapping the register window, the call performs no buffer copy, no
register store and no read of the status register: the trace is empty and the call ends at its
first statement, the copy into the DMA input buffer, whose pointer is null. -/
theorem C22_conv2d_after_failed_init (env : CNNFPGADriver.InitEnv) (fuel : Nat)
    (dev : CNNFPGADriver.Device) (input weights bias output : Int → Int)
    (input_h input_w input_c output_c kernel_size stride padding : Int) (use_relu : Bool)
    (hfail : (CNNFPGADriver.init env CNNFPGADriver.constructed).2 = false)
    (_hin : 0 < input_h * input_w * input_c)
    (_hweights : 0 < output_c * input_c * kernel_size * kernel_size)
    (_hout : 0 < conv_output_dim input_h padding kernel_size stride
      * conv_output_dim input_w padding kernel_size stride * output_c) :
    (∀ r, CNNFPGADriver.conv2d fuel dev (CNNFPGADriver.init env CNNFPGADriver.constructed).1
      input weights bias output input_h input_w input_c output_c kernel_size stride padding
      use_relu ≠ CNNFPGADriver.Outcome.returned r) ∧
    (env.open_result < 0 ∨ env.mmap_result = none →
      (CNNFPGADriver.init env CNNFPGADriver.constructed).1.trace = [] ∧
      (CNNFPGADriver.init env CNNFPGADriver.constructed).1.input_buffer_virt = none ∧
      CNNFPGADriver.conv2d_dispatch (CNNFPGADriver.init env CNNFPGADriver.constructed).1
        input weights input_h input_w input_c output_c kernel_size = none) := by
  constructor
  · intro r
    exact CNNFPGADriver.conv2d_not_returned fuel dev _ input weights bias output input_h input_w
      input_c output_c kernel_size stride padding use_relu
      (CNNFPGADriver.init_failed_buffers env hfail) r
  · intro h
    obtain ⟨_, _, h3, h4⟩ := CNNFPGADriver.init_failed_early env h
    refine ⟨h4, h3, ?_⟩
    unfold CNNFPGADriver.conv2d_dispatch
    rw [h3]

/-- C22, instance: `/dev/mem` cannot be opened; `init` returns `false` and the following
`conv2d` call on the first-layer geometry (150528, 864 and 401408 bytes to move) does not
return. -/
theorem C22_conv2d_after_failed_init_witness :
    (CNNFPGADriver.init ⟨-1, none, none, none, none⟩ CNNFPGADriver.constructed).2 = false ∧
    (0 : Int) < 224 * 224 * 3 ∧ (0 : Int) < 32 * 3 * 3 * 3 ∧
    0 < conv_output_dim 224 1 3 2 * conv_output_dim 224 1 3 2 * 32 ∧
    (match CNNFPGADriver.conv2d 5 ⟨fun _ => 1, fun b => b⟩
        (CNNFPGADriver.init ⟨-1, none, none, none, none⟩ CNNFPGADriver.constructed).1
        (fun _ => 1) (fun _ => 1) (fun _ => 0) (fun _ => 0) 224 224 3 32 3 2 1 true with
      | CNNFPGADriver.Outcome.returned _ => true
      | _ => false) = false := by
  refine ⟨rfl, by decide, by decide, by decide, ?_⟩
  cases hc : CNNFPGADriver.conv2d 5 ⟨fun _ => 1, fun b => b⟩
      (CNNFPGADriver.init ⟨-1, none, none, none, none⟩ CNNFPGADriver.constructed).1
      (fun _ => 1) (fun _ => 1) (fun _ => 0) (fun _ => 0) 224 224 3 32 3 2 1 true with
  | returned r =>
    exact absurd hc ((C22_conv2d_after_failed_init ⟨-1, none, none, none, none⟩ 5
      ⟨fun _ => 1, fun b => b⟩ (fun _ => 1) (fun _ => 1) (fun _ => 0) (fun _ => 0)
      224 224 3 32 3 2 1 true (by rfl) (by decide) (by decide) (by decide)).1 r)
  | null_deref => rfl
  | still_polling => rfl

/-! ## The inference pipelines -/

/-- C25, the failing case: in both pipelines the cursor `current_input` starts at the caller's
image and the first `std::swap` of block 1 turns it into `current_output`. The depthwise layer of
block 1 (the third step of `MobileNetCPU::inference`, the second of `MobileNetFPGA::inference`)
reads `buffer1` and stores its output into the caller's image. Over the 27 convolution layers the
output buffers are `buffer1`, then the image and `buffer1` in turn for each of the 13 blocks; no
step stores into `buffer2`. -/
theorem C25_layer_outputs_reach_input_image :
    MobileNetCPU.inference.steps.get? 2
      = some (Step.depthwise_conv2d Buffer.buffer1 1 Buffer.input_image 112 112 32 3 1 1) ∧
    MobileNetFPGA.inference.steps.get? 1
      = some (Step.conv2d Buffer.buffer1 1 Buffer.input_image 112 112 32 32 3 1 1) ∧
    (MobileNetCPU.inference.steps.filter Step.is_conv).map Step.output
      = Buffer.buffer1 ::
        (List.range 13).flatMap (fun _ => [Buffer.input_image, Buffer.buffer1]) ∧
    (MobileNetFPGA.inference.steps.filter Step.is_conv).map Step.output
      = Buffer.buffer1 ::
        (List.range 13).flatMap (fun _ => [Buffer.input_image, Buffer.buffer1]) ∧
    (∀ x ∈ MobileNetCPU.inference.steps, x.output ≠ Buffer.buffer2) ∧
    (∀ x ∈ MobileNetFPGA.inference.steps, x.output ≠ Buffer.buffer2) := by
  decide

/-- C26, the failing case: the depthwise layer of block 1 stores `112 * 112 * 32 = 401408`
elements into the caller's image, which holds `224 * 224 * 3 = 150528` elements. Every step that
stores into another buffer (`buffer1`, `gap_output`, `fc_output`, `output_probs`) stores at most
as many elements as the buffer holds. -/
theorem C26_depthwise_output_exceeds_image :
    Option.map (fun x => (Step.output x, Step.count x)) (MobileNetCPU.inference.steps.get? 2)
      = some (Buffer.input_image, 401408) ∧
    Option.map (fun x => (Step.output x, Step.count x)) (MobileNetFPGA.inference.steps.get? 1)
      = some (Buffer.input_image, 401408) ∧
    Buffer.capacity Buffer.input_image = 150528 ∧
    (∀ x ∈ MobileNetCPU.inference.steps, Step.output x ≠ Buffer.input_image →
      Step.count x ≤ Buffer.capacity (Step.output x)) ∧
    (∀ x ∈ MobileNetFPGA.inference.steps, Step.output x ≠ Buffer.input_image →
      Step.count x ≤ Buffer.capacity (Step.output x)) := by
  decide

/-- C30: in `MobileNetCPU::inference` and in `MobileNetFPGA::inference` there are 27 convolution
layers; the first is given the shape 224×224×3 and every later one is given, as its input height,
width and channel count, the output shape of the layer before it (the output sizes by the
output-size formula of the convolution, and that layer's output channel count). In
`MobileNetCPU::inference` every convolution is followed by a `relu` call on its output buffer
with exactly the convolution's output element count; `MobileNetFPGA::inference` calls no
activation function. In both, the convolutions are followed by the global average pooling of a
7×7×1024 tensor, the classifier and the softmax. -/
theorem C30_tracked_shapes :
    (MobileNetCPU.inference.steps.filter Step.is_conv).length = 27 ∧
    (MobileNetCPU.inference.steps.filter Step.is_conv).head?.map Step.input_shape
      = some (224, 224, 3) ∧
    (MobileNetCPU.inference.steps.filter Step.is_conv).tail.map Step.input_shape
      = (MobileNetCPU.inference.steps.filter Step.is_conv).dropLast.map Step.output_shape ∧
    MobileNetCPU.inference.steps
      = (MobileNetCPU.inference.steps.filter Step.is_conv).flatMap
          (fun k => [k, Step.relu (Step.output k) (Step.count k)])
        ++ [Step.global_avg_pool Buffer.buffer1 Buffer.gap_output 7 7 1024,
            Step.fully_connected Buffer.gap_output Buffer.fc_output 1024 1000,
            Step.softmax Buffer.fc_output Buffer.output_probs 1000] ∧
    (MobileNetFPGA.inference.steps.filter Step.is_conv).length = 27 ∧
    (MobileNetFPGA.inference.steps.filter Step.is_conv).head?.map Step.input_shape
      = some (224, 224, 3) ∧
    (MobileNetFPGA.inference.steps.filter Step.is_conv).tail.map Step.input_shape
      = (MobileNetFPGA.inference.steps.filter Step.is_conv).dropLast.map Step.output_shape ∧
    MobileNetFPGA.inference.steps
      = MobileNetFPGA.inference.steps.filter Step.is_conv
        ++ [Step.global_avg_pool Buffer.buffer1 Buffer.gap_output 7 7 1024,
            Step.fully_connected Buffer.gap_output Buffer.fc_output 1024 1000,
            Step.softmax Buffer.fc_output Buffer.output_probs 1000] := by
  decide

/-! ## The weight loader -/

/-- C27, the failing case: `load_quantized_weights` performs 28 pairs of reads. Every kernel
read has the byte count the topology calls for (`out_channels * in_channels * k * k`, and
`channels * k * k` for a depthwise layer), and for `conv1`, the 13 pointwise layers and the
classifier the bias read is one `int32` per output channel. For each of the 13 depthwise layers
(layers 1, 3, .., 25) the bias read is a single `int32`: for layer 1, `conv_dw_1` with 32
channels, 4 bytes are read where one `int32` per channel is 128 bytes. -/
theorem C27_depthwise_bias_read_is_one_int32 :
    load_quantized_weights.length = 28 ∧ expected_blobs.length = 28 ∧
    load_quantized_weights.map BlobRead.kernel_bytes
      = expected_blobs.map BlobRead.kernel_bytes ∧
    (∀ l ∈ [0, 2, 4, 6, 8, 10, 12, 14, 16, 18, 20, 22, 24, 26, 27],
      (load_quantized_weights.get? l).map BlobRead.bias_bytes
        = (expected_blobs.get? l).map BlobRead.bias_bytes) ∧
    (∀ l ∈ [1, 3, 5, 7, 9, 11, 13, 15, 17, 19, 21, 23, 25],
      (load_quantized_weights.get? l).map BlobRead.bias_bytes = some (1 * sizeof_int32_t)) ∧
    (load_quantized_weights.get? 1).map BlobRead.bias_bytes = some 4 ∧
    (expected_blobs.get? 1).map BlobRead.bias_bytes = some 128 := by
  decide

/-! ## The array accesses of the CPU convolutions, lemmas -/

theorem countFrom_zero (b : Int) : countFrom b 0 = [] := rfl

theorem countFrom_one (b : Int) : countFrom b 1 = [b] := by
  simp [countFrom, List.range_succ]

theorem countFrom_append (b : Int) (k l : Nat) :
    countFrom b k ++ countFrom (b + k) l = countFrom b (k + l) := by
  unfold countFrom
  rw [List.range_add, List.map_append, List.map_map]
  congr 1
  apply List.map_congr_left
  intro j _
  simp only [Function.comp]
  push_cast
  ring

theorem countFrom_congr (b b1 : Int) (m : Nat) (h : m ≠ 0 → b = b1) :
    countFrom b m = countFrom b1 m := by
  rcases Nat.eq_zero_or_pos m with h0 | h0
  · rw [h0]
    rfl
  · rw [h (by omega)]

/-- Loop invariant on a log: a property of every entry is kept by a loop whose body keeps it. -/
theorem forLoop_all {α : Type} (P : α → Prop) (n : Int) (body : Int → List α → List α)
    (log : List α) (h0 : ∀ a ∈ log, P a)
    (hstep : ∀ (i : Int) (l : List α), 0 ≤ i → i < n → (∀ a ∈ l, P a) → ∀ a ∈ body i l, P a) :
    ∀ a ∈ forLoop n body log, P a :=
  forLoop_rec (fun _ st => ∀ a ∈ st, P a) n body log h0
    (fun i st hi hst => hstep i st (by omega) hi hst)

namespace CPUConvolution

theorem written_append (l1 l2 : List Access) : written (l1 ++ l2) = written l1 ++ written l2 := by
  unfold written
  rw [List.filterMap_append]

/-- A loop whose body stores nothing leaves the list of stores as it was. -/
theorem forLoop_written_id (n : Int) (body : Int → List Access → List Access) (log : List Access)
    (h : ∀ (i : Int) (l : List Access), 0 ≤ i → i < n → written (body i l) = written l) :
    written (forLoop n body log) = written log :=
  forLoop_rec (fun _ st => written st = written log) n body log rfl
    (fun i st hi hst => by
      show written (body i st) = written log
      rw [h i st (by omega) hi, hst])

/-- A loop whose iteration `i` stores the `m` indices from `b + i * m` on, in order, stores the
`n * m` indices from `b` on, in order. -/
theorem forLoop_written_block (n : Int) (m : Nat) (b : Int)
    (body : Int → List Access → List Access) (log : List Access)
    (h : ∀ (i : Int) (l : List Access), 0 ≤ i → i < n →
      written (body i l) = written l ++ countFrom (b + i * m) m) :
    written (forLoop n body log) = written log ++ countFrom b (n.toNat * m) := by
  have := forLoop_rec (fun k st => written st = written log ++ countFrom b (k * m)) n body log
    (by simp [countFrom_zero])
    (fun i st hi hst => by
      show written (body i st) = written log ++ countFrom b ((i + 1) * m)
      have hst : written st = written log ++ countFrom b (i * m) := hst
      rw [h i st (by omega) hi, hst, List.append_assoc]
      congr 1
      have e : b + (i : Int) * (m : Int) = b + ((i * m : ℕ) : Int) := by push_cast; ring
      rw [e, countFrom_append]
      congr 1
      ring)
  exact this

end CPUConvolution

/-- Row-major indexing stays inside the array. -/
theorem idx_lt (a A b B : Int) (ha : 0 ≤ a) (ha1 : a < A) (hb : 0 ≤ b) (hb1 : b < B) :
    0 ≤ a * B + b ∧ a * B + b < A * B := by
  constructor
  · have : 0 ≤ a * B := mul_nonneg ha (by omega)
    omega
  · have : (a + 1) * B ≤ A * B := mul_le_mul_of_nonneg_right (by omega) (by omega)
    nlinarith

/-- The product of the iteration counts of three nested loops, when the bounds are not both
negative. -/
theorem toNat_mul3 (H W C : Int) (hC : 0 ≤ C) (h : ¬ (H < 0 ∧ W < 0)) :
    H.toNat * (W.toNat * C.toNat) = (H * W * C).toNat := by
  rcases lt_or_le H 0 with hH | hH
  · have hW : 0 ≤ W := by
      by_contra hc
      exact h ⟨hH, by omega⟩
    have e : H.toNat = 0 := by omega
    have : H * W * C ≤ 0 :=
      mul_nonpos_of_nonpos_of_nonneg (mul_nonpos_of_nonpos_of_nonneg hH.le hW) hC
    have e2 : (H * W * C).toNat = 0 := by omega
    rw [e, e2]
    simp
  · rcases lt_or_le W 0 with hW | hW
    · have e : W.toNat = 0 := by omega
      have : H * W * C ≤ 0 :=
        mul_nonpos_of_nonpos_of_nonneg (mul_nonpos_of_nonneg_of_nonpos hH hW.le) hC
      have e2 : (H * W * C).toNat = 0 := by omega
      rw [e, e2]
      simp
    · apply Int.ofNat_inj.mp
      have : 0 ≤ H * W * C := mul_nonneg (mul_nonneg hH hW) hC
      push_cast
      rw [Int.toNat_of_nonneg hH, Int.toNat_of_nonneg hW, Int.toNat_of_nonneg hC,
        Int.toNat_of_nonneg this]
      ring

namespace CPUConvolution

theorem written_write (l : List Access) (idx : Int) :
    written (l ++ [Access.write_output idx]) = written l ++ countFrom idx 1 := by
  rw [written_append, countFrom_one]
  rfl

/-- The stores of three nested loops over `H`, `W` and `C` whose innermost body stores exactly
the element `(oh * W + ow) * C + oc`: the indices from 0 on, in order. -/
theorem written_nest (H W C : Int) (f : Int → Int → Int → List Access → List Access)
    (hf : ∀ oh ow oc l, written (f oh ow oc l) = written l) :
    written (forLoop H (fun oh log => forLoop W (fun ow log => forLoop C (fun oc log =>
      f oh ow oc log ++ [Access.write_output ((oh * W + ow) * C + oc)]) log) log) [])
      = countFrom 0 (H.toNat * (W.toNat * C.toNat)) := by
  have inner : ∀ (oh ow : Int) (l : List Access),
      written (forLoop C (fun oc log =>
        f oh ow oc log ++ [Access.write_output ((oh * W + ow) * C + oc)]) l)
        = written l ++ countFrom ((oh * W + ow) * C) C.toNat := by
    intro oh ow l
    have := forLoop_written_block C 1 ((oh * W + ow) * C) (fun oc log =>
      f oh ow oc log ++ [Access.write_output ((oh * W + ow) * C + oc)]) l
      (fun oc l _ _ => by
        show written (f oh ow oc l ++ [Access.write_output ((oh * W + ow) * C + oc)]) = _
        rw [written_write, hf]
        simp)
    simpa using this
  have mid : ∀ (oh : Int) (l : List Access),
      written (forLoop W (fun ow log => forLoop C (fun oc log =>
        f oh ow oc log ++ [Access.write_output ((oh * W + ow) * C + oc)]) log) l)
        = written l ++ countFrom (oh * W * C) (W.toNat * C.toNat) := by
    intro oh l
    exact forLoop_written_block W C.toNat (oh * W * C) _ l (fun ow l _ _ => by
      show written (forLoop C _ l) = _
      rw [inner]
      congr 1
      apply countFrom_congr
      intro hm
      have : ((C.toNat : ℕ) : Int) = C := Int.toNat_of_nonneg (by omega)
      rw [this]
      ring)
  have outer := forLoop_written_block H (W.toNat * C.toNat) 0 (fun oh log =>
      forLoop W (fun ow log => forLoop C (fun oc log =>
        f oh ow oc log ++ [Access.write_output ((oh * W + ow) * C + oc)]) log) log) []
    (fun oh l _ _ => by
      show written (forLoop W _ l) = _
      rw [mid]
      congr 1
      apply countFrom_congr
      intro hm
      have hW : W.toNat ≠ 0 := fun e => hm (by rw [e]; simp)
      have hC : C.toNat ≠ 0 := fun e => hm (by rw [e]; simp)
      have e1 : ((C.toNat : ℕ) : Int) = C := Int.toNat_of_nonneg (by omega)
      have e2 : ((W.toNat : ℕ) : Int) = W := Int.toNat_of_nonneg (by omega)
      push_cast
      rw [e1, e2]
      ring)
  simpa [written] using outer

theorem conv2d_acc_accesses_written (input_h input_w input_c kernel_size stride padding
    oh ow oc : Int) (log : List Access) :
    written (conv2d_acc_accesses input_h input_w input_c kernel_size stride padding oh ow oc log)
      = written log := by
  unfold conv2d_acc_accesses
  rw [forLoop_written_id]
  · rw [written_append]
    simp [written]
  · intro kh l _ _
    apply forLoop_written_id
    intro kw l _ _
    apply forLoop_written_id
    intro ic l _ _
    dsimp only
    split_ifs
    · rw [written_append]
      simp [written]
    · rfl

theorem depthwise_conv2d_acc_accesses_written (input_h input_w channels kernel_size stride
    padding oh ow c : Int) (log : List Access) :
    written (depthwise_conv2d_acc_accesses input_h input_w channels kernel_size stride padding
      oh ow c log) = written log := by
  unfold depthwise_conv2d_acc_accesses
  rw [forLoop_written_id]
  · rw [written_append]
    simp [written]
  · intro kh l _ _
    apply forLoop_written_id
    intro kw l _ _
    dsimp only
    split_ifs
    · rw [written_append]
      simp [written]
    · rfl

/-- The stores of `conv2d`: the indices from 0 on, in order, as many as the three output loops
have iterations. -/
theorem conv2d_accesses_written (input_h input_w input_c output_c kernel_size stride
    padding : Int) :
    written (conv2d_accesses input_h input_w input_c output_c kernel_size stride padding)
      = countFrom 0 ((conv_output_dim input_h padding kernel_size stride).toNat
          * ((conv_output_dim input_w padding kernel_size stride).toNat * output_c.toNat)) :=
  written_nest _ _ _ (fun oh ow oc l => conv2d_acc_accesses input_h input_w input_c kernel_size
    stride padding oh ow oc l) (fun _ _ _ l => conv2d_acc_accesses_written _ _ _ _ _ _ _ _ _ l)

/-- The stores of `depthwise_conv2d`: the indices from 0 on, in order. -/
theorem depthwise_conv2d_accesses_written (input_h input_w channels kernel_size stride
    padding : Int) :
    written (depthwise_conv2d_accesses input_h input_w channels kernel_size stride padding)
      = countFrom 0 ((conv_output_dim input_h padding kernel_size stride).toNat
          * ((conv_output_dim input_w padding kernel_size stride).toNat * channels.toNat)) :=
  written_nest _ _ _ (fun oh ow c l => depthwise_conv2d_acc_accesses input_h input_w channels
    kernel_size stride padding oh ow c l)
    (fun _ _ _ l => depthwise_conv2d_acc_accesses_written _ _ _ _ _ _ _ _ _ l)

end CPUConvolution

namespace CPUConvolution

theorem input_idx_lt (ih iw ic input_h input_w input_c : Int) (h1 : 0 ≤ ih) (h2 : ih < input_h)
    (h3 : 0 ≤ iw) (h4 : iw < input_w) (h5 : 0 ≤ ic) (h6 : ic < input_c) :
    0 ≤ (ih * input_w + iw) * input_c + ic ∧
      (ih * input_w + iw) * input_c + ic < input_h * input_w * input_c := by
  obtain ⟨a1, a2⟩ := idx_lt ih input_h iw input_w h1 h2 h3 h4
  exact idx_lt _ _ ic input_c a1 a2 h5 h6

theorem weight_idx_lt (oc ic kh kw output_c input_c kernel_size : Int) (h1 : 0 ≤ oc)
    (h2 : oc < output_c) (h3 : 0 ≤ ic) (h4 : ic < input_c) (h5 : 0 ≤ kh) (h6 : kh < kernel_size)
    (h7 : 0 ≤ kw) (h8 : kw < kernel_size) :
    0 ≤ ((oc * input_c + ic) * kernel_size + kh) * kernel_size + kw ∧
      ((oc * input_c + ic) * kernel_size + kh) * kernel_size + kw
        < output_c * input_c * kernel_size * kernel_size := by
  obtain ⟨a1, a2⟩ := idx_lt oc output_c ic input_c h1 h2 h3 h4
  obtain ⟨b1, b2⟩ := idx_lt _ _ kh kernel_size a1 a2 h5 h6
  exact idx_lt _ _ kw kernel_size b1 b2 h7 h8

/-- The reads of the accumulation of `conv2d` for an output channel `oc` of the layer stay inside
the arrays. -/
theorem conv2d_acc_accesses_within (input_h input_w input_c output_c kernel_size stride padding
    oh ow oc : Int) (h1 : 0 ≤ oc) (h2 : oc < output_c) (log : List Access)
    (hlog : ∀ a ∈ log, Access.within (input_h * input_w * input_c)
      (output_c * input_c * kernel_size * kernel_size) output_c a) :
    ∀ a ∈ conv2d_acc_accesses input_h input_w input_c kernel_size stride padding oh ow oc log,
      Access.within (input_h * input_w * input_c)
        (output_c * input_c * kernel_size * kernel_size) output_c a := by
  unfold conv2d_acc_accesses
  apply forLoop_all
  · intro a ha
    rcases List.mem_append.mp ha with ha | ha
    · exact hlog a ha
    · rw [List.mem_singleton] at ha
      rw [ha]
      exact ⟨h1, h2⟩
  · intro kh l kh0 kh1 hl
    apply forLoop_all _ _ _ _ hl
    intro kw l kw0 kw1 hl
    apply forLoop_all _ _ _ _ hl
    intro ic l ic0 ic1 hl
    dsimp only
    split_ifs with hg
    · intro a ha
      rcases List.mem_append.mp ha with ha | ha
      · exact hl a ha
      · simp only [List.mem_cons, List.mem_singleton, List.mem_nil_iff, or_false] at ha
        rcases ha with ha | ha
        · rw [ha]
          exact input_idx_lt _ _ _ _ _ _ hg.1 hg.2.1 hg.2.2.1 hg.2.2.2 ic0 ic1
        · rw [ha]
          exact weight_idx_lt _ _ _ _ _ _ _ h1 h2 ic0 ic1 kh0 kh1 kw0 kw1
    · exact hl

/-- The reads of `conv2d` stay inside the arrays. -/
theorem conv2d_accesses_within (input_h input_w input_c output_c kernel_size stride
    padding : Int) :
    ∀ a ∈ conv2d_accesses input_h input_w input_c output_c kernel_size stride padding,
      Access.within (input_h * input_w * input_c)
        (output_c * input_c * kernel_size * kernel_size) output_c a := by
  unfold conv2d_accesses
  dsimp only
  apply forLoop_all
  · intro a ha
    simp at ha
  · intro oh l _ _ hl
    apply forLoop_all _ _ _ _ hl
    intro ow l _ _ hl
    apply forLoop_all _ _ _ _ hl
    intro oc l oc0 oc1 hl
    intro a ha
    rcases List.mem_append.mp ha with ha | ha
    · exact conv2d_acc_accesses_within _ _ _ _ _ _ _ _ _ _ oc0 oc1 l hl a ha
    · rw [List.mem_singleton] at ha
      rw [ha]
      trivial

theorem depthwise_weight_idx_lt (c kh kw channels kernel_size : Int) (h1 : 0 ≤ c)
    (h2 : c < channels) (h5 : 0 ≤ kh) (h6 : kh < kernel_size) (h7 : 0 ≤ kw)
    (h8 : kw < kernel_size) :
    0 ≤ (c * kernel_size + kh) * kernel_size + kw ∧
      (c * kernel_size + kh) * kernel_size + kw < channels * kernel_size * kernel_size := by
  obtain ⟨b1, b2⟩ := idx_lt c channels kh kernel_size h1 h2 h5 h6
  exact idx_lt _ _ kw kernel_size b1 b2 h7 h8

/-- The reads of the accumulation of `depthwise_conv2d` for a channel `c` of the layer stay
inside the arrays. -/
theorem depthwise_conv2d_acc_accesses_within (input_h input_w channels kernel_size stride padding
    oh ow c : Int) (h1 : 0 ≤ c) (h2 : c < channels) (log : List Access)
    (hlog : ∀ a ∈ log, Access.within (input_h * input_w * channels)
      (channels * kernel_size * kernel_size) channels a) :
    ∀ a ∈ depthwise_conv2d_acc_accesses input_h input_w channels kernel_size stride padding
        oh ow c log,
      Access.within (input_h * input_w * channels)
        (channels * kernel_size * kernel_size) channels a := by
  unfold depthwise_conv2d_acc_accesses
  apply forLoop_all
  · intro a ha
    rcases List.mem_append.mp ha with ha | ha
    · exact hlog a ha
    · rw [List.mem_singleton] at ha
      rw [ha]
      exact ⟨h1, h2⟩
  · intro kh l kh0 kh1 hl
    apply forLoop_all _ _ _ _ hl
    intro kw l kw0 kw1 hl
    dsimp only
    split_ifs with hg
    · intro a ha
      rcases List.mem_append.mp ha with ha | ha
      · exact hl a ha
      · simp only [List.mem_cons, List.mem_singleton, List.mem_nil_iff, or_false] at ha
        rcases ha with ha | ha
        · rw [ha]
          exact input_idx_lt _ _ _ _ _ _ hg.1 hg.2.1 hg.2.2.1 hg.2.2.2 h1 h2
        · rw [ha]
          exact depthwise_weight_idx_lt _ _ _ _ _ h1 h2 kh0 kh1 kw0 kw1
    · exact hl

/-- The reads of `depthwise_conv2d` stay inside the arrays. -/
theorem depthwise_conv2d_accesses_within (input_h input_w channels kernel_size stride
    padding : Int) :
    ∀ a ∈ depthwise_conv2d_accesses input_h input_w channels kernel_size stride padding,
      Access.within (input_h * input_w * channels)
        (channels * kernel_size * kernel_size) channels a := by
  unfold depthwise_conv2d_accesses
  dsimp only
  apply forLoop_all
  · intro a ha
    simp at ha
  · intro oh l _ _ hl
    apply forLoop_all _ _ _ _ hl
    intro ow l _ _ hl
    apply forLoop_all _ _ _ _ hl
    intro c l c0 c1 hl
    intro a ha
    rcases List.mem_append.mp ha with ha | ha
    · exact depthwise_conv2d_acc_accesses_within _ _ _ _ _ _ _ _ _ c0 c1 l hl a ha
    · rw [List.mem_singleton] at ha
      rw [ha]
      trivial

end CPUConvolution

/-! ## Index safety of the CPU convolutions -/

/-- C28, counterexample: a 1×1×1 input with one output channel, `kernel_size = 3`, `stride = 1`,
`padding = 0`. Both computed output sizes are `(1 - 3) / 1 + 1 = -1`, so
`output_h * output_w * output_c = 1` and the claim asks for a store into index 0; the loops of
`conv2d` and of `depthwise_conv2d` do not run and nothing is stored. -/
theorem C28_index_safety_counterexample :
    conv_output_dim 1 0 3 1 = -1 ∧
    conv_output_dim 1 0 3 1 * conv_output_dim 1 0 3 1 * 1 = 1 ∧
    countFrom 0 (conv_output_dim 1 0 3 1 * conv_output_dim 1 0 3 1 * 1).toNat = [0] ∧
    CPUConvolution.written (CPUConvolution.conv2d_accesses 1 1 1 1 3 1 0) = [] ∧
    CPUConvolution.written (CPUConvolution.depthwise_conv2d_accesses 1 1 1 3 1 0) = [] ∧
    CPUConvolution.Access.write_output 0 ∉ CPUConvolution.conv2d_accesses 1 1 1 1 3 1 0 ∧
    CPUConvolution.Access.write_output 0 ∉
      CPUConvolution.depthwise_conv2d_accesses 1 1 1 3 1 0 := by
  decide

/-- C28 (amended): for every `conv2d` call with `output_c ≥ 0` and every `depthwise_conv2d` call
with `channels ≥ 0` whose two computed output sizes are not both negative (in particular whenever
the kernel fits into the padded input), every input index read lies in
`[0, input_h * input_w * input_c)`, every weight index read lies in
`[0, output_c * input_c * k * k)` (respectively `[0, channels * k * k)`), and the output indices
stored are, in program order, `0, 1, .., output_h * output_w * output_c - 1`: exactly these
indices, each stored exactly once. This holds for every stride, padding, kernel size and input
size. -/
theorem C28_conv_index_safety (input_h input_w input_c output_c channels kernel_size stride
    padding : Int) (hc : 0 ≤ output_c) (hch : 0 ≤ channels)
    (hout : ¬ (conv_output_dim input_h padding kernel_size stride < 0 ∧
      conv_output_dim input_w padding kernel_size stride < 0)) :
    (∀ idx, CPUConvolution.Access.read_input idx ∈ CPUConvolution.conv2d_accesses input_h input_w
        input_c output_c kernel_size stride padding →
      0 ≤ idx ∧ idx < input_h * input_w * input_c) ∧
    (∀ idx, CPUConvolution.Access.read_weight idx ∈ CPUConvolution.conv2d_accesses input_h
        input_w input_c output_c kernel_size stride padding →
      0 ≤ idx ∧ idx < output_c * input_c * kernel_size * kernel_size) ∧
    CPUConvolution.written (CPUConvolution.conv2d_accesses input_h input_w input_c output_c
        kernel_size stride padding)
      = countFrom 0 (conv_output_dim input_h padding kernel_size stride
          * conv_output_dim input_w padding kernel_size stride * output_c).toNat ∧
    (∀ idx, CPUConvolution.Access.read_input idx ∈ CPUConvolution.depthwise_conv2d_accesses
        input_h input_w channels kernel_size stride padding →
      0 ≤ idx ∧ idx < input_h * input_w * channels) ∧
    (∀ idx, CPUConvolution.Access.read_weight idx ∈ CPUConvolution.depthwise_conv2d_accesses
        input_h input_w channels kernel_size stride padding →
      0 ≤ idx ∧ idx < channels * kernel_size * kernel_size) ∧
    CPUConvolution.written (CPUConvolution.depthwise_conv2d_accesses input_h input_w channels
        kernel_size stride padding)
      = countFrom 0 (conv_output_dim input_h padding kernel_size stride
          * conv_output_dim input_w padding kernel_size stride * channels).toNat := by
  refine ⟨?_, ?_, ?_, ?_, ?_, ?_⟩
  · intro idx h
    exact CPUConvolution.conv2d_accesses_within input_h input_w input_c output_c kernel_size
      stride padding _ h
  · intro idx h
    exact CPUConvolution.conv2d_accesses_within input_h input_w input_c output_c kernel_size
      stride padding _ h
  · rw [CPUConvolution.conv2d_accesses_written, toNat_mul3 _ _ _ hc hout]
  · intro idx h
    exact CPUConvolution.depthwise_conv2d_accesses_within input_h input_w channels kernel_size
      stride padding _ h
  · intro idx h
    exact CPUConvolution.depthwise_conv2d_accesses_within input_h input_w channels kernel_size
      stride padding _ h
  · rw [CPUConvolution.depthwise_conv2d_accesses_written, toNat_mul3 _ _ _ hch hout]

/-- C28, instance: a 3×3×1 input with one output channel, a 2×2 kernel, stride 1 and no
padding: the output is 2×2×1 and the stores go to the indices 0, 1, 2, 3 in this order. -/
theorem C28_conv_index_safety_witness :
    ¬ (conv_output_dim 3 0 2 1 < 0 ∧ conv_output_dim 3 0 2 1 < 0) ∧
    CPUConvolution.written (CPUConvolution.conv2d_accesses 3 3 1 1 2 1 0) = [0, 1, 2, 3] :=
  ⟨by decide, (C28_conv_index_safety 3 3 1 1 1 2 1 0 (by decide) (by decide) (by decide)).2.2.1⟩

/-! ## The dispatches of the hardware pipeline -/

/-- C31, the failing case: `MobileNetFPGA::inference` dispatches the depthwise layer of a block
as `conv2d` with `input_c = output_c = in_c` and `kernel_size = 3`, so the driver copies
`in_c * in_c * 3 * 3` weight bytes, where the kernel blob of a depthwise layer has
`in_c * 3 * 3` bytes. For the depthwise layer of block 1 (layer 1) the driver copies 9216 bytes
from a blob of 288 bytes. For the first convolution and the 13 pointwise layers the byte count
copied is the size of the layer's kernel blob. -/
theorem C31_depthwise_weight_copy_exceeds_blob :
    (MobileNetFPGA.inference.steps.get? 1).bind (fun x =>
      (MobileNetFPGA.dispatch CNNFPGADriver.initialised x).map
        (fun d => CNNFPGADriver.weight_copies d.trace)) = some [9216] ∧
    (load_quantized_weights.get? 1).map BlobRead.kernel_bytes = some 288 ∧
    (MobileNetFPGA.inference.steps.filter Step.is_conv).map (fun x =>
      (MobileNetFPGA.dispatch CNNFPGADriver.initialised x).map
        (fun d => CNNFPGADriver.weight_copies d.trace))
      = some [CONV1_FILTERS * INPUT_CHANNELS * CONV1_KERNEL_SIZE * CONV1_KERNEL_SIZE] ::
        (List.range 13).flatMap (fun (b : Nat) =>
          [some [DEPTHWISE_BLOCKS b 0 * DEPTHWISE_BLOCKS b 0 * 3 * 3],
           some [DEPTHWISE_BLOCKS b 1 * DEPTHWISE_BLOCKS b 0 * 1 * 1]]) ∧
    (load_quantized_weights.take 27).map BlobRead.kernel_bytes
      = (CONV1_FILTERS * INPUT_CHANNELS * CONV1_KERNEL_SIZE * CONV1_KERNEL_SIZE) ::
        (List.range 13).flatMap (fun (b : Nat) =>
          [DEPTHWISE_BLOCKS b 0 * 3 * 3, DEPTHWISE_BLOCKS b 1 * DEPTHWISE_BLOCKS b 0 * 1 * 1]) := by
  decide

/-- C32, the failing case: the fields of the packed configuration word are 8 bits wide and the
channel counts of the topology reach 1024. For the pointwise layer of block 4 (the ninth
dispatch: 28×28, 128 input and 256 output channels) the word decodes to `(28, 28, 129, 0)`: the
output channel count 256 does not fit into bits 7..0 and its bit 8 lands in the field of the
input channel count. The first eight dispatches, whose four values are all below 256, decode to
the geometry of their layer; none of the 19 later ones does. -/
theorem C32_config_word_loses_channel_counts :
    Option.map Step.geometry ((MobileNetFPGA.inference.steps.filter Step.is_conv).get? 8)
      = some (28, 28, 128, 256) ∧
    ((MobileNetFPGA.inference.steps.filter Step.is_conv).get? 8).bind (fun x =>
      (MobileNetFPGA.dispatch CNNFPGADriver.initialised x).map
        (fun d => (CNNFPGADriver.config_writes d.trace).map CNNFPGADriver.decode_config))
      = some [(28, 28, 129, 0)] ∧
    (∀ x ∈ (MobileNetFPGA.inference.steps.filter Step.is_conv).take 8,
      (MobileNetFPGA.dispatch CNNFPGADriver.initialised x).map
        (fun d => (CNNFPGADriver.config_writes d.trace).map CNNFPGADriver.decode_config)
      = some [Step.geometry x]) ∧
    (∀ x ∈ (MobileNetFPGA.inference.steps.filter Step.is_conv).drop 8,
      (MobileNetFPGA.dispatch CNNFPGADriver.initialised x).map
        (fun d => (CNNFPGADriver.config_writes d.trace).map CNNFPGADriver.decode_config)
      ≠ some [Step.geometry x]) := by
  decide

/-! ## The parameters a dispatch does not use -/

namespace CNNFPGADriver

theorem reg_writes_append (t1 t2 : List Event) :
    reg_writes (t1 ++ t2) = reg_writes t1 ++ reg_writes t2 := by
  unfold reg_writes
  rw [List.filterMap_append]

/-- A `conv2d` call that returns leaves the state of its dispatch and poll, with the output DMA
buffer as the device filled it and the copy of the output appended to the trace. -/
theorem conv2d_returned (fuel : Nat) (dev : Device) (d : State)
    (input weights bias output : Int → Int)
    (input_h input_w input_c output_c kernel_size stride padding : Int) (use_relu : Bool)
    (r : State × (Int → Int) × Bool)
    (h : conv2d fuel dev d input weights bias output input_h input_w input_c output_c kernel_size
      stride padding use_relu = Outcome.returned r) :
    ∃ d1 d2, conv2d_dispatch d input weights input_h input_w input_c output_c kernel_size
        = some d1 ∧
      wait_for_completion fuel dev.status d1 = some d2 ∧
      r.1.input_buffer_virt = d2.input_buffer_virt ∧
      r.1.weight_buffer_virt = d2.weight_buffer_virt ∧
      r.1.trace = d2.trace ++ [Event.memcpy_output
        (conv_output_dim input_h padding kernel_size stride
          * conv_output_dim input_w padding kernel_size stride * output_c)] := by
  unfold conv2d at h
  cases hd : conv2d_dispatch d input weights input_h input_w input_c output_c kernel_size with
  | none =>
    rw [hd] at h
    exact absurd h (by simp)
  | some d1 =>
    rw [hd] at h
    dsimp only at h
    cases hwc : wait_for_completion fuel dev.status d1 with
    | none =>
      rw [hwc] at h
      exact absurd h (by simp)
    | some d2 =>
      rw [hwc] at h
      dsimp only at h
      cases ho : d2.output_buffer_virt with
      | none =>
        rw [ho] at h
        exact absurd h (by simp)
      | some obuf =>
        rw [ho] at h
        dsimp only at h
        injection h with h
        refine ⟨d1, d2, rfl, hwc, ?_, ?_, ?_⟩
        · rw [← h]
        · rw [← h]
        · rw [← h]

end CNNFPGADriver

/-- C33: two `CNNFPGADriver::conv2d` calls on the same driver state and the same device, with the
same input, weights, output and `input_h`, `input_w`, `input_c`, `output_c`, `kernel_size`, that
differ only in the bias array, the `use_relu` flag, the stride and the padding: when both
return, the DMA input buffer and the DMA weight buffer hold the same contents after either call
and the two calls issue the same sequence of `(register, value)` stores. -/
theorem C33_unused_parameters (fuel : Nat) (dev : CNNFPGADriver.Device)
    (d : CNNFPGADriver.State) (input weights output bias1 bias2 : Int → Int)
    (input_h input_w input_c output_c kernel_size stride1 stride2 padding1 padding2 : Int)
    (use_relu1 use_relu2 : Bool) (r1 r2 : CNNFPGADriver.State × (Int → Int) × Bool)
    (h1 : CNNFPGADriver.conv2d fuel dev d input weights bias1 output input_h input_w input_c
      output_c kernel_size stride1 padding1 use_relu1 = CNNFPGADriver.Outcome.returned r1)
    (h2 : CNNFPGADriver.conv2d fuel dev d input weights bias2 output input_h input_w input_c
      output_c kernel_size stride2 padding2 use_relu2 = CNNFPGADriver.Outcome.returned r2) :
    r1.1.input_buffer_virt = r2.1.input_buffer_virt ∧
    r1.1.weight_buffer_virt = r2.1.weight_buffer_virt ∧
    CNNFPGADriver.reg_writes r1.1.trace = CNNFPGADriver.reg_writes r2.1.trace := by
  obtain ⟨d1, d2, a1, a2, a3, a4, a5⟩ := CNNFPGADriver.conv2d_returned fuel dev d input weights
    bias1 output input_h input_w input_c output_c kernel_size stride1 padding1 use_relu1 r1 h1
  obtain ⟨e1, e2, b1, b2, b3, b4, b5⟩ := CNNFPGADriver.conv2d_returned fuel dev d input weights
    bias2 output input_h input_w input_c output_c kernel_size stride2 padding2 use_relu2 r2 h2
  rw [a1] at b1
  injection b1 with b1
  subst b1
  rw [a2] at b2
  injection b2 with b2
  subst b2
  refine ⟨a3.trans b3.symm, a4.trans b4.symm, ?_⟩
  rw [a5, b5, CNNFPGADriver.reg_writes_append, CNNFPGADriver.reg_writes_append]
  rfl

/-- C33, instance: the first-layer geometry on a driver that is set up, once with stride 2,
padding 1, a zero bias and `use_relu`, once with stride 1, padding 0, a bias of 5 and without
`use_relu`: both calls return and issue the same register stores. -/
theorem C33_unused_parameters_witness :
    (match CNNFPGADriver.conv2d 1 ⟨fun _ => 1, fun b => b⟩
        ⟨3, some 0, none, 4096, 8192, 12288, some (fun _ => 0), some (fun _ => 0),
          some (fun _ => 0), 12845056, []⟩
        (fun _ => 1) (fun _ => 1) (fun _ => 0) (fun _ => 0) 224 224 3 32 3 2 1 true with
      | CNNFPGADriver.Outcome.returned r => CNNFPGADriver.reg_writes r.1.trace
      | _ => []) =
    (match CNNFPGADriver.conv2d 1 ⟨fun _ => 1, fun b => b⟩
        ⟨3, some 0, none, 4096, 8192, 12288, some (fun _ => 0), some (fun _ => 0),
          some (fun _ => 0), 12845056, []⟩
        (fun _ => 1) (fun _ => 1) (fun _ => 5) (fun _ => 0) 224 224 3 32 3 1 0 false with
      | CNNFPGADriver.Outcome.returned r => CNNFPGADriver.reg_writes r.1.trace
      | _ => []) := by
  have e1 : ∃ r, CNNFPGADriver.conv2d 1 ⟨fun _ => 1, fun b => b⟩
      ⟨3, some 0, none, 4096, 8192, 12288, some (fun _ => 0), some (fun _ => 0),
        some (fun _ => 0), 12845056, []⟩
      (fun _ => 1) (fun _ => 1) (fun _ => 0) (fun _ => 0) 224 224 3 32 3 2 1 true
      = CNNFPGADriver.Outcome.returned r := ⟨_, rfl⟩
  have e2 : ∃ r, CNNFPGADriver.conv2d 1 ⟨fun _ => 1, fun b => b⟩
      ⟨3, some 0, none, 4096, 8192, 12288, some (fun _ => 0), some (fun _ => 0),
        some (fun _ => 0), 12845056, []⟩
      (fun _ => 1) (fun _ => 1) (fun _ => 5) (fun _ => 0) 224 224 3 32 3 1 0 false
      = CNNFPGADriver.Outcome.returned r := ⟨_, rfl⟩
  obtain ⟨r1, hr1⟩ := e1
  obtain ⟨r2, hr2⟩ := e2
  rw [hr1, hr2]
  exact (C33_unused_parameters 1 ⟨fun _ => 1, fun b => b⟩
    ⟨3, some 0, none, 4096, 8192, 12288, some (fun _ => 0), some (fun _ => 0),
      some (fun _ => 0), 12845056, []⟩
    (fun _ => 1) (fun _ => 1) (fun _ => 0) (fun _ => 0) (fun _ => 5) 224 224 3 32 3 2 1 1 0
    true false r1 r2 hr1 hr2).2.2

/-! ## Index safety of max pooling -/

/-- With `stride ≥ 1` and a window that fits into the input, the rows (and columns) a window
scan visits lie inside the input. -/
theorem pool_row_lt (inp pool stride o p : Int) (hs : 1 ≤ stride) (hp : pool ≤ inp)
    (ho : 0 ≤ o) (ho1 : o < Int.tdiv (inp - pool) stride + 1) (hp0 : 0 ≤ p) (hp1 : p < pool) :
    0 ≤ o * stride + p ∧ o * stride + p < inp := by
  have e : Int.tdiv (inp - pool) stride = (inp - pool) / stride :=
    Int.tdiv_eq_ediv (by omega) (by omega)
  rw [e] at ho1
  have h1 : (inp - pool) / stride * stride ≤ inp - pool := Int.ediv_mul_le _ (by omega)
  have h2 : o * stride ≤ (inp - pool) / stride * stride :=
    mul_le_mul_of_nonneg_right (by omega) (by omega)
  have h3 : 0 ≤ o * stride := mul_nonneg ho (by omega)
  constructor <;> omega

namespace CNNFPGADriver

/-- The reads of the window scan of `max_pooling` for an output element of the layer stay inside
the input when `stride ≥ 1` and the window fits into the input. -/
theorem max_pooling_window_accesses_within (input_h input_w channels pool_size stride oh ow
    c : Int) (P : CPUConvolution.Access → Prop)
    (hP : ∀ idx, 0 ≤ idx → idx < input_h * input_w * channels →
      P (CPUConvolution.Access.read_input idx))
    (hs : 1 ≤ stride) (hh : pool_size ≤ input_h) (hw : pool_size ≤ input_w)
    (oh0 : 0 ≤ oh) (oh1 : oh < Int.tdiv (input_h - pool_size) stride + 1)
    (ow0 : 0 ≤ ow) (ow1 : ow < Int.tdiv (input_w - pool_size) stride + 1)
    (c0 : 0 ≤ c) (c1 : c < channels) (log : List CPUConvolution.Access)
    (hlog : ∀ a ∈ log, P a) :
    ∀ a ∈ max_pooling_window_accesses input_w channels pool_size stride oh ow c log, P a := by
  unfold max_pooling_window_accesses
  apply forLoop_all _ _ _ _ hlog
  intro ph l ph0 ph1 hl
  apply forLoop_all _ _ _ _ hl
  intro pw l pw0 pw1 hl
  intro a ha
  rcases List.mem_append.mp ha with ha | ha
  · exact hl a ha
  · rw [List.mem_singleton] at ha
    rw [ha]
    obtain ⟨r1, r2⟩ := pool_row_lt input_h pool_size stride oh ph hs hh oh0 oh1 ph0 ph1
    obtain ⟨q1, q2⟩ := pool_row_lt input_w pool_size stride ow pw hs hw ow0 ow1 pw0 pw1
    obtain ⟨i1, i2⟩ := CPUConvolution.input_idx_lt _ _ _ _ _ _ r1 r2 q1 q2 c0 c1
    exact hP _ i1 i2

/-- The reads of `max_pooling` stay inside the input when `stride ≥ 1` and the window fits into
the input, and its stores stay inside the output. -/
theorem max_pooling_accesses_within (input_h input_w channels pool_size stride : Int)
    (hs : 1 ≤ stride) (hh : pool_size ≤ input_h) (hw : pool_size ≤ input_w) :
    ∀ a ∈ max_pooling_accesses input_h input_w channels pool_size stride,
      (∀ idx, a = CPUConvolution.Access.read_input idx →
        0 ≤ idx ∧ idx < input_h * input_w * channels) ∧
      (∀ idx, a = CPUConvolution.Access.write_output idx →
        0 ≤ idx ∧ idx < (Int.tdiv (input_h - pool_size) stride + 1)
          * (Int.tdiv (input_w - pool_size) stride + 1) * channels) := by
  unfold max_pooling_accesses
  dsimp only
  apply forLoop_all
  · intro a ha
    simp at ha
  · intro oh l oh0 oh1 hl
    apply forLoop_all _ _ _ _ hl
    intro ow l ow0 ow1 hl
    apply forLoop_all _ _ _ _ hl
    intro c l c0 c1 hl
    intro a ha
    rcases List.mem_append.mp ha with ha | ha
    · exact max_pooling_window_accesses_within input_h input_w channels pool_size stride oh ow c
        _ (fun idx i1 i2 => ⟨fun idx2 h => by injection h with h; rw [← h]; exact ⟨i1, i2⟩,
          fun idx2 h => by cases h⟩) hs hh hw oh0 oh1 ow0 ow1 c0 c1 l hl a ha
    · rw [List.mem_singleton] at ha
      rw [ha]
      constructor
      · intro idx h
        cases h
      · intro idx h
        injection h with h
        rw [← h]
        exact CPUConvolution.input_idx_lt _ _ _ _ _ _ oh0 oh1 ow0 ow1 c0 c1

end CNNFPGADriver

/-- C34, counterexample: a 1×1×1 input with `pool_size = 2` and `stride = 2`. The truncating
division gives `output_h = output_w = (1 - 2) / 2 + 1 = 1`, so the window of the single output
element is scanned, and it reaches the input indices 1 and 2, outside `[0, 1)`. -/
theorem C34_max_pooling_counterexample :
    Int.tdiv (1 - 2) 2 + 1 = 1 ∧
    CNNFPGADriver.max_pooling_accesses 1 1 1 2 2
      = [CPUConvolution.Access.read_input 0, CPUConvolution.Access.read_input 1,
         CPUConvolution.Access.read_input 1, CPUConvolution.Access.read_input 2,
         CPUConvolution.Access.write_output 0] ∧
    CPUConvolution.Access.read_input 2 ∈ CNNFPGADriver.max_pooling_accesses 1 1 1 2 2 ∧
    ¬ ((2 : Int) < 1 * 1 * 1) := by
  decide

/-- C34 (amended): for `stride ≥ 1` and a window that fits into the input (`pool_size ≤ input_h`
and `pool_size ≤ input_w`), every input index read by `CNNFPGADriver::max_pooling` lies in
`[0, input_h * input_w * channels)` and every output index written lies in
`[0, output_h * output_w * channels)`, the output sizes being those the code computes. -/
theorem C34_max_pooling_index_safety (input_h input_w channels pool_size stride : Int)
    (hs : 1 ≤ stride) (hh : pool_size ≤ input_h) (hw : pool_size ≤ input_w) :
    (∀ idx, CPUConvolution.Access.read_input idx ∈
        CNNFPGADriver.max_pooling_accesses input_h input_w channels pool_size stride →
      0 ≤ idx ∧ idx < input_h * input_w * channels) ∧
    (∀ idx, CPUConvolution.Access.write_output idx ∈
        CNNFPGADriver.max_pooling_accesses input_h input_w channels pool_size stride →
      0 ≤ idx ∧ idx < (Int.tdiv (input_h - pool_size) stride + 1)
        * (Int.tdiv (input_w - pool_size) stride + 1) * channels) := by
  constructor
  · intro idx h
    exact (CNNFPGADriver.max_pooling_accesses_within input_h input_w channels pool_size stride
      hs hh hw _ h).1 idx rfl
  · intro idx h
    exact (CNNFPGADriver.max_pooling_accesses_within input_h input_w channels pool_size stride
      hs hh hw _ h).2 idx rfl

/-- C34, instance: a 4×4×1 input with `pool_size = 2` and `stride = 2`; the read of the last
input element, index 15, is below `4 * 4 * 1`. -/
theorem C34_max_pooling_index_safety_witness :
    CPUConvolution.Access.read_input 15 ∈ CNNFPGADriver.max_pooling_accesses 4 4 1 2 2 ∧
    (0 : Int) ≤ 15 ∧ (15 : Int) < 4 * 4 * 1 :=
  ⟨by decide, (C34_max_pooling_index_safety 4 4 1 2 2 (by decide) (by decide) (by decide)).1 15
    (by decide)⟩

/-! ## The completion poll -/

namespace CNNFPGADriver

/-- A poll none of whose reads shows the done bit does not return, whatever the fuel; with the
register window unmapped no read shows it. -/
theorem wait_for_completion_none (fuel : Nat) :
    ∀ (status : Nat → Nat) (d : State),
      (d.fpga_base.isSome = true → ∀ k, k < fuel → status k &&& STATUS_DONE_BIT = 0) →
      wait_for_completion fuel status d = none := by
  induction fuel with
  | zero =>
    intro status d _
    rfl
  | succ m ih =>
    intro status d h
    unfold wait_for_completion
    cases hb : d.fpga_base with
    | none =>
      have hr : read_reg d CONV_STATUS_REG (status 0) = (d, 0) := by
        unfold read_reg
        rw [hb]
      simp only [hr]
      have h0 : ¬ ((0 : ℕ) &&& STATUS_DONE_BIT ≠ 0) := by decide
      rw [if_neg h0]
      apply ih
      intro hm
      simp [hb] at hm
    | some b =>
      have hr : read_reg d CONV_STATUS_REG (status 0)
          = ({ d with trace := d.trace ++ [Event.reg_read CONV_STATUS_REG (status 0)] },
              status 0) := by
        unfold read_reg
        rw [hb]
      simp only [hr]
      have hall := h (by simp [hb])
      have h0 : ¬ (status 0 &&& STATUS_DONE_BIT ≠ 0) := by
        simp [hall 0 (by omega)]
      rw [if_neg h0]
      apply ih
      intro _ k hk
      exact hall (k + 1) (by omega)

/-- With the register window mapped, a poll whose first read showing the done bit is read number
`n` returns as soon as the fuel allows `n + 1` reads, and its trace is `poll_trace status n`. -/
theorem wait_for_completion_some (n : Nat) :
    ∀ (fuel : Nat) (status : Nat → Nat) (d : State), d.fpga_base.isSome = true → n < fuel →
      status n &&& STATUS_DONE_BIT ≠ 0 → (∀ k, k < n → status k &&& STATUS_DONE_BIT = 0) →
      ∃ d1, wait_for_completion fuel status d = some d1 ∧
        d1.trace = d.trace ++ poll_trace status n := by
  induction n with
  | zero =>
    intro fuel status d hmap hf hdone _
    obtain ⟨b, hb⟩ := Option.isSome_iff_exists.mp hmap
    obtain ⟨m, rfl⟩ := Nat.exists_eq_succ_of_ne_zero (by omega : fuel ≠ 0)
    unfold wait_for_completion
    have hr : read_reg d CONV_STATUS_REG (status 0)
        = ({ d with trace := d.trace ++ [Event.reg_read CONV_STATUS_REG (status 0)] },
            status 0) := by
      unfold read_reg
      rw [hb]
    simp only [hr]
    rw [if_pos hdone]
    exact ⟨_, rfl, rfl⟩
  | succ j ih =>
    intro fuel status d hmap hf hdone hnot
    obtain ⟨b, hb⟩ := Option.isSome_iff_exists.mp hmap
    obtain ⟨m, rfl⟩ := Nat.exists_eq_succ_of_ne_zero (by omega : fuel ≠ 0)
    unfold wait_for_completion
    have hr : read_reg d CONV_STATUS_REG (status 0)
        = ({ d with trace := d.trace ++ [Event.reg_read CONV_STATUS_REG (status 0)] },
            status 0) := by
      unfold read_reg
      rw [hb]
    simp only [hr]
    have h0 : ¬ (status 0 &&& STATUS_DONE_BIT ≠ 0) := by
      simp [hnot 0 (by omega)]
    rw [if_neg h0]
    obtain ⟨d1, e1, e2⟩ := ih m (fun k => status (k + 1))
      { d with trace := d.trace ++ [Event.reg_read CONV_STATUS_REG (status 0)]
          ++ [Event.usleep 10] } (by simp [hb]) (by omega) hdone
      (fun k hk => hnot (k + 1) (by omega))
    refine ⟨d1, e1, ?_⟩
    rw [e2]
    simp [poll_trace]

/-- A poll trace with the done bit at read number `n` holds `n + 1` reads and `n` sleeps and
nothing else. -/
theorem poll_trace_counts (n : Nat) :
    ∀ (status : Nat → Nat), (poll_trace status n).countP Event.is_reg_read = n + 1 ∧
      (poll_trace status n).countP Event.is_usleep = n ∧
      (poll_trace status n).length = 2 * n + 1 := by
  induction n with
  | zero =>
    intro status
    simp [poll_trace, Event.is_reg_read, Event.is_usleep]
  | succ j ih =>
    intro status
    obtain ⟨a, b, c⟩ := ih (fun k => status (k + 1))
    simp only [poll_trace, List.countP_cons, List.length_cons, a, b, c, Event.is_reg_read,
      Event.is_usleep]
    simp
    omega

end CNNFPGADriver

/-- C35: `wait_for_completion` returns exactly when a read of the status register shows the done
bit (bit 0). With the register window mapped and a sequence of status values whose first value
with bit 0 set is at position `n`, the poll returns as soon as it is allowed `n + 1` reads, having
performed exactly the reads of `status 0, .., status n` with a sleep after each but the last
(`n + 1` reads, `n` sleeps), and it has not returned after `n` reads or fewer. When no status
value has bit 0 set, and when the register window is unmapped (`read_reg` then yields 0), it does
not return however many reads it is allowed. -/
theorem C35_wait_for_completion (status : Nat → Nat) (d : CNNFPGADriver.State) :
    (∀ n, d.fpga_base.isSome = true → status n &&& CNNFPGADriver.STATUS_DONE_BIT ≠ 0 →
      (∀ k, k < n → status k &&& CNNFPGADriver.STATUS_DONE_BIT = 0) →
      (∀ fuel, n < fuel → ∃ d1, CNNFPGADriver.wait_for_completion fuel status d = some d1 ∧
        d1.trace = d.trace ++ CNNFPGADriver.poll_trace status n) ∧
      (∀ fuel, fuel ≤ n → CNNFPGADriver.wait_for_completion fuel status d = none) ∧
      (CNNFPGADriver.poll_trace status n).countP CNNFPGADriver.Event.is_reg_read = n + 1 ∧
      (CNNFPGADriver.poll_trace status n).countP CNNFPGADriver.Event.is_usleep = n ∧
      (CNNFPGADriver.poll_trace status n).length = 2 * n + 1) ∧
    (d.fpga_base.isSome = true → (∀ k, status k &&& CNNFPGADriver.STATUS_DONE_BIT = 0) →
      ∀ fuel, CNNFPGADriver.wait_for_completion fuel status d = none) ∧
    (d.fpga_base = none → ∀ fuel, CNNFPGADriver.wait_for_completion fuel status d = none) ∧
    CNNFPGADriver.STATUS_DONE_BIT = 2 ^ 0 := by
  refine ⟨?_, ?_, ?_, by decide⟩
  · intro n hmap hdone hfirst
    obtain ⟨c1, c2, c3⟩ := CNNFPGADriver.poll_trace_counts n status
    refine ⟨?_, ?_, c1, c2, c3⟩
    · intro fuel hf
      exact CNNFPGADriver.wait_for_completion_some n fuel status d hmap hf hdone hfirst
    · intro fuel hf
      exact CNNFPGADriver.wait_for_completion_none fuel status d
        (fun _ k hk => hfirst k (by omega))
  · intro _ hnever fuel
    exact CNNFPGADriver.wait_for_completion_none fuel status d (fun _ k _ => hnever k)
  · intro hnone fuel
    exact CNNFPGADriver.wait_for_completion_none fuel status d (fun hm => by simp [hnone] at hm)

/-- C35, instance: the status register reads 2, 2, 1 (done at read number 2) on a driver whose
register window is mapped; allowed five reads, the poll returns after three reads and two
sleeps. -/
theorem C35_wait_for_completion_witness :
    Option.map CNNFPGADriver.State.trace
      (CNNFPGADriver.wait_for_completion 5 (fun k => if k < 2 then 2 else 1)
        ⟨3, some 0, none, 4096, 8192, 12288, some (fun _ => 0), some (fun _ => 0),
          some (fun _ => 0), 12845056, []⟩)
    = some
      [CNNFPGADriver.Event.reg_read CNNFPGADriver.CONV_STATUS_REG 2,
       CNNFPGADriver.Event.usleep 10,
       CNNFPGADriver.Event.reg_read CNNFPGADriver.CONV_STATUS_REG 2,
       CNNFPGADriver.Event.usleep 10,
       CNNFPGADriver.Event.reg_read CNNFPGADriver.CONV_STATUS_REG 1] := by
  obtain ⟨d1, h1, h2⟩ := (C35_wait_for_completion (fun k => if k < 2 then 2 else 1)
    ⟨3, some 0, none, 4096, 8192, 12288, some (fun _ => 0), some (fun _ => 0),
      some (fun _ => 0), 12845056, []⟩).1 2 rfl (by decide)
    (fun k hk => by interval_cases k <;> decide) |>.1 5 (by decide)
  rw [h1, Option.map_some', h2]
  rfl

/-! ## Activation types the driver does not know -/

/-- For an `act_type` other than 0 and 1 the driver's `activation` stores nothing and returns
`true`. -/
theorem activation_other (input output : Int → Int) (size act_type : Int)
    (h0 : act_type ≠ 0) (h1 : act_type ≠ 1) :
    CNNFPGADriver.activation input output size act_type = (output, true) := by
  unfold CNNFPGADriver.activation
  congr 1
  apply forLoop_id
  intro i _ _
  simp [h0, h1]

/-- C36, the failing case: `activation` with `act_type = 2` and `size = 3` on an output buffer
holding 77 everywhere returns `true` and leaves the three output elements at 77: no element is
written. The same holds for every `act_type` other than 0 and 1. -/
theorem C36_activation_unknown_type :
    (CNNFPGADriver.activation (fun _ => -5) (fun _ => 77) 3 2).2 = true ∧
    (CNNFPGADriver.activation (fun _ => -5) (fun _ => 77) 3 2).1 0 = 77 ∧
    (CNNFPGADriver.activation (fun _ => -5) (fun _ => 77) 3 2).1 1 = 77 ∧
    (CNNFPGADriver.activation (fun _ => -5) (fun _ => 77) 3 2).1 2 = 77 ∧
    (CNNFPGADriver.activation (fun _ => -5) (fun _ => 77) 3 0).1 0 = 0 := by
  decide

/-! ## The two global average poolings -/

/-- C37: for every input tensor, output buffer, height, width and channel count with
`height * width ≥ 1`, `CPUConvolution::global_avg_pool` and
`CNNFPGADriver::global_avg_pooling` leave the same contents in the output; the driver's function
returns `true`. -/
theorem C37_global_avg_pool_paths_agree (input output : Int → Int) (height width channels : Int)
    (_hsize : 1 ≤ height * width) :
    (CNNFPGADriver.global_avg_pooling input output height width channels).1
      = CPUConvolution.global_avg_pool input output height width channels ∧
    (CNNFPGADriver.global_avg_pooling input output height width channels).2 = true :=
  ⟨rfl, rfl⟩

/-- C37, instance: a 2×2×1 tensor. -/
theorem C37_global_avg_pool_paths_agree_witness :
    (1 : Int) ≤ 2 * 2 ∧
    (CNNFPGADriver.global_avg_pooling (fun i => i) (fun _ => 0) 2 2 1).1
      = CPUConvolution.global_avg_pool (fun i => i) (fun _ => 0) 2 2 1 :=
  ⟨by decide, (C37_global_avg_pool_paths_agree (fun i => i) (fun _ => 0) 2 2 1 (by decide)).1⟩

/-! ## Cleanup -/

namespace CNNFPGADriver

/-- After `cleanup` the four pointers are null and the descriptor is negative; a second
`cleanup` changes nothing. -/
theorem cleanup_spec (d : State) :
    (cleanup d).fpga_base = none ∧ (cleanup d).input_buffer_virt = none ∧
    (cleanup d).output_buffer_virt = none ∧ (cleanup d).weight_buffer_virt = none ∧
    (cleanup d).mem_fd < 0 ∧ (-1 ≤ d.mem_fd → (cleanup d).mem_fd = -1) ∧
    cleanup (cleanup d) = cleanup d := by
  rcases d with ⟨fd, fb, db, ip, op, wp, iv, ov, wv, bs, tr⟩
  by_cases hfd : fd ≥ 0
  · cases fb <;> cases iv <;> cases ov <;> cases wv <;>
      simp [cleanup, unmap_memory, free_contiguous_memory, hfd]
  · have hlt : fd < 0 := by omega
    cases fb <;> cases iv <;> cases ov <;> cases wv <;>
      simp [cleanup, unmap_memory, free_contiguous_memory, hfd, hlt] <;> omega

end CNNFPGADriver

/-- C38: after `CNNFPGADriver::cleanup`, from any driver state (the descriptor `mem_fd` being
`-1` or a descriptor returned by `open`, hence `≥ -1`), the register window pointer `fpga_base`
is null, the host pointers of the input, output and weight DMA buffers are null and `mem_fd` is
`-1`. A second `cleanup` releases nothing further, since its trace is that of the first, and
leaves the state unchanged: `cleanup` is idempotent. -/
theorem C38_cleanup_idempotent (d : CNNFPGADriver.State) (hfd : -1 ≤ d.mem_fd) :
    (CNNFPGADriver.cleanup d).fpga_base = none ∧
    (CNNFPGADriver.cleanup d).input_buffer_virt = none ∧
    (CNNFPGADriver.cleanup d).output_buffer_virt = none ∧
    (CNNFPGADriver.cleanup d).weight_buffer_virt = none ∧
    (CNNFPGADriver.cleanup d).mem_fd = -1 ∧
    (CNNFPGADriver.cleanup (CNNFPGADriver.cleanup d)).trace = (CNNFPGADriver.cleanup d).trace ∧
    CNNFPGADriver.cleanup (CNNFPGADriver.cleanup d) = CNNFPGADriver.cleanup d := by
  obtain ⟨a1, a2, a3, a4, _, a6, a7⟩ := CNNFPGADriver.cleanup_spec d
  exact ⟨a1, a2, a3, a4, a6 hfd, by rw [a7], a7⟩

/-- C38, instance: the driver after a successful `init`; `cleanup` unmaps the window, frees the
three buffers and closes descriptor 3, in this order, after the three events of `init`, and
leaves `mem_fd = -1`. -/
theorem C38_cleanup_idempotent_witness :
    (CNNFPGADriver.cleanup CNNFPGADriver.initialised).trace
      = [CNNFPGADriver.Event.reg_write CNNFPGADriver.CONV_CTRL_REG 2,
         CNNFPGADriver.Event.usleep 1000,
         CNNFPGADriver.Event.reg_write CNNFPGADriver.CONV_CTRL_REG 0,
         CNNFPGADriver.Event.munmap 1048576, CNNFPGADriver.Event.free 12845056,
         CNNFPGADriver.Event.free 12845056, CNNFPGADriver.Event.free 9437184,
         CNNFPGADriver.Event.close 3] ∧
    (CNNFPGADriver.cleanup CNNFPGADriver.initialised).mem_fd = -1 :=
  ⟨by decide, (C38_cleanup_idempotent CNNFPGADriver.initialised (by decide)).2.2.2.2.1⟩

/-! ## Leaky ReLU -/

theorem wrap16_of_range (y : Int) (h1 : -32768 ≤ y) (h2 : y ≤ 32767) : wrap16 y = y := by
  unfold wrap16
  omega

/-- The function `leaky_relu` on a non-positive `data_t` word: the word times 25, divided by
256 and rounded toward minus infinity. -/
theorem leaky_relu_nonpos (x : Int) (h1 : -32768 ≤ x) (h2 : x ≤ 0) :
    leaky_relu x = (x * 25) / 256 := by
  have ha : to_data_t 1 10 = 25 := by decide
  have hz : to_data_t 0 1 = 0 := by decide
  unfold leaky_relu
  dsimp only
  rw [ha, hz, if_neg (by omega), shiftRight8_eq_div]
  exact wrap16_of_range _ (by omega) (by omega)

/-- C39, counterexample: `x = -4`, the word `-1024`. The code returns the word `-100`
(`-0.390625`). The product `x * 0.1 = -0.4` is `-102.4` in units of `2^-8`: truncated to 8
fractional bits it is the word `-103` (toward minus infinity, the quantization mode of the type)
or `-102` (toward zero), not `-100`. -/
theorem C39_leaky_relu_counterexample :
    leaky_relu (-1024) = -100 ∧
    ⌊(((-1024 : Int) : ℚ) / 256 * (1 / 10)) * 256⌋ = -103 ∧
    ⌈(((-1024 : Int) : ℚ) / 256 * (1 / 10)) * 256⌉ = -102 := by
  refine ⟨by decide, ?_, ?_⟩
  · rw [Int.floor_eq_iff]
    constructor <;> norm_num
  · rw [Int.ceil_eq_iff]
    constructor <;> norm_num

/-- C39 (amended): the coefficient `alpha` of the accelerator's `leaky_relu` is the constant 0.1
converted to the 8-fractional-bit format, the word 25 (`25/256 = 0.09765625`). For every 16-bit
fixed-point value `x`, `leaky_relu` returns `x` when `x > 0` and otherwise `x` multiplied by
`25/256`, truncated toward minus infinity to the 8-fractional-bit format: on words, the floor of
`x * 25 / 256`. -/
theorem C39_leaky_relu (x : Int) (hx : -32768 ≤ x ∧ x ≤ 32767) :
    to_data_t 1 10 = 25 ∧
    (0 < x → leaky_relu x = x) ∧
    (x ≤ 0 → leaky_relu x = ⌊(x : ℚ) * (25 / 256)⌋) := by
  refine ⟨by decide, ?_, ?_⟩
  · intro h
    have hz : to_data_t 0 1 = 0 := by decide
    unfold leaky_relu
    dsimp only
    rw [hz, if_pos h]
  · intro h
    rw [leaky_relu_nonpos x hx.1 h]
    have e : (x : ℚ) * (25 / 256) = (((x * 25 : Int)) : ℚ) / (((256 : Int)) : ℚ) := by
      push_cast
      ring
    rw [e, floor_div_eq (x * 25) 256 (by decide)]

/-- C39, instance: the word `-1024` (`x = -4`) gives the word `-100`. -/
theorem C39_leaky_relu_witness :
    (-32768 ≤ (-1024 : Int) ∧ (-1024 : Int) ≤ 32767) ∧
    leaky_relu (-1024) = ⌊((-1024 : Int) : ℚ) * (25 / 256)⌋ :=
  ⟨by decide, (C39_leaky_relu (-1024) (by decide)).2.2 (by decide)⟩
